import Mathlib

/-!
Verification of the jarvis workflow-orchestration core against its
natural-language specification.

The C++ sources under src/application/workflow are shallowly embedded:
`std::string` becomes `Str := List Char`, `std::unordered_map` becomes an
association list (`alookup` is `find`, `minsert` is `operator[]` assignment),
`std::filesystem` timestamps become a function `Fs : Str → Option Nat`
(`none` models a missing or unreadable file, i.e. `fs::exists` false or a
set `error_code`), and bounded recursions (template scanners, the DFS of
the freshness checker and of the cycle validator, the orchestrator's run
loop) carry an explicit fuel argument that the public wrappers instantiate
with a provably sufficient bound: the `none` / fuel-zero branches are
modelling artifacts shown unreachable by the sufficiency lemmas below.
External collaborators (JSON parser, task executors, clock, file events)
are parameters, matching the interfaces the spec lists in its section 6.
-/

namespace Jarvis

/-- Embedded `std::string`: a list of characters. -/
abbrev Str := List Char

/-- Helper to write string literals of the embedding. -/
def chars (s : String) : Str := s.data

/-- `std::unordered_map::find`: first binding of the key in an association list. -/
def alookup {α : Type} (m : List (Str × α)) (k : Str) : Option α :=
  match m with
  | [] => none
  | (k', v) :: rest => if k' = k then some v else alookup rest k

/-- `map[k] = v`: overwrite the existing binding or append a new one. -/
def minsert {α : Type} (m : List (Str × α)) (k : Str) (v : α) : List (Str × α) :=
  if (alookup m k).isSome then
    m.map (fun p => if p.1 = k then (p.1, v) else p)
  else
    m ++ [(k, v)]

/-- `s.rfind(pat, 0) == 0` / prefix test used by the C++ scanners. -/
def startsWithStr (pat s : Str) : Bool :=
  match pat, s with
  | [], _ => true
  | _ :: _, [] => false
  | p :: ps, c :: cs => p = c && startsWithStr ps cs

/-- `s.find(pat) != npos`: some suffix of `s` starts with `pat`. -/
def containsSubstr (s pat : Str) : Bool :=
  match s with
  | [] => startsWithStr pat []
  | _ :: rest => startsWithStr pat s || containsSubstr rest pat

/-- Specification-level substring predicate: `pat` occurs inside `s`. -/
def IsSubstrOf (pat s : Str) : Prop :=
  ∃ pre post, s = pre ++ pat ++ post

/-- `value.find(close, i)`: split at the first closing brace, returning the
text before it and the rest after it; `none` when no closing brace exists. -/
def splitAtBrace (s : Str) : Option (Str × Str) :=
  match s with
  | [] => none
  | c :: rest =>
    if c = '}' then some ([], rest)
    else
      match splitAtBrace rest with
      | none => none
      | some (k, r) => some (c :: k, r)

/-- Lexicographic `operator<` of `std::string`. -/
def strLtb (a b : Str) : Bool :=
  match a, b with
  | [], [] => false
  | [], _ :: _ => true
  | _ :: _, [] => false
  | c :: cs, d :: ds => decide (c < d) || (decide (c = d) && strLtb cs ds)

/-- Insertion into an ascending list, for `std::sort` on slot names. -/
def insertStrSorted (x : Str) (l : List Str) : List Str :=
  match l with
  | [] => [x]
  | y :: ys => if strLtb x y then x :: y :: ys else y :: insertStrSorted x ys

/-- `std::sort` on a list of strings (ascending, lexicographic). -/
def sortStrs (l : List Str) : List Str :=
  match l with
  | [] => []
  | x :: xs => insertStrSorted x (sortStrs xs)

/-- `*std::max_element` over a timestamp list (0 on the guarded-empty case). -/
def listMax (l : List Nat) : Nat :=
  match l with
  | [] => 0
  | x :: xs => xs.foldl max x

/-- `*std::min_element` over a timestamp list (0 on the guarded-empty case). -/
def listMin (l : List Nat) : Nat :=
  match l with
  | [] => 0
  | x :: xs => xs.foldl min x

/-- The `key=value;` UI summary string built by the orchestrator. -/
def summaryOf (m : List (Str × Str)) : Str :=
  match m with
  | [] => []
  | (k, v) :: rest => k ++ '=' :: v ++ ';' :: summaryOf rest

/-- The filesystem as seen by the freshness checker: modification time per
path, `none` for a missing or unreadable file. -/
abbrev Fs := Str → Option Nat

-- ---------------------------------------------------------------------
-- Data model (workflowTypes.h)
-- ---------------------------------------------------------------------

inductive WorkflowTriggerType where
  | Unknown
  | Auto
  | Cron
  | FileWatch
  | Structure
  | Manual
deriving DecidableEq

inductive TaskInstanceStateKind where
  | Pending
  | Ready
  | Running
  | Skipped
  | Succeeded
  | Failed
deriving DecidableEq

structure TaskIOField where
  type : Str
  isRequired : Bool
deriving DecidableEq

structure TaskEnvironment where
  name : Str
  assistantId : Str
  envVariables : List (Str × Str)
deriving DecidableEq

structure WorkflowTrigger where
  type : WorkflowTriggerType
  id : Str
  isEnabled : Bool
  paramsJson : Str
deriving DecidableEq

structure DataflowDef where
  fromTask : Str
  fromOutput : Str
  toTask : Str
  toInput : Str
deriving DecidableEq

structure TaskDef where
  id : Str
  dependsOn : List Str
  fileInputs : List Str
  fileOutputs : List Str
  environment : TaskEnvironment
  inputs : List (Str × TaskIOField)
  outputs : List (Str × TaskIOField)
deriving DecidableEq

structure WorkflowDefinition where
  version : Str
  id : Str
  triggers : List WorkflowTrigger
  tasks : List (Str × TaskDef)
  dataflows : List DataflowDef
deriving DecidableEq

structure TaskInstanceState where
  state : TaskInstanceStateKind
  attemptCount : Nat
  lastErrorMessage : Str
  inputsJson : Str
  outputsJson : Str
  inputValues : List (Str × Str)
  outputValues : List (Str × Str)
deriving DecidableEq

structure WorkflowRun where
  runId : Str
  workflowId : Str
  taskStates : List (Str × TaskInstanceState)
  isCompleted : Bool
  hasFailed : Bool
deriving DecidableEq

/-- A fresh `TaskInstanceState` as initialized by RunWorkflowOnce. -/
def initialTaskState : TaskInstanceState :=
  ⟨TaskInstanceStateKind.Pending, 0, [], [], [], [], []⟩

/-- Update the instance state stored under one task id. -/
def updState (run : WorkflowRun) (k : Str) (f : TaskInstanceState → TaskInstanceState) :
    WorkflowRun :=
  { run with taskStates := run.taskStates.map (fun p => if p.1 = k then (p.1, f p.2) else p) }

/-- Look up one task's instance state in a run. -/
def lookupState (run : WorkflowRun) (k : Str) : Option TaskInstanceState :=
  alookup run.taskStates k

-- ---------------------------------------------------------------------
-- Shell task executor (shellTaskExecutor.cpp)
-- ---------------------------------------------------------------------

/-- The characters rejected by `ShellTaskExecutor::IsSafeArgument`
(`; & | > < ' " ` + backtick`, written via their codepoints). -/
def forbiddenShellChars : List Char :=
  [Char.ofNat 59, Char.ofNat 38, Char.ofNat 124, Char.ofNat 62,
   Char.ofNat 60, Char.ofNat 39, Char.ofNat 34, Char.ofNat 96]

/-- `std::iscntrl` in the default locale. -/
def isCntrlChar (c : Char) : Bool :=
  c.toNat < 32 || c.toNat = 127

/-- `ShellTaskExecutor::IsSafeArgument`. -/
def isSafeArgument (arg : Str) : Bool :=
  arg.all (fun c => !(isCntrlChar c) && !(forbiddenShellChars.contains c))

/-- `ShellTaskExecutor::ValidateScriptPath`: enforce the `scripts/` prefix. -/
def validateScriptPath (path : Str) : Bool :=
  startsWithStr (chars ("scripts/")) path

/-- `JoinFileList`: space-join a list of file paths. -/
def joinFileList (files : List Str) : Str :=
  match files with
  | [] => []
  | [x] => x
  | x :: y :: rest => x ++ ' ' :: joinFileList (y :: rest)

/-- `JoinArgumentsForSystem`: space-join the argv-style vector. -/
def joinArgumentsForSystem (arguments : List Str) : Str :=
  match arguments with
  | [] => []
  | [x] => x
  | x :: y :: rest => x ++ ' ' :: joinArgumentsForSystem (y :: rest)

/-- `std::stoul` on the index text of `input[N]` / `output[N]`: parse a
maximal leading run of digits (at least one required; exotic inputs such as
negative wrap-around are outside the workflows' domain and modelled as
failure, which the bounds check would also produce). -/
def cppStoulDigits (s : Str) (acc : Nat) : Nat :=
  match s with
  | [] => acc
  | c :: rest => if c.isDigit then cppStoulDigits rest (acc * 10 + (c.toNat - 48)) else acc

def cppStoul (s : Str) : Option Nat :=
  match s with
  | [] => none
  | c :: _ => if c.isDigit then some (cppStoulDigits s 0) else none

/-- One template key of `ExpandTemplatesStrict`: dispatch on the text
between the braces. -/
def expandShellKey (key : Str) (taskDefinition : TaskDef) (taskState : TaskInstanceState) :
    Option Str :=
  if key = chars ("inputs") then some (joinFileList taskDefinition.fileInputs)
  else if key = chars ("outputs") then some (joinFileList taskDefinition.fileOutputs)
  else if startsWithStr (chars ("input[")) key && key.getLast? = some ']' then
    match cppStoul ((key.drop 6).dropLast) with
    | none => none
    | some index =>
      if index < taskDefinition.fileInputs.length then
        taskDefinition.fileInputs.get? index
      else none
  else if startsWithStr (chars ("output[")) key && key.getLast? = some ']' then
    match cppStoul ((key.drop 7).dropLast) with
    | none => none
    | some index =>
      if index < taskDefinition.fileOutputs.length then
        taskDefinition.fileOutputs.get? index
      else none
  else if startsWithStr (chars ("slot.")) key then
    alookup taskState.inputValues (key.drop 5)
  else if startsWithStr (chars ("env.")) key then
    match alookup taskDefinition.environment.envVariables (key.drop 4) with
    | some v => some v
    | none => some []
  else none

/-- `ExpandTemplatesStrict` scanner (fueled; the wrapper passes
`raw.length + 1`, sufficient because every step consumes a character). -/
def expandTemplatesStrictCore (taskDefinition : TaskDef) (taskState : TaskInstanceState) :
    Nat → Str → Option Str
  | 0, _ => none
  | _ + 1, [] => some []
  | fuel + 1, c :: rest =>
    if startsWithStr (chars ("$\x7b")) (c :: rest) then
      match splitAtBrace ((c :: rest).drop 2) with
      | none => none
      | some (key, rest') =>
        match expandShellKey key taskDefinition taskState with
        | none => none
        | some replacement =>
          match expandTemplatesStrictCore taskDefinition taskState fuel rest' with
          | none => none
          | some t => some (replacement ++ t)
    else
      match expandTemplatesStrictCore taskDefinition taskState fuel rest with
      | none => none
      | some t => some (c :: t)

/-- `ExpandTemplatesStrict` of shellTaskExecutor.cpp. -/
def expandTemplatesStrict (raw : Str) (taskDefinition : TaskDef)
    (taskState : TaskInstanceState) : Option Str :=
  expandTemplatesStrictCore taskDefinition taskState (raw.length + 1) raw

/-- `EnsureDefaultInputOutputArgs` (“Option B” defaulting). -/
def ensureDefaultInputOutputArgs (rawArgs : List Str) : List Str :=
  let hasInputMacro := rawArgs.any (fun a =>
    containsSubstr a (chars ("$\x7binputs\x7d")) || containsSubstr a (chars ("$\x7binput[")))
  let hasOutputMacro := rawArgs.any (fun a =>
    containsSubstr a (chars ("$\x7boutputs\x7d")) || containsSubstr a (chars ("$\x7boutput[")))
  let args1 := if hasInputMacro then rawArgs else chars ("$\x7binputs\x7d") :: rawArgs
  if hasOutputMacro then args1 else args1 ++ [chars ("$\x7boutputs\x7d")]

/-- `BuildOutputSlotMap` step 2: fall back to a same-named input value for
any slot the zip did not cover. -/
def buildOutputSlotMapFallback (inputValues : List (Str × Str))
    (outputs : List (Str × TaskIOField)) (acc : List (Str × Str)) : List (Str × Str) :=
  match outputs with
  | [] => acc
  | (name, _) :: rest =>
    if (alookup acc name).isSome then buildOutputSlotMapFallback inputValues rest acc
    else
      match alookup inputValues name with
      | none => buildOutputSlotMapFallback inputValues rest acc
      | some v => buildOutputSlotMapFallback inputValues rest (acc ++ [(name, v)])

/-- `BuildOutputSlotMap` of shellTaskExecutor.cpp: zip declared output slots
with the raw `file_outputs` when the sizes match, then fall back to
same-named input values. -/
def buildOutputSlotMap (taskDefinition : TaskDef) (taskState : TaskInstanceState) :
    List (Str × Str) :=
  let zipPart :=
    if taskDefinition.fileOutputs ≠ [] ∧
        taskDefinition.fileOutputs.length = taskDefinition.outputs.length then
      (taskDefinition.outputs.map Prod.fst).zip taskDefinition.fileOutputs
    else []
  buildOutputSlotMapFallback taskState.inputValues taskDefinition.outputs zipPart

/-- Steps 5 of `ShellTaskExecutor::Execute`: expand each raw argument,
reject unsafe expansions, silently drop empty expansions. -/
def expandShellArgs (taskDefinition : TaskDef) (taskState : TaskInstanceState) :
    List Str → Option (List Str)
  | [] => some []
  | raw :: rest =>
    match expandTemplatesStrict raw taskDefinition taskState with
    | none => none
    | some expanded =>
      if isSafeArgument expanded = false then none
      else
        match expandShellArgs taskDefinition taskState rest with
        | none => none
        | some l => some (if expanded = [] then l else expanded :: l)

/-- Steps 4–6 of `ShellTaskExecutor::Execute`: the command string handed to
`std::system`, given the `command` and `args` extracted from the params
JSON (JSON parsing is the external collaborator). -/
def buildShellCommandLine (taskDefinition : TaskDef) (taskState : TaskInstanceState)
    (commandPath : Str) (rawArgs : List Str) : Option Str :=
  match expandShellArgs taskDefinition taskState (ensureDefaultInputOutputArgs rawArgs) with
  | none => none
  | some expandedArgs => some (joinArgumentsForSystem (commandPath :: expandedArgs))

-- ---------------------------------------------------------------------
-- Dataflow resolver (dataflowResolver.cpp)
-- ---------------------------------------------------------------------

/-- `DataflowResolver::TryResolveFromDataflowEdges`: linear scan for the
first edge targeting this input; a matching edge with a missing source
state or source output fails outright (no further edges are tried). -/
def tryResolveFromDataflowEdges (run : WorkflowRun) (targetTaskId targetInputName : Str) :
    List DataflowDef → Option Str
  | [] => none
  | edge :: rest =>
    if edge.toTask = targetTaskId ∧ edge.toInput = targetInputName then
      match lookupState run edge.fromTask with
      | none => none
      | some sourceTaskState => alookup sourceTaskState.outputValues edge.fromOutput
    else tryResolveFromDataflowEdges run targetTaskId targetInputName rest

/-- `DataflowResolver::ExpandTemplates` scanner (fueled; the wrapper passes
`raw.length + 1`, sufficient because every step consumes a character).
The C++ searches for the literal tag and then for the first closing brace
after it (the tag itself contains none). -/
def expandTemplatesCore (inputValues : List (Str × Str)) : Nat → Str → Option Str
  | 0, _ => none
  | _ + 1, [] => some []
  | fuel + 1, c :: rest =>
    if startsWithStr (chars ("$\x7binputs.")) (c :: rest) then
      match splitAtBrace ((c :: rest).drop 9) with
      | none => none
      | some (key, rest') =>
        match alookup inputValues key with
        | none => none
        | some v =>
          match expandTemplatesCore inputValues fuel rest' with
          | none => none
          | some t => some (v ++ t)
    else
      match expandTemplatesCore inputValues fuel rest with
      | none => none
      | some t => some (c :: t)

/-- `DataflowResolver::ExpandTemplates`. -/
def expandTemplates (rawValue : Str) (inputValues : List (Str × Str)) : Option Str :=
  expandTemplatesCore inputValues (rawValue.length + 1) rawValue

/-- Step 1 of `ResolveInputsForTask`: resolve every declared input from the
dataflow edges. -/
def resolveStep1 (wf : WorkflowDefinition) (run : WorkflowRun) (taskId : Str) :
    List (Str × TaskIOField) → Option (List (Str × Str))
  | [] => some []
  | (inputName, _) :: rest =>
    match tryResolveFromDataflowEdges run taskId inputName wf.dataflows with
    | none => none
    | some v =>
      match resolveStep1 wf run taskId rest with
      | none => none
      | some m => some ((inputName, v) :: m)

/-- Step 2 of `ResolveInputsForTask`: the in-place expansion pass over the
resolved map; each value is expanded against the current map, in which
earlier entries have already been rewritten. -/
def expandPassGo (done : List (Str × Str)) : List (Str × Str) → Option (List (Str × Str))
  | [] => some done
  | (k, v) :: rest =>
    match expandTemplates v (done ++ (k, v) :: rest) with
    | none => none
    | some v' => expandPassGo (done ++ [(k, v')]) rest

/-- `DataflowResolver::ResolveInputsForTask`. -/
def resolveInputsForTask (wf : WorkflowDefinition) (run : WorkflowRun)
    (taskDefinition : TaskDef) (taskId : Str) : Option (List (Str × Str)) :=
  match resolveStep1 wf run taskId taskDefinition.inputs with
  | none => none
  | some resolved => expandPassGo [] resolved

-- ---------------------------------------------------------------------
-- Orchestrator template path resolution (workflowOrchestrator.cpp, anon ns)
-- ---------------------------------------------------------------------

/-- `ResolveTemplateString` scanner of the orchestrator (fueled as above):
tokens `inputs.NAME` / `outputs.NAME` between braces, anything else fails. -/
def resolveTemplateCore (inputValues outputValues : List (Str × Str)) :
    Nat → Str → Option Str
  | 0, _ => none
  | _ + 1, [] => some []
  | fuel + 1, c :: rest =>
    if startsWithStr (chars ("$\x7b")) (c :: rest) then
      match splitAtBrace ((c :: rest).drop 2) with
      | none => none
      | some (token, rest') =>
        if startsWithStr (chars ("inputs.")) token then
          match alookup inputValues (token.drop 7) with
          | none => none
          | some v =>
            match resolveTemplateCore inputValues outputValues fuel rest' with
            | none => none
            | some t => some (v ++ t)
        else if startsWithStr (chars ("outputs.")) token then
          match alookup outputValues (token.drop 8) with
          | none => none
          | some v =>
            match resolveTemplateCore inputValues outputValues fuel rest' with
            | none => none
            | some t => some (v ++ t)
        else none
    else
      match resolveTemplateCore inputValues outputValues fuel rest with
      | none => none
      | some t => some (c :: t)

/-- `ResolveTemplateString`, including its final check that no `$\x7b` is
left in the resolved text. -/
def resolveTemplateString (value : Str) (inputValues outputValues : List (Str × Str)) :
    Option Str :=
  match resolveTemplateCore inputValues outputValues (value.length + 1) value with
  | none => none
  | some out => if containsSubstr out (chars ("$\x7b")) then none else some out

/-- `ResolveTemplatePathList`: template-free entries pass through literally,
an entry that resolves to the empty string fails. -/
def resolveTemplatePathList (inputValues outputValues : List (Str × Str)) :
    List Str → Option (List Str)
  | [] => some []
  | t :: ts =>
    match resolveTemplateString t inputValues outputValues with
    | none =>
      if containsSubstr t (chars ("$\x7b")) then none
      else
        match resolveTemplatePathList inputValues outputValues ts with
        | none => none
        | some ps => some (t :: ps)
    | some resolved =>
      if resolved = [] then none
      else
        match resolveTemplatePathList inputValues outputValues ts with
        | none => none
        | some ps => some (resolved :: ps)

/-- `ResolveFreshnessPathsForTask`: only run the dataflow resolver when a
path template references `$\x7binputs.`; output values come from the task's
own instance state. -/
def resolveFreshnessPathsForTask (wf : WorkflowDefinition) (run : WorkflowRun)
    (taskDefinition : TaskDef) (taskId : Str) : Option (List Str × List Str) :=
  let needsInputResolution :=
    taskDefinition.fileInputs.any (fun v => containsSubstr v (chars ("$\x7binputs."))) ||
    taskDefinition.fileOutputs.any (fun v => containsSubstr v (chars ("$\x7binputs.")))
  let inputValuesOpt :=
    if needsInputResolution then resolveInputsForTask wf run taskDefinition taskId
    else some []
  match inputValuesOpt with
  | none => none
  | some inputValues =>
    let outputValues :=
      match lookupState run taskId with
      | some st => st.outputValues
      | none => []
    match resolveTemplatePathList inputValues outputValues taskDefinition.fileInputs with
    | none => none
    | some inputPaths =>
      match resolveTemplatePathList inputValues outputValues taskDefinition.fileOutputs with
      | none => none
      | some outputPaths => some (inputPaths, outputPaths)

-- ---------------------------------------------------------------------
-- Skip population (PopulateSkippedTaskOutputsIfPossible)
-- ---------------------------------------------------------------------

/-- Sequential `m_OutputValues[slot] = path` assignments. -/
def assignAll (m : List (Str × Str)) : List (Str × Str) → List (Str × Str)
  | [] => m
  | (k, v) :: rest => assignAll (minsert m k v) rest

/-- The core of `PopulateSkippedTaskOutputsIfPossible` after path
resolution: derive the slot → path map. -/
def populateSkippedTaskOutputs (outputs : List (Str × TaskIOField))
    (resolvedOutputPaths : List Str) (outputValues : List (Str × Str)) :
    List (Str × Str) :=
  if outputs = [] ∨ resolvedOutputPaths = [] then outputValues
  else
    let outputSlotNames := sortStrs (outputs.map Prod.fst)
    if outputSlotNames.length = resolvedOutputPaths.length then
      assignAll outputValues (outputSlotNames.zip resolvedOutputPaths)
    else if resolvedOutputPaths.length = 1 then
      assignAll outputValues
        (outputSlotNames.map (fun n => (n, resolvedOutputPaths.headD [])))
    else if outputSlotNames.length = 1 then
      assignAll outputValues
        [(outputSlotNames.headD [], resolvedOutputPaths.headD [])]
    else outputValues

/-- `PopulateSkippedTaskOutputsIfPossible` as applied to one task state. -/
def populateSkippedTaskOutputsIfPossible (wf : WorkflowDefinition) (run : WorkflowRun)
    (taskDefinition : TaskDef) (taskId : Str) (taskState : TaskInstanceState) :
    TaskInstanceState :=
  match resolveFreshnessPathsForTask wf run taskDefinition taskId with
  | none => taskState
  | some (_, resolvedOutputPaths) =>
    if taskDefinition.outputs = [] ∨ resolvedOutputPaths = [] then taskState
    else
      let newValues :=
        populateSkippedTaskOutputs taskDefinition.outputs resolvedOutputPaths
          taskState.outputValues
      { taskState with outputValues := newValues, outputsJson := summaryOf newValues }

/-- The skip-population rule exactly as the specification words it: `S` the
declared output slot names sorted ascending, `P` the resolved paths in
declaration order; pair positionally when `card S = card P`, broadcast a single
path, map a single slot to `P[0]`, else leave the outputs empty. -/
def skipPopulationRuleSpec (slotNames : List Str) (resolvedPaths : List Str) :
    List (Str × Str) :=
  let s := sortStrs slotNames
  if s.length = resolvedPaths.length then s.zip resolvedPaths
  else if resolvedPaths.length = 1 then s.map (fun n => (n, resolvedPaths.headD []))
  else if s.length = 1 then [(s.headD [], resolvedPaths.headD [])]
  else []

-- ---------------------------------------------------------------------
-- Freshness checker (taskFreshnessChecker.cpp)
-- ---------------------------------------------------------------------

structure ResolvedPaths where
  inputPaths : List Str
  outputPaths : List Str
deriving DecidableEq

/-- The callback resolving a task's output paths
(`TaskFreshnessChecker::ResolveOutputPathsFn`, bool + out-parameter). -/
abbrev ResolveOutputPathsFn := Str → Option (List Str)

/-- The existence + `last_write_time` loop over a path list: `none` when a
path is missing or unreadable, otherwise the timestamps in order. -/
def pathTimes (fs : Fs) : List Str → Option (List Nat)
  | [] => some []
  | p :: ps =>
    match fs p with
    | none => none
    | some t =>
      match pathTimes fs ps with
      | none => none
      | some ts => some (t :: ts)

/-- `TaskFreshnessChecker::CollectUpstreamOutputTimes`, fueled.  The job
argument merges the function body (`Sum.inl taskId`) with its dependency
for-loop (`Sum.inr deps`); `visited` and the collected times are threaded as
in the C++ by-reference parameters, and the boolean is the C++ return
value.  `none` is fuel exhaustion only. -/
def collectGo (wf : WorkflowDefinition) (resolve : ResolveOutputPathsFn) (fs : Fs) :
    Nat → Sum Str (List Str) → List Str → List Nat →
    Option (Bool × List Str × List Nat)
  | 0, _, _, _ => none
  | fuel + 1, Sum.inl taskId, visited, outTimes =>
    if taskId ∈ visited then some (true, visited, outTimes)
    else
      let visited' := taskId :: visited
      match alookup wf.tasks taskId with
      | none => some (false, visited', outTimes)
      | some taskDefinition =>
        match collectGo wf resolve fs fuel (Sum.inr taskDefinition.dependsOn) visited' outTimes with
        | none => none
        | some (false, v, ts) => some (false, v, ts)
        | some (true, v, ts) =>
          match resolve taskId with
          | none => some (false, v, ts)
          | some outputPaths =>
            match pathTimes fs outputPaths with
            | none => some (false, v, ts)
            | some mts => some (true, v, ts ++ mts)
  | _ + 1, Sum.inr [], visited, outTimes => some (true, visited, outTimes)
  | fuel + 1, Sum.inr (dep :: deps), visited, outTimes =>
    match collectGo wf resolve fs fuel (Sum.inl dep) visited outTimes with
    | none => none
    | some (false, v, ts) => some (false, v, ts)
    | some (true, v, ts) => collectGo wf resolve fs fuel (Sum.inr deps) v ts

/-- Fuel bound for `collectGo`, derived from the sizes of the task table. -/
def collectFuel (wf : WorkflowDefinition) : Nat :=
  2 + ((wf.tasks.map Prod.fst).map
    (fun k => 2 + (match alookup wf.tasks k with
      | some td => td.dependsOn.length
      | none => 0))).sum

/-- `TaskFreshnessChecker::IsTaskUpToDate`. -/
def isTaskUpToDate (wf : WorkflowDefinition) (taskId : Str)
    (resolvedPaths : ResolvedPaths) (resolve : ResolveOutputPathsFn) (fs : Fs) : Bool :=
  if resolvedPaths.outputPaths = [] then false
  else
    match pathTimes fs resolvedPaths.inputPaths with
    | none => false
    | some inputTimes =>
      match collectGo wf resolve fs (collectFuel wf) (Sum.inl taskId) [] [] with
      | none => false
      | some (false, _, _) => false
      | some (true, _, upstreamTimes) =>
        let allInputTimes := inputTimes ++ upstreamTimes
        if allInputTimes = [] then false
        else
          match pathTimes fs resolvedPaths.outputPaths with
          | none => false
          | some outputTimes =>
            if outputTimes = [] then false
            else decide (listMax allInputTimes ≤ listMin outputTimes)

/-- `resolveUpstreamOutputs` lambda of `ExecuteOneReadyWave`: find the
upstream task and resolve its output paths through the template machinery. -/
def resolveUpstreamOutputs (wf : WorkflowDefinition) (run : WorkflowRun) :
    ResolveOutputPathsFn := fun upstreamTaskId =>
  match alookup wf.tasks upstreamTaskId with
  | none => none
  | some taskDefinition =>
    match resolveFreshnessPathsForTask wf run taskDefinition upstreamTaskId with
    | none => none
    | some (_, outputPaths) => some outputPaths

/-- Reflexive-transitive reachability through `depends_on` edges: the set of
tasks the freshness checker's traversal walks, starting at the task itself. -/
inductive Reaches (wf : WorkflowDefinition) : Str → Str → Prop
  | refl (t : Str) : Reaches wf t t
  | step {a b c : Str} {td : TaskDef} :
      Reaches wf a b → alookup wf.tasks b = some td → c ∈ td.dependsOn → Reaches wf a c

/-- Reachability through `depends_on` edges along a path all of whose nodes
avoid the visited set. -/
inductive ReachesAvoiding (wf : WorkflowDefinition) (v : List Str) : Str → Str → Prop
  | refl (t : Str) : t ∉ v → ReachesAvoiding wf v t t
  | step {a b c : Str} {td : TaskDef} :
      ReachesAvoiding wf v a b → alookup wf.tasks b = some td → c ∈ td.dependsOn →
      c ∉ v → ReachesAvoiding wf v a c

/-- A task the freshness traversal accepts: present in the task table, output
paths resolvable, every resolved output path present on the filesystem. -/
def TaskOk (wf : WorkflowDefinition) (resolve : ResolveOutputPathsFn) (fs : Fs)
    (t : Str) : Prop :=
  (alookup wf.tasks t).isSome ∧
  ∃ ps, resolve t = some ps ∧ ∀ p ∈ ps, (fs p).isSome

/-- The output timestamps one task contributes to the traversal. -/
def mtimesOf (resolve : ResolveOutputPathsFn) (fs : Fs) (t : Str) : List Nat :=
  match resolve t with
  | some ps => ps.filterMap fs
  | none => []

/-- Number of `depends_on` edges of a task id (0 when absent). -/
def depsLen (wf : WorkflowDefinition) (k : Str) : Nat :=
  match alookup wf.tasks k with
  | some td => td.dependsOn.length
  | none => 0

/-- Remaining traversal weight: the cost of the task ids not yet visited. -/
def wrem (wf : WorkflowDefinition) (v : List Str) : Nat :=
  (((wf.tasks.map Prod.fst).filter (fun k => decide (k ∉ v))).map
    (fun k => 2 + depsLen wf k)).sum

/-- Fuel bound for one `collectGo` job given the current visited set. -/
def collectBound (wf : WorkflowDefinition) (v : List Str) : Sum Str (List Str) → Nat
  | Sum.inl _ => 2 + wrem wf v
  | Sum.inr deps => 2 + deps.length + wrem wf v

/-- Reachability from a `collectGo` job, avoiding the visited set. -/
def RAj (wf : WorkflowDefinition) (v : List Str) : Sum Str (List Str) → Str → Prop
  | Sum.inl s, t => ReachesAvoiding wf v s t
  | Sum.inr deps, t => ∃ d ∈ deps, ReachesAvoiding wf v d t

-- ---------------------------------------------------------------------
-- Registry: loading (workflowRegistry.cpp LoadDirectory / LoadFile)
-- ---------------------------------------------------------------------

/-- One `std::filesystem::directory_iterator` entry, as the registry
inspects it (path, regular-file flag, extension). -/
structure DirEntry where
  path : Str
  isRegularFile : Bool
  extension : Str
deriving DecidableEq

/-- The external file reader: `none` models an unopenable file. -/
abbrev FileContentsFn := Str → Option Str

/-- The external JCWF parser (`WorkflowJsonParser::ParseWorkflowJson`):
`none` models a parse failure with its textual error. -/
abbrev ParseWorkflowFn := Str → Option WorkflowDefinition

abbrev Registry := List (Str × WorkflowDefinition)

/-- `WorkflowRegistry::LoadFile`: open, parse, enforce version "1.0",
register under the workflow's own id (overwriting a previous binding). -/
def loadFile (fileContents : FileContentsFn) (parseWorkflow : ParseWorkflowFn)
    (reg : Registry) (path : Str) : Option Registry :=
  match fileContents path with
  | none => none
  | some jsonContent =>
    match parseWorkflow jsonContent with
    | none => none
    | some definition =>
      if definition.version ≠ chars ("1.0") then none
      else some (minsert reg definition.id definition)

/-- The directory walk of `WorkflowRegistry::LoadDirectory`: skip entries
that are not regular `.jcwf` files; a failing `LoadFile` returns false at
once, abandoning the remaining entries. -/
def loadDirectoryFrom (fileContents : FileContentsFn) (parseWorkflow : ParseWorkflowFn)
    (reg : Registry) : List DirEntry → Bool × Registry
  | [] => (true, reg)
  | entry :: rest =>
    if entry.isRegularFile && entry.extension = chars (".jcwf") then
      match loadFile fileContents parseWorkflow reg entry.path with
      | none => (false, reg)
      | some reg' => loadDirectoryFrom fileContents parseWorkflow reg' rest
    else loadDirectoryFrom fileContents parseWorkflow reg rest

/-- `WorkflowRegistry::LoadDirectory`. -/
def loadDirectory (fileContents : FileContentsFn) (parseWorkflow : ParseWorkflowFn)
    (dirExists : Bool) (entries : List DirEntry) (reg : Registry) : Bool × Registry :=
  if dirExists = false then (false, reg)
  else loadDirectoryFrom fileContents parseWorkflow reg entries

-- ---------------------------------------------------------------------
-- Registry: validation (workflowRegistry.cpp ValidateAll and helpers)
-- ---------------------------------------------------------------------

/-- `WorkflowRegistry::ValidateTriggers` loop with its `seenIds` set. -/
def validateTriggersGo : List WorkflowTrigger → List Str → Bool
  | [], _ => true
  | trig :: rest, seenIds =>
    if trig.id ∈ seenIds then false
    else if trig.type = WorkflowTriggerType.Unknown then false
    else if trig.type = WorkflowTriggerType.Cron ∧ trig.paramsJson = [] then false
    else validateTriggersGo rest (trig.id :: seenIds)

def validateTriggers (wf : WorkflowDefinition) : Bool :=
  validateTriggersGo wf.triggers []

/-- `WorkflowRegistry::ValidateTaskIO`. -/
def validateTaskIO (task : TaskDef) : Bool :=
  task.inputs.all (fun p => !(p.2.isRequired && p.2.type = [])) &&
  task.outputs.all (fun p => !(p.2.type = []))

/-- `WorkflowRegistry::ValidateTasks`. -/
def validateTasks (wf : WorkflowDefinition) : Bool :=
  wf.tasks.all (fun p =>
    p.2.dependsOn.all (fun dep => (alookup wf.tasks dep).isSome) && validateTaskIO p.2)

/-- `WorkflowRegistry::ValidateDataflow`. -/
def validateDataflow (wf : WorkflowDefinition) : Bool :=
  wf.dataflows.all (fun df =>
    match alookup wf.tasks df.fromTask, alookup wf.tasks df.toTask with
    | some taskFrom, some taskTo =>
      (df.fromOutput = [] || (alookup taskFrom.outputs df.fromOutput).isSome) &&
      (df.toInput = [] || (alookup taskTo.inputs df.toInput).isSome)
    | _, _ => false)

/-- The three-colour DFS of `WorkflowRegistry::ValidateNoCycles`, fueled.
`Sum.inl taskId` is the recursive lambda, `Sum.inr deps` its loop over the
dependencies; the two string lists are the `visiting` and `visited` sets and
the boolean means "cycle found".  On a task id missing from the table the
C++ `at` throws `std::out_of_range`; that branch (modelled as no cycle) is
unreachable once `ValidateTasks` passed.  `none` is fuel exhaustion only. -/
def dfsGo (wf : WorkflowDefinition) :
    Nat → Sum Str (List Str) → List Str → List Str →
    Option (Bool × List Str × List Str)
  | 0, _, _, _ => none
  | fuel + 1, Sum.inl taskId, visiting, visited =>
    if taskId ∈ visiting then some (true, visiting, visited)
    else if taskId ∈ visited then some (false, visiting, visited)
    else
      let visiting' := taskId :: visiting
      match alookup wf.tasks taskId with
      | none => some (false, visiting', visited)
      | some task =>
        match dfsGo wf fuel (Sum.inr task.dependsOn) visiting' visited with
        | none => none
        | some (true, vg, vd) => some (true, vg, vd)
        | some (false, vg, vd) => some (false, vg.erase taskId, taskId :: vd)
  | _ + 1, Sum.inr [], visiting, visited => some (false, visiting, visited)
  | fuel + 1, Sum.inr (dep :: deps), visiting, visited =>
    match dfsGo wf fuel (Sum.inl dep) visiting visited with
    | none => none
    | some (true, vg, vd) => some (true, vg, vd)
    | some (false, vg, vd) => dfsGo wf fuel (Sum.inr deps) vg vd

/-- Fuel bound for `dfsGo`. -/
def dfsFuel (wf : WorkflowDefinition) : Nat :=
  2 + ((wf.tasks.map Prod.fst).map
    (fun k => 2 + (match alookup wf.tasks k with
      | some td => td.dependsOn.length
      | none => 0))).sum

/-- `WorkflowRegistry::ValidateNoCycles`: run the DFS from every task,
threading the colour sets, and report whether no cycle was found. -/
def validateNoCycles (wf : WorkflowDefinition) : Bool :=
  (wf.tasks.foldl (fun acc p =>
    match dfsGo wf (dfsFuel wf) (Sum.inl p.1) acc.2.1 acc.2.2 with
    | none => acc
    | some (true, vg, vd) => (false, vg, vd)
    | some (false, vg, vd) => (acc.1, vg, vd))
    (true, ([] : List Str), ([] : List Str))).1

/-- `WorkflowRegistry::ValidateWorkflow`. -/
def validateWorkflow (wf : WorkflowDefinition) : Bool :=
  let ok1 := validateTriggers wf
  let ok2 := validateTasks wf
  let ok3 := validateDataflow wf
  let ok4 := validateNoCycles wf
  ok1 && ok2 && ok3 && ok4

/-- `WorkflowRegistry::ValidateAll`. -/
def validateAll (reg : Registry) : Bool :=
  reg.foldl (fun allOk p => if validateWorkflow p.2 then allOk else false) true

-- ---------------------------------------------------------------------
-- Orchestrator execution loop (workflowOrchestrator.cpp)
-- ---------------------------------------------------------------------

/-- The executor registry dispatch (`TaskExecutorRegistry::Execute`), an
external collaborator: it may rewrite the task's instance state and reports
success; a thrown exception is observationally a `false` result. -/
abbrev Exec := Str → TaskInstanceState → Bool × TaskInstanceState

/-- A dependency state accepted by `IsTaskReady`. -/
def depSatisfied (kind : TaskInstanceStateKind) : Bool :=
  match kind with
  | TaskInstanceStateKind.Succeeded => true
  | TaskInstanceStateKind.Skipped => true
  | _ => false

/-- A terminal instance state (Succeeded, Skipped, Failed). -/
def terminalState (kind : TaskInstanceStateKind) : Bool :=
  match kind with
  | TaskInstanceStateKind.Succeeded => true
  | TaskInstanceStateKind.Skipped => true
  | TaskInstanceStateKind.Failed => true
  | _ => false

/-- The Pending/Ready/Running test of the deadlock scan. -/
def activeState (kind : TaskInstanceStateKind) : Bool :=
  match kind with
  | TaskInstanceStateKind.Pending => true
  | TaskInstanceStateKind.Ready => true
  | TaskInstanceStateKind.Running => true
  | _ => false

/-- The Pending-or-Ready test of the wave scan. -/
def pendingOrReady (kind : TaskInstanceStateKind) : Bool :=
  match kind with
  | TaskInstanceStateKind.Pending => true
  | TaskInstanceStateKind.Ready => true
  | _ => false

/-- `WorkflowOrchestrator::IsTaskReady`: every dependency Succeeded or
Skipped; an unknown dependency id is not ready. -/
def isTaskReady (run : WorkflowRun) (taskDefinition : TaskDef) : Bool :=
  taskDefinition.dependsOn.all (fun dependencyId =>
    match lookupState run dependencyId with
    | none => false
    | some st => depSatisfied st.state)

/-- `WorkflowOrchestrator::ExecuteTaskInstance`: mark Running, bump the
attempt count, resolve inputs, snapshot them, dispatch the executor,
snapshot outputs, finalize the state. -/
def executeTaskInstance (wf : WorkflowDefinition) (fs : Fs) (exec : Exec)
    (run : WorkflowRun) (taskDefinition : TaskDef) (taskId : Str) :
    Bool × WorkflowRun :=
  let run1 := updState run taskId (fun s =>
    { s with state := TaskInstanceStateKind.Running, attemptCount := s.attemptCount + 1 })
  match resolveInputsForTask wf run1 taskDefinition taskId with
  | none =>
    (false, updState run1 taskId (fun s =>
      { s with
        lastErrorMessage := chars ("Failed to resolve task inputs via dataflow / context"),
        state := TaskInstanceStateKind.Failed }))
  | some resolvedInputs =>
    let run2 := updState run1 taskId (fun s =>
      { s with inputValues := resolvedInputs, inputsJson := summaryOf resolvedInputs })
    match lookupState run2 taskId with
    | none => (false, run2)
    | some stateBefore =>
      let (executedOk, stateAfter) := exec taskId stateBefore
      let run3 := updState run2 taskId (fun _ => stateAfter)
      if executedOk = false then
        (false,
          if stateAfter.state ≠ TaskInstanceStateKind.Failed then
            updState run3 taskId (fun s => { s with state := TaskInstanceStateKind.Failed })
          else run3)
      else
        let run4 := updState run3 taskId (fun s =>
          { s with outputsJson := summaryOf s.outputValues })
        let run5 := updState run4 taskId (fun s =>
          if ¬(s.state = TaskInstanceStateKind.Failed) ∧
              ¬(s.state = TaskInstanceStateKind.Skipped) then
            { s with state := TaskInstanceStateKind.Succeeded }
          else s)
        match lookupState run5 taskId with
        | some st => (depSatisfied st.state, run5)
        | none => (false, run5)

/-- Phase 1 of `ExecuteOneReadyWave`: the scan over all task states,
threading the run (skips and definition failures mutate it), the progress
flag and the ready list. -/
def scanGo (wf : WorkflowDefinition) (fs : Fs) :
    List Str → WorkflowRun → Bool → List Str → WorkflowRun × Bool × List Str
  | [], run, progress, ready => (run, progress, ready)
  | taskId :: restKeys, run, progress, ready =>
    match lookupState run taskId with
    | none => scanGo wf fs restKeys run progress ready
    | some taskState =>
      if pendingOrReady taskState.state = false then
        scanGo wf fs restKeys run progress ready
      else
        match alookup wf.tasks taskId with
        | none =>
          let run' :=
            { updState run taskId (fun s => { s with state := TaskInstanceStateKind.Failed })
              with hasFailed := true }
          scanGo wf fs restKeys run' true ready
        | some taskDefinition =>
          if isTaskReady run taskDefinition = false then
            scanGo wf fs restKeys run progress ready
          else
            match resolveFreshnessPathsForTask wf run taskDefinition taskId with
            | some (inputPaths, outputPaths) =>
              if isTaskUpToDate wf taskId ⟨inputPaths, outputPaths⟩
                  (resolveUpstreamOutputs wf run) fs then
                let run1 := updState run taskId
                  (populateSkippedTaskOutputsIfPossible wf run taskDefinition taskId)
                let run2 := updState run1 taskId (fun s =>
                  { s with state := TaskInstanceStateKind.Skipped })
                scanGo wf fs restKeys run2 true ready
              else scanGo wf fs restKeys run progress (ready ++ [taskId])
            | none =>
              scanGo wf fs restKeys run progress (ready ++ [taskId])

/-- Phase 2: mark every ready task Running before dispatch. -/
def markRunningGo : List Str → WorkflowRun → WorkflowRun
  | [], run => run
  | taskId :: rest, run =>
    markRunningGo rest
      (updState run taskId (fun s => { s with state := TaskInstanceStateKind.Running }))

/-- Phases 3–4, sequentialized: run every ready task and fold in the join
logic (a false result forces Failed and marks the run failed; a true result
promotes a non-terminal state to Succeeded without overriding Skipped).
The future-join barrier makes the C++ equivalent to this per-task order. -/
def dispatchGo (wf : WorkflowDefinition) (fs : Fs) (exec : Exec) :
    List Str → WorkflowRun → WorkflowRun
  | [], run => run
  | taskId :: rest, run =>
    match alookup wf.tasks taskId with
    | none => dispatchGo wf fs exec rest run
    | some taskDefinition =>
      let (success, run') := executeTaskInstance wf fs exec run taskDefinition taskId
      let run'' :=
        if success then
          updState run' taskId (fun s =>
            if ¬(s.state = TaskInstanceStateKind.Succeeded) ∧
                ¬(s.state = TaskInstanceStateKind.Skipped) then
              { s with state := TaskInstanceStateKind.Succeeded }
            else s)
        else
          { updState run' taskId (fun s => { s with state := TaskInstanceStateKind.Failed })
            with hasFailed := true }
      dispatchGo wf fs exec rest run''

/-- `WorkflowOrchestrator::ExecuteOneReadyWave` (always "returns true" in
the C++; the boolean here is the `outMadeProgress` flag). -/
def executeOneReadyWave (wf : WorkflowDefinition) (fs : Fs) (exec : Exec)
    (run : WorkflowRun) : WorkflowRun × Bool :=
  match scanGo wf fs (run.taskStates.map Prod.fst) run false [] with
  | (run1, progress, readyIds) =>
    if readyIds = [] then (run1, progress)
    else
      let run2 := markRunningGo readyIds run1
      let run3 := dispatchGo wf fs exec readyIds run2
      (run3, true)

/-- The while-loop of `WorkflowOrchestrator::ExecuteWorkflow`, fueled (the
C++ loop terminates because every wave with progress strictly reduces the
non-terminal tasks; `executeWorkflow` passes a sufficient bound). -/
def executeWorkflowLoop (wf : WorkflowDefinition) (fs : Fs) (exec : Exec) :
    Nat → WorkflowRun → Bool → WorkflowRun × Bool
  | fuel, run, overallSuccess =>
    if run.isCompleted then (run, overallSuccess)
    else
      match fuel with
      | 0 => (run, false)
      | fuel + 1 =>
        match executeOneReadyWave wf fs exec run with
        | (run1, madeProgress) =>
          if madeProgress = false then
            let hasActiveTasks := run1.taskStates.any (fun p => activeState p.2.state)
            let run2 :=
              if hasActiveTasks then
                { run1 with hasFailed := true, isCompleted := true }
              else { run1 with isCompleted := true }
            executeWorkflowLoop wf fs exec fuel run2 (overallSuccess && !hasActiveTasks)
          else
            let allTerminal := run1.taskStates.all (fun p => terminalState p.2.state)
            let run2 := if allTerminal then { run1 with isCompleted := true } else run1
            executeWorkflowLoop wf fs exec fuel run2 overallSuccess

/-- `WorkflowOrchestrator::ExecuteWorkflow`: drive the loop to completion
and report `overallSuccess && !m_HasFailed`. -/
def executeWorkflow (wf : WorkflowDefinition) (fs : Fs) (exec : Exec)
    (run : WorkflowRun) : WorkflowRun × Bool :=
  match executeWorkflowLoop wf fs exec (run.taskStates.length + 1) run true with
  | (runF, overallSuccess) => (runF, overallSuccess && !runF.hasFailed)

/-- `WorkflowOrchestrator::RunWorkflowOnce`: look the workflow up (no
validation gate), build a fresh run with every task Pending, execute, and
return the run alongside the boolean (the C++ also caches it as last run).
`generatedRunId` stands for the wall-clock `GenerateRunId` result. -/
def runWorkflowOnce (reg : Registry) (fs : Fs) (exec : Exec)
    (workflowId runId generatedRunId : Str) : Bool × Option WorkflowRun :=
  match alookup reg workflowId with
  | none => (false, none)
  | some wf =>
    let run0 : WorkflowRun :=
      { runId := if runId = [] then generatedRunId else runId
        workflowId := wf.id
        taskStates := wf.tasks.map (fun p => (p.1, initialTaskState))
        isCompleted := false
        hasFailed := false }
    match executeWorkflow wf fs exec run0 with
    | (runF, success) => (success, some runF)

-- ---------------------------------------------------------------------
-- Trigger engine: file-watch triggers (triggerEngine.cpp)
-- ---------------------------------------------------------------------

inductive FileEventType where
  | Created
  | Modified
  | Deleted
deriving DecidableEq

structure FileWatchTriggerInstance where
  workflowId : Str
  triggerId : Str
  watchedPath : Str
  events : List FileEventType
  debounceMs : Nat
  isEnabled : Bool
  hasFiredOnce : Bool
  lastFireTime : Int
deriving DecidableEq

/-- The file-watch part of the trigger engine state: the trigger vector and
the path → indices bucket map. -/
structure TriggerEngineState where
  fileWatchTriggers : List FileWatchTriggerInstance
  fileWatchIndex : List (Str × List Nat)
deriving DecidableEq

/-- `TriggerEngine::AddFileWatchTrigger`. -/
def addFileWatchTrigger (st : TriggerEngineState) (workflowId triggerId path : Str)
    (events : List FileEventType) (debounceMilliseconds : Nat) (isEnabled : Bool) :
    TriggerEngineState :=
  let triggerIndex := st.fileWatchTriggers.length
  let instance0 : FileWatchTriggerInstance :=
    ⟨workflowId, triggerId, path, events, debounceMilliseconds, isEnabled, false, 0⟩
  let bucket := (alookup st.fileWatchIndex path).getD []
  { fileWatchTriggers := st.fileWatchTriggers ++ [instance0]
    fileWatchIndex := minsert st.fileWatchIndex path (bucket ++ [triggerIndex]) }

/-- The per-bucket loop of `TriggerEngine::NotifyFileEvent`, returning the
new state and the indices of the triggers that fired, in firing order. -/
def notifyGo (kind : FileEventType) (now : Int) :
    List Nat → TriggerEngineState → TriggerEngineState × List Nat
  | [], st => (st, [])
  | triggerIndex :: rest, st =>
    match st.fileWatchTriggers.get? triggerIndex with
    | none => notifyGo kind now rest st
    | some inst =>
      if inst.isEnabled = false then notifyGo kind now rest st
      else if inst.events.contains kind = false then notifyGo kind now rest st
      else
        let canFire :=
          if inst.hasFiredOnce = false then true
          else decide (now - inst.lastFireTime ≥ (inst.debounceMs : Int))
        if canFire then
          let inst' := { inst with hasFiredOnce := true, lastFireTime := now }
          let st' :=
            { st with fileWatchTriggers := st.fileWatchTriggers.set triggerIndex inst' }
          match notifyGo kind now rest st' with
          | (st'', fires) => (st'', triggerIndex :: fires)
        else notifyGo kind now rest st

/-- `TriggerEngine::NotifyFileEvent` (core): scan the path's index bucket
and fire the matching triggers, updating their debounce state. -/
def notifyFileEventCore (st : TriggerEngineState) (path : Str) (kind : FileEventType)
    (now : Int) : TriggerEngineState × List Nat :=
  match alookup st.fileWatchIndex path with
  | none => (st, [])
  | some indices => notifyGo kind now indices st

/-- `TriggerEngine::NotifyFileEvent`: the `FireTrigger` callback receives
`(workflow_id, trigger_id)` for every fired trigger. -/
def notifyFileEvent (st : TriggerEngineState) (path : Str) (kind : FileEventType)
    (now : Int) : TriggerEngineState × List (Str × Str) :=
  match notifyFileEventCore st path kind now with
  | (st', fires) =>
    (st', fires.filterMap (fun i =>
      (st.fileWatchTriggers.get? i).map (fun inst => (inst.workflowId, inst.triggerId))))

/-- A sequence of file events pushed through the engine, recording every
fire as (trigger index, event time). -/
def notifyTrace (st : TriggerEngineState) :
    List (Str × FileEventType × Int) → TriggerEngineState × List (Nat × Int)
  | [] => (st, [])
  | (path, kind, now) :: rest =>
    match notifyFileEventCore st path kind now with
    | (st', fires) =>
      match notifyTrace st' rest with
      | (st'', trace) => (st'', fires.map (fun i => (i, now)) ++ trace)

/-- Consistency of the file-watch index: every bucket lists exactly the
indices of the triggers watching that path, each once.  `AddFileWatchTrigger`
establishes this and `NotifyFileEvent` preserves it. -/
def IndexOk (st : TriggerEngineState) : Prop :=
  ∀ path : Str,
    ((alookup st.fileWatchIndex path).getD []).Nodup ∧
    ∀ i : Nat,
      (i ∈ (alookup st.fileWatchIndex path).getD [] ↔
        ∃ inst, st.fileWatchTriggers.get? i = some inst ∧ inst.watchedPath = path)

/-- The fire times of one trigger index within a recorded notify trace. -/
def firesOfTrace (i : Nat) (trace : List (Nat × Int)) : List Int :=
  (trace.filter (fun x => decide (x.1 = i))).map Prod.snd

/-- The firing condition of `NotifyFileEvent` for the trigger at index `i`:
enabled, subscribed to the event kind, and past its debounce window (or
never fired). -/
def FireCond (st : TriggerEngineState) (i : Nat) (kind : FileEventType)
    (now : Int) : Prop :=
  ∃ inst, st.fileWatchTriggers.get? i = some inst ∧ inst.isEnabled = true ∧
    kind ∈ inst.events ∧
    (inst.hasFiredOnce = false ∨ now - inst.lastFireTime ≥ (inst.debounceMs : Int))

/-- Specification of one bucket scan of `NotifyFileEvent`: the fired indices
are exactly the scanned indices satisfying `FireCond`, in scan order; fired
triggers get their debounce state stamped, all else is untouched. -/
def NotifySpec (kind : FileEventType) (now : Int) (indices : List Nat)
    (st : TriggerEngineState) (out : TriggerEngineState × List Nat) : Prop :=
  out.2.Sublist indices ∧
  (∀ i, i ∈ out.2 ↔ i ∈ indices ∧ FireCond st i kind now) ∧
  (∀ i, i ∈ indices → FireCond st i kind now →
    out.1.fileWatchTriggers.get? i = (st.fileWatchTriggers.get? i).map
      (fun inst => { inst with hasFiredOnce := true, lastFireTime := now })) ∧
  (∀ i, (i ∈ indices → ¬ FireCond st i kind now) →
    out.1.fileWatchTriggers.get? i = st.fileWatchTriggers.get? i) ∧
  out.1.fileWatchIndex = st.fileWatchIndex


-- ---------------------------------------------------------------------
-- Specification-side relations for the dataflow template pass (spec 4.3)
-- ---------------------------------------------------------------------

/-- Specification of one value's expansion: every literal `$\x7binputs.KEY\x7d`
substring is replaced by the resolved value of `KEY` from the map, all other
characters are copied. -/
inductive TemplRewrites (m : List (Str × Str)) : Str → Str → Prop
  | nil : TemplRewrites m [] []
  | lit {c : Char} {s t : Str} :
      startsWithStr (chars ("$\x7binputs.")) (c :: s) = false →
      TemplRewrites m s t → TemplRewrites m (c :: s) (c :: t)
  | subst {key rest v t : Str} :
      '}' ∉ key → alookup m key = some v → TemplRewrites m rest t →
      TemplRewrites m (chars ("$\x7binputs.") ++ key ++ '}' :: rest) (v ++ t)

/-- Specification of an expansion failure: a malformed template (no closing
brace after the tag) or a reference to a key not present in the map,
possibly after some successfully processed prefix. -/
inductive TemplFails (m : List (Str × Str)) : Str → Prop
  | noClose {rest : Str} : '}' ∉ rest →
      TemplFails m (chars ("$\x7binputs.") ++ rest)
  | badKey {key rest : Str} : '}' ∉ key → alookup m key = none →
      TemplFails m (chars ("$\x7binputs.") ++ key ++ '}' :: rest)
  | lit {c : Char} {s : Str} :
      startsWithStr (chars ("$\x7binputs.")) (c :: s) = false →
      TemplFails m s → TemplFails m (c :: s)
  | subst {key rest v : Str} :
      '}' ∉ key → alookup m key = some v → TemplFails m rest →
      TemplFails m (chars ("$\x7binputs.") ++ key ++ '}' :: rest)

/-- Specification of the whole expansion pass over the resolved map: each
entry in turn is rewritten against the current map (earlier entries already
rewritten, later ones still raw). -/
inductive PassRewrites : List (Str × Str) → List (Str × Str) → List (Str × Str) → Prop
  | nil (done : List (Str × Str)) : PassRewrites done [] done
  | cons {done : List (Str × Str)} {k v v' : Str} {rest final : List (Str × Str)} :
      TemplRewrites (done ++ (k, v) :: rest) v v' →
      PassRewrites (done ++ [(k, v')]) rest final →
      PassRewrites done ((k, v) :: rest) final

/-- Specification of a failing expansion pass: some entry's value fails to
expand against the map current at its turn. -/
inductive PassFails : List (Str × Str) → List (Str × Str) → Prop
  | here {done : List (Str × Str)} {k v : Str} {rest : List (Str × Str)} :
      TemplFails (done ++ (k, v) :: rest) v → PassFails done ((k, v) :: rest)
  | there {done : List (Str × Str)} {k v v' : Str} {rest : List (Str × Str)} :
      TemplRewrites (done ++ (k, v) :: rest) v v' →
      PassFails (done ++ [(k, v')]) rest → PassFails done ((k, v) :: rest)

-- ---------------------------------------------------------------------
-- Concrete instances used by counterexamples and witnesses
-- ---------------------------------------------------------------------

def emptyEnv : TaskEnvironment := ⟨[], [], []⟩

/-- C1 counterexample task: one input, two outputs, no dependencies. -/
def tdC1 : TaskDef :=
  ⟨chars ("t"), [], [chars ("i")], [chars ("o1"), chars ("o2")], emptyEnv, [], []⟩

def wfC1 : WorkflowDefinition :=
  ⟨chars ("1.0"), chars ("w1"), [], [(chars ("t"), tdC1)], []⟩

/-- C1 counterexample filesystem: input older than both outputs, outputs
with distinct timestamps. -/
def fsC1 : Fs := fun p =>
  if p = chars ("i") then some 0
  else if p = chars ("o1") then some 5
  else if p = chars ("o2") then some 10
  else none

def resC1 : ResolveOutputPathsFn := fun t =>
  if t = chars ("t") then some [chars ("o1"), chars ("o2")] else none

/-- C1 amended-theorem witness resolver: the task resolves to no output
paths, so the traversal contributes no upstream times. -/
def resW : ResolveOutputPathsFn := fun t =>
  if t = chars ("t") then some [] else none

/-- C2 counterexample: task A fails, task B depends on A. -/
def tdC2A : TaskDef := ⟨chars ("A"), [], [], [], emptyEnv, [], []⟩

def tdC2B : TaskDef := ⟨chars ("B"), [chars ("A")], [], [], emptyEnv, [], []⟩

def wfC2 : WorkflowDefinition :=
  ⟨chars ("1.0"), chars ("w2"), [], [(chars ("A"), tdC2A), (chars ("B"), tdC2B)], []⟩

/-- An empty filesystem: every freshness check fails conservatively. -/
def fsEmpty : Fs := fun _ => none

/-- An executor that always fails, leaving the state untouched. -/
def execAlwaysFail : Exec := fun _ st => (false, st)

/-- An executor that always succeeds, leaving the state untouched. -/
def execAlwaysOk : Exec := fun _ st => (true, st)

def runC2 : WorkflowRun :=
  ⟨chars ("r2"), chars ("w2"), wfC2.tasks.map (fun p => (p.1, initialTaskState)), false, false⟩

/-- C3 counterexample collaborators: the file reader returns the path
itself as content, the parser refuses content "f2" and otherwise yields a
version-1.0 workflow whose id is the content. -/
def fcC3 : FileContentsFn := fun p => some p

def pwC3 : ParseWorkflowFn := fun content =>
  if content = chars ("f2") then none
  else some ⟨chars ("1.0"), content, [], [], []⟩

def entriesC3 : List DirEntry :=
  [⟨chars ("f1"), true, chars (".jcwf")⟩,
   ⟨chars ("f2"), true, chars (".jcwf")⟩,
   ⟨chars ("f3"), true, chars (".jcwf")⟩]

/-- C4/C5 example task: two declared output slots, a single file output. -/
def tdC5 : TaskDef :=
  ⟨chars ("t5"), [], [], [chars ("p")], emptyEnv, [],
   [(chars ("a"), ⟨chars ("string"), false⟩), (chars ("b"), ⟨chars ("string"), false⟩)]⟩

/-- C9 counterexample: tasks a and b name each other in depends_on, task c
is independent (and gets executed by run_once). -/
def tdC9a : TaskDef := ⟨chars ("a"), [chars ("b")], [], [], emptyEnv, [], []⟩

def tdC9b : TaskDef := ⟨chars ("b"), [chars ("a")], [], [], emptyEnv, [], []⟩

def tdC9c : TaskDef := ⟨chars ("c"), [], [], [], emptyEnv, [], []⟩

def wfC9 : WorkflowDefinition :=
  ⟨chars ("1.0"), chars ("w9"), [],
   [(chars ("a"), tdC9a), (chars ("b"), tdC9b), (chars ("c"), tdC9c)], []⟩

def regC9 : Registry := [(chars ("w9"), wfC9)]

/-- C7 witness instances: an edge feeds slot `x` of task `sum` from output
`o` of task `load`, which already holds the value `foo`. -/
def tdC7 : TaskDef :=
  ⟨chars ("sum"), [], [], [], emptyEnv,
   [(chars ("x"), ⟨chars ("string"), true⟩)], []⟩

def wfC7 : WorkflowDefinition :=
  ⟨chars ("1.0"), chars ("w7"), [],
   [(chars ("load"),
     ⟨chars ("load"), [], [], [], emptyEnv, [],
      [(chars ("o"), ⟨chars ("string"), false⟩)]⟩),
    (chars ("sum"), tdC7)],
   [⟨chars ("load"), chars ("o"), chars ("sum"), chars ("x")⟩]⟩

def runC7 : WorkflowRun :=
  ⟨chars ("r7"), chars ("w7"),
   [(chars ("load"),
     { initialTaskState with outputValues := [(chars ("o"), chars ("foo"))] }),
    (chars ("sum"), initialTaskState)],
   false, false⟩

/-- C8 witness engine: one enabled trigger on path `/x`, Modified events,
500 ms debounce. -/
def stC8 : TriggerEngineState :=
  addFileWatchTrigger ⟨[], []⟩ (chars ("w")) (chars ("t")) (chars ("/x"))
    [FileEventType.Modified] 500 true

-- =====================================================================
-- Theorems
-- =====================================================================

-- ---------------------------------------------------------------------
-- Basic lemmas on the string and list helpers
-- ---------------------------------------------------------------------

end Jarvis

namespace Jarvis

theorem startsWithStr_iff (pat s : Str) :
    startsWithStr pat s = true ↔ ∃ r, s = pat ++ r := by
  induction pat generalizing s with
  | nil => simp [startsWithStr]
  | cons p ps ih =>
    cases s with
    | nil => simp [startsWithStr]
    | cons c cs =>
      simp only [startsWithStr, Bool.and_eq_true, decide_eq_true_eq, ih, List.cons_append,
        List.cons.injEq]
      constructor
      · rintro ⟨rfl, r, rfl⟩
        exact ⟨r, rfl, rfl⟩
      · rintro ⟨r, rfl, rfl⟩
        exact ⟨rfl, r, rfl⟩

theorem containsSubstr_iff (s pat : Str) :
    containsSubstr s pat = true ↔ IsSubstrOf pat s := by
  induction s with
  | nil =>
    simp only [containsSubstr, startsWithStr_iff, IsSubstrOf]
    constructor
    · rintro ⟨r, hr⟩
      rcases List.append_eq_nil.mp hr.symm with ⟨h1, h2⟩
      exact ⟨[], [], by simp [h1]⟩
    · rintro ⟨pre, post, h⟩
      have h' := h.symm
      rw [List.append_assoc] at h'
      rcases List.append_eq_nil.mp h' with ⟨h1, h2⟩
      rcases List.append_eq_nil.mp h2 with ⟨h3, h4⟩
      exact ⟨[], by simp [h3]⟩
  | cons c cs ih =>
    simp only [containsSubstr, Bool.or_eq_true, startsWithStr_iff, ih, IsSubstrOf]
    constructor
    · rintro (⟨r, hr⟩ | ⟨pre, post, hp⟩)
      · exact ⟨[], r, by simp [hr]⟩
      · exact ⟨c :: pre, post, by simp [hp]⟩
    · rintro ⟨pre, post, hp⟩
      cases pre with
      | nil => exact Or.inl ⟨post, by simpa using hp⟩
      | cons x xs =>
        rw [List.cons_append, List.cons_append] at hp
        rw [List.cons.injEq] at hp
        exact Or.inr ⟨xs, post, by rw [hp.2, List.append_assoc]⟩

theorem splitAtBrace_append (k r : Str) (hk : '}' ∉ k) :
    splitAtBrace (k ++ '}' :: r) = some (k, r) := by
  induction k with
  | nil => simp [splitAtBrace]
  | cons a as ih =>
    have ha : ¬ a = '}' := fun h => hk (by simp [h])
    have has : '}' ∉ as := fun h => hk (List.mem_cons_of_mem a h)
    have hrec := ih has
    simp only [List.cons_append, splitAtBrace, if_neg ha, List.append_eq]
    rw [hrec]

theorem splitAtBrace_some_imp (s k r : Str) (h : splitAtBrace s = some (k, r)) :
    s = k ++ '}' :: r ∧ '}' ∉ k := by
  induction s generalizing k with
  | nil => simp [splitAtBrace] at h
  | cons c cs ih =>
    simp only [splitAtBrace] at h
    by_cases hc : c = '}'
    · rw [if_pos hc] at h
      cases h
      subst hc
      simp
    · rw [if_neg hc] at h
      cases hsp : splitAtBrace cs with
      | none => rw [hsp] at h; cases h
      | some kr =>
        rw [hsp] at h
        obtain ⟨k', r'⟩ := kr
        cases h
        have := ih k' hsp
        refine ⟨by simp [this.1], fun hm => ?_⟩
        rcases List.mem_cons.mp hm with h1 | h2
        · exact hc h1.symm
        · exact this.2 h2

theorem splitAtBrace_eq_some (s k r : Str) :
    splitAtBrace s = some (k, r) ↔ s = k ++ '}' :: r ∧ '}' ∉ k := by
  constructor
  · exact splitAtBrace_some_imp s k r
  · rintro ⟨h1, h2⟩
    rw [h1]
    exact splitAtBrace_append k r h2

theorem splitAtBrace_eq_none (s : Str) :
    splitAtBrace s = none ↔ '}' ∉ s := by
  induction s with
  | nil => simp [splitAtBrace]
  | cons c cs ih =>
    simp only [splitAtBrace]
    by_cases hc : c = '}'
    · rw [if_pos hc]
      subst hc
      simp
    · rw [if_neg hc]
      cases hsp : splitAtBrace cs with
      | none =>
        simp only [List.mem_cons, true_iff]
        intro h
        rcases h with h1 | h2
        · exact hc h1.symm
        · exact ih.mp hsp h2
      | some kr =>
        obtain ⟨k', r'⟩ := kr
        constructor
        · intro h
          cases h
        · intro h
          exfalso
          by_cases hcs : '}' ∈ cs
          · exact h (List.mem_cons_of_mem c hcs)
          · rw [ih.mpr hcs] at hsp
            cases hsp

theorem foldl_max_le_iff (l : List Nat) (a m : Nat) :
    l.foldl max a ≤ m ↔ a ≤ m ∧ ∀ x ∈ l, x ≤ m := by
  induction l generalizing a with
  | nil => simp
  | cons x xs ih =>
    simp only [List.foldl_cons, ih, max_le_iff, List.mem_cons]
    constructor
    · rintro ⟨⟨h1, h2⟩, h3⟩
      exact ⟨h1, fun y hy => hy.elim (fun h => h ▸ h2) (h3 y)⟩
    · rintro ⟨h1, h2⟩
      exact ⟨⟨h1, h2 x (Or.inl rfl)⟩, fun y hy => h2 y (Or.inr hy)⟩

theorem le_foldl_min_iff (l : List Nat) (a m : Nat) :
    m ≤ l.foldl min a ↔ m ≤ a ∧ ∀ x ∈ l, m ≤ x := by
  induction l generalizing a with
  | nil => simp
  | cons x xs ih =>
    simp only [List.foldl_cons, ih, le_min_iff, List.mem_cons]
    constructor
    · rintro ⟨⟨h1, h2⟩, h3⟩
      exact ⟨h1, fun y hy => hy.elim (fun h => h ▸ h2) (h3 y)⟩
    · rintro ⟨h1, h2⟩
      exact ⟨⟨h1, h2 x (Or.inl rfl)⟩, fun y hy => h2 y (Or.inr hy)⟩

theorem listMax_le_iff (l : List Nat) (m : Nat) :
    listMax l ≤ m ↔ ∀ x ∈ l, x ≤ m := by
  cases l with
  | nil => simp [listMax]
  | cons x xs =>
    simp only [listMax, foldl_max_le_iff, List.mem_cons]
    constructor
    · rintro ⟨h1, h2⟩ y hy
      exact hy.elim (fun h => h ▸ h1) (h2 y)
    · intro h
      exact ⟨h x (Or.inl rfl), fun y hy => h y (Or.inr hy)⟩

theorem le_listMin_iff (l : List Nat) (m : Nat) (hl : l ≠ []) :
    m ≤ listMin l ↔ ∀ x ∈ l, m ≤ x := by
  cases l with
  | nil => exact absurd rfl hl
  | cons x xs =>
    simp only [listMin, le_foldl_min_iff, List.mem_cons]
    constructor
    · rintro ⟨h1, h2⟩ y hy
      exact hy.elim (fun h => h ▸ h1) (h2 y)
    · intro h
      exact ⟨h x (Or.inl rfl), fun y hy => h y (Or.inr hy)⟩

theorem le_listMax (l : List Nat) (x : Nat) (hx : x ∈ l) : x ≤ listMax l :=
  (listMax_le_iff l (listMax l)).mp le_rfl x hx

theorem listMin_le (l : List Nat) (x : Nat) (hx : x ∈ l) : listMin l ≤ x :=
  (le_listMin_iff l (listMin l) (List.ne_nil_of_mem hx)).mp le_rfl x hx

theorem pathTimes_eq_some (fs : Fs) (ps : List Str) (ts : List Nat) :
    pathTimes fs ps = some ts ↔
      (∀ p ∈ ps, (fs p).isSome) ∧ ts = ps.filterMap fs := by
  induction ps generalizing ts with
  | nil =>
    constructor
    · intro h
      cases h
      exact ⟨fun p hp => absurd hp (List.not_mem_nil p), rfl⟩
    · rintro ⟨-, rfl⟩
      rfl
  | cons p ps ih =>
    simp only [pathTimes]
    cases hfp : fs p with
    | none =>
      constructor
      · intro h
        cases h
      · rintro ⟨h, -⟩
        exfalso
        have := h p (List.mem_cons_self p ps)
        rw [hfp] at this
        simp at this
    | some t =>
      cases hpt : pathTimes fs ps with
      | none =>
        constructor
        · intro h
          cases h
        · rintro ⟨h, -⟩
          exfalso
          have := (ih (ps.filterMap fs)).mpr
            ⟨fun q hq => h q (List.mem_cons_of_mem p hq), rfl⟩
          rw [hpt] at this
          cases this
      | some ts' =>
        have ihr := (ih ts').mp hpt
        constructor
        · intro h
          cases h
          refine ⟨fun q hq => ?_, ?_⟩
          · rcases List.mem_cons.mp hq with h1 | h2
            · rw [h1, hfp]; rfl
            · exact ihr.1 q h2
          · simp [List.filterMap_cons, hfp, ihr.2]
        · rintro ⟨h, hts⟩
          simp only [List.filterMap_cons, hfp] at hts
          rw [hts, ihr.2]

theorem pathTimes_isSome_iff (fs : Fs) (ps : List Str) :
    (pathTimes fs ps).isSome = true ↔ ∀ p ∈ ps, (fs p).isSome := by
  cases h : pathTimes fs ps with
  | none =>
    constructor
    · intro h'
      simp at h'
    · intro hall
      exfalso
      have := (pathTimes_eq_some fs ps (ps.filterMap fs)).mpr ⟨hall, rfl⟩
      rw [h] at this
      cases this
  | some ts =>
    constructor
    · intro _
      exact ((pathTimes_eq_some fs ps ts).mp h).1
    · intro _
      rfl

theorem alookup_append {α : Type} (m1 m2 : List (Str × α)) (k : Str) :
    alookup (m1 ++ m2) k =
      match alookup m1 k with
      | some v => some v
      | none => alookup m2 k := by
  induction m1 with
  | nil => simp [alookup]
  | cons p rest ih =>
    obtain ⟨k', v⟩ := p
    by_cases h : k' = k
    · simp [alookup, h]
    · simp [alookup, h, ih]

theorem alookup_eq_none {α : Type} (m : List (Str × α)) (k : Str) :
    alookup m k = none ↔ k ∉ m.map Prod.fst := by
  induction m with
  | nil => simp [alookup]
  | cons p rest ih =>
    obtain ⟨k', v⟩ := p
    simp only [alookup, List.map_cons, List.mem_cons]
    by_cases h : k' = k
    · subst h
      rw [if_pos rfl]
      constructor
      · intro hh
        cases hh
      · intro hh
        exact absurd (Or.inl rfl) hh
    · simp only [if_neg h, ih]
      constructor
      · intro hh hor
        rcases hor with h1 | h2
        · exact h h1.symm
        · exact hh h2
      · intro hh h2
        exact hh (Or.inr h2)

theorem alookup_isSome_iff {α : Type} (m : List (Str × α)) (k : Str) :
    (alookup m k).isSome = true ↔ k ∈ m.map Prod.fst := by
  cases h : alookup m k with
  | none =>
    simp only [Option.isSome_none]
    constructor
    · intro h'; cases h'
    · intro hm
      exact absurd ((alookup_eq_none m k).mp h) (not_not.mpr hm)
  | some v =>
    simp only [Option.isSome_some, true_iff]
    by_contra hm
    rw [(alookup_eq_none m k).mpr hm] at h
    cases h


end Jarvis

namespace Jarvis

-- ---------------------------------------------------------------------
-- Sorting and assignment lemmas (skip population)
-- ---------------------------------------------------------------------

theorem map_fst_pair (l : List Str) (p : Str) :
    (l.map fun n => (n, p)).map Prod.fst = l := by
  induction l with
  | nil => simp
  | cons x xs ih => simp [ih]

theorem insertStrSorted_perm (x : Str) (l : List Str) :
    (insertStrSorted x l).Perm (x :: l) := by
  induction l with
  | nil => simp [insertStrSorted]
  | cons y ys ih =>
    simp only [insertStrSorted]
    by_cases h : strLtb x y = true
    · rw [if_pos h]
    · rw [if_neg h]
      exact (ih.cons y).trans (List.Perm.swap x y ys)

theorem sortStrs_perm (l : List Str) : (sortStrs l).Perm l := by
  induction l with
  | nil => simp [sortStrs]
  | cons x xs ih =>
    exact (insertStrSorted_perm x (sortStrs xs)).trans (ih.cons x)

theorem sortStrs_length (l : List Str) : (sortStrs l).length = l.length :=
  (sortStrs_perm l).length_eq

theorem sortStrs_nodup (l : List Str) (h : l.Nodup) : (sortStrs l).Nodup :=
  ((sortStrs_perm l).nodup_iff).mpr h

theorem assignAll_fresh (pairs : List (Str × Str)) :
    ∀ m : List (Str × Str), (pairs.map Prod.fst).Nodup →
      (∀ k ∈ pairs.map Prod.fst, alookup m k = none) →
      assignAll m pairs = m ++ pairs := by
  induction pairs with
  | nil => intro m _ _; simp [assignAll]
  | cons p rest ih =>
    rintro m hnd hfresh
    obtain ⟨k, v⟩ := p
    have hk : alookup m k = none := hfresh k (by simp)
    have hmins : minsert m k v = m ++ [(k, v)] := by
      simp [minsert, hk]
    simp only [assignAll, hmins]
    have hnd' : (rest.map Prod.fst).Nodup := by
      simpa using hnd.of_cons
    have hknotin : k ∉ rest.map Prod.fst := by
      have := hnd
      simp only [List.map_cons, List.nodup_cons] at this
      exact this.1
    have hfresh' : ∀ k' ∈ rest.map Prod.fst, alookup (m ++ [(k, v)]) k' = none := by
      intro k' hk'
      rw [alookup_append]
      rw [hfresh k' (by simp [hk'])]
      have : ¬ k = k' := fun h => hknotin (h ▸ hk')
      simp [alookup, this]
    rw [ih (m ++ [(k, v)]) hnd' hfresh']
    simp

/-- C4: hypothesis-free core equality between the orchestrator's skip
population and the rule as the specification words it. -/
theorem populateSkippedTaskOutputs_eq_rule (outputs : List (Str × TaskIOField))
    (paths : List Str) (hnd : (outputs.map Prod.fst).Nodup) (hp : paths ≠ []) :
    populateSkippedTaskOutputs outputs paths [] =
      skipPopulationRuleSpec (outputs.map Prod.fst) paths := by
  have hsortnd : (sortStrs (outputs.map Prod.fst)).Nodup := sortStrs_nodup _ hnd
  simp only [populateSkippedTaskOutputs, skipPopulationRuleSpec]
  by_cases hout : outputs = []
  · subst hout
    simp only [if_pos (Or.inl rfl), List.map_nil]
    simp only [sortStrs, List.length_nil]
    have h0 : ¬ (0 = paths.length) := fun h => hp (List.length_eq_zero.mp h.symm)
    rw [if_neg h0]
    by_cases h1 : paths.length = 1
    · simp [h1]
    · simp [h1]
  · rw [if_neg (by simp [hout, hp])]
    set s := sortStrs (outputs.map Prod.fst) with hs
    by_cases hlen : s.length = paths.length
    · rw [if_pos hlen, if_pos hlen]
      have hkeys : (s.zip paths).map Prod.fst = s :=
        List.map_fst_zip s paths (le_of_eq hlen)
      rw [assignAll_fresh (s.zip paths) [] (by rw [hkeys]; exact hsortnd)
        (by intro k _; rfl)]
      simp
    · rw [if_neg hlen, if_neg hlen]
      by_cases hp1 : paths.length = 1
      · rw [if_pos hp1, if_pos hp1]
        have hkeys : ((s.map fun n => (n, paths.headD [])).map Prod.fst) = s :=
          map_fst_pair s (paths.headD [])
        rw [assignAll_fresh _ [] (by rw [hkeys]; exact hsortnd) (by intro k _; rfl)]
        simp
      · rw [if_neg hp1, if_neg hp1]
        by_cases hs1 : s.length = 1
        · rw [if_pos hs1, if_pos hs1]
          rw [assignAll_fresh _ [] (by simp) (by intro k _; rfl)]
          simp
        · rw [if_neg hs1, if_neg hs1]

end Jarvis
namespace Jarvis

theorem skipPopulationRuleSpec_nil (outs : List Str) (h : outs ≠ []) :
    skipPopulationRuleSpec [] outs = [] := by
  have h0 : ¬ ((sortStrs ([] : List Str)).length = outs.length) := by
    simp only [sortStrs, List.length_nil]
    exact fun hh => h (List.length_eq_zero.mp hh.symm)
  by_cases h1 : outs.length = 1
  · simp [skipPopulationRuleSpec, h0, h1, sortStrs]
  · simp [skipPopulationRuleSpec, h0, h1, sortStrs]

/-- C4: when the orchestrator skips a task as up to date and the resolved
output-path list is non-empty, the populated `output_values` are exactly the
skip-population rule of the specification applied to the declared output
slot names and the resolved paths. -/
theorem populateSkipped_matches_rule (wf : WorkflowDefinition) (run : WorkflowRun)
    (td : TaskDef) (tid : Str) (st : TaskInstanceState) (ins outs : List Str)
    (hres : resolveFreshnessPathsForTask wf run td tid = some (ins, outs))
    (houts : outs ≠ []) (hov : st.outputValues = [])
    (hnd : (td.outputs.map Prod.fst).Nodup) :
    (populateSkippedTaskOutputsIfPossible wf run td tid st).outputValues =
      skipPopulationRuleSpec (td.outputs.map Prod.fst) outs := by
  unfold populateSkippedTaskOutputsIfPossible
  rw [hres]
  dsimp only
  by_cases hout : td.outputs = []
  · rw [if_pos (Or.inl hout)]
    rw [hov, hout, List.map_nil, skipPopulationRuleSpec_nil outs houts]
  · rw [if_neg (by
      rintro (h | h)
      · exact hout h
      · exact houts h)]
    simp only
    rw [hov]
    exact populateSkippedTaskOutputs_eq_rule td.outputs outs hnd houts

-- ---------------------------------------------------------------------
-- C5: BuildOutputSlotMap of the shell executor
-- ---------------------------------------------------------------------

theorem buildOutputSlotMapFallback_alookup (iv : List (Str × Str)) :
    ∀ (outputs : List (Str × TaskIOField)) (acc : List (Str × Str)) (s : Str),
      alookup (buildOutputSlotMapFallback iv outputs acc) s =
        match alookup acc s with
        | some v => some v
        | none => if s ∈ outputs.map Prod.fst then alookup iv s else none := by
  intro outputs
  induction outputs with
  | nil =>
    intro acc s
    simp only [buildOutputSlotMapFallback, List.map_nil, List.not_mem_nil, if_false]
    cases alookup acc s <;> rfl
  | cons p rest ih =>
    intro acc s
    obtain ⟨name, fld⟩ := p
    simp only [buildOutputSlotMapFallback, List.map_cons, List.mem_cons]
    by_cases hacc : (alookup acc name).isSome = true
    · rw [if_pos hacc, ih]
      cases h : alookup acc s with
      | some w => rfl
      | none =>
        have hsname : ¬ s = name := by
          intro hh
          rw [hh] at h
          rw [h] at hacc
          cases hacc
        by_cases hmem : s ∈ rest.map Prod.fst
        · rw [if_pos hmem, if_pos (Or.inr hmem)]
        · rw [if_neg hmem, if_neg (by
            rintro (h1 | h2)
            · exact hsname h1
            · exact hmem h2)]
    · rw [if_neg hacc]
      cases hiv : alookup iv name with
      | none =>
        rw [ih]
        cases h : alookup acc s with
        | some w => rfl
        | none =>
          by_cases hsname : s = name
          · subst hsname
            by_cases hmem : s ∈ rest.map Prod.fst
            · rw [if_pos hmem, if_pos (Or.inl rfl)]
            · rw [if_neg hmem, if_pos (Or.inl rfl), hiv]
          · by_cases hmem : s ∈ rest.map Prod.fst
            · rw [if_pos hmem, if_pos (Or.inr hmem)]
            · rw [if_neg hmem, if_neg (by
                rintro (h1 | h2)
                · exact hsname h1
                · exact hmem h2)]
      | some v =>
        rw [ih]
        rw [alookup_append]
        cases h : alookup acc s with
        | some w => rfl
        | none =>
          by_cases hsname : name = s
          · simp only [alookup, if_pos hsname]
            rw [if_pos (Or.inl hsname.symm), ← hsname, hiv]
          · simp only [alookup, if_neg hsname]
            by_cases hmem : s ∈ rest.map Prod.fst
            · rw [if_pos hmem, if_pos (Or.inr hmem)]
            · rw [if_neg hmem, if_neg (by
                rintro (h1 | h2)
                · exact hsname h1.symm
                · exact hmem h2)]

theorem alookup_zip_none_iff (slots : List Str) (paths : List Str) (s : Str)
    (hlen : slots.length ≤ paths.length) :
    alookup (slots.zip paths) s = none ↔ s ∉ slots := by
  rw [alookup_eq_none, List.map_fst_zip slots paths hlen]

/-- C5 (amended): `BuildOutputSlotMap` pairs declared output slots with the
raw `file_outputs` positionally when the counts match (file outputs
non-empty), and otherwise falls back, slot by slot, to the same-named
resolved input value; there is no single-path broadcast, no
single-slot-to-first-path case, and no template resolution. -/
theorem buildOutputSlotMap_characterization (td : TaskDef) (st : TaskInstanceState)
    (s : Str) :
    alookup (buildOutputSlotMap td st) s =
      if td.fileOutputs ≠ [] ∧ td.fileOutputs.length = td.outputs.length then
        alookup ((td.outputs.map Prod.fst).zip td.fileOutputs) s
      else if s ∈ td.outputs.map Prod.fst then alookup st.inputValues s else none := by
  unfold buildOutputSlotMap
  by_cases hc : td.fileOutputs ≠ [] ∧ td.fileOutputs.length = td.outputs.length
  · rw [if_pos hc]
    simp only [if_pos hc]
    rw [buildOutputSlotMapFallback_alookup]
    cases h : alookup ((td.outputs.map Prod.fst).zip td.fileOutputs) s with
    | some v => rfl
    | none =>
      have hs : s ∉ td.outputs.map Prod.fst := by
        rw [alookup_zip_none_iff] at h
        · exact h
        · rw [List.length_map, hc.2]
      rw [if_neg hs]
  · rw [if_neg hc]
    simp only [if_neg hc]
    rw [buildOutputSlotMapFallback_alookup]
    rfl

end Jarvis
namespace Jarvis

-- ---------------------------------------------------------------------
-- C6: Option B argument defaulting
-- ---------------------------------------------------------------------

theorem anyMacro_iff (rawArgs : List Str) (pat1 pat2 : Str) :
    (rawArgs.any (fun a => containsSubstr a pat1 || containsSubstr a pat2) = true) ↔
      ∃ a ∈ rawArgs, IsSubstrOf pat1 a ∨ IsSubstrOf pat2 a := by
  rw [List.any_eq_true]
  constructor
  · rintro ⟨a, ha, hc⟩
    rcases Bool.or_eq_true_iff.mp hc with h | h
    · exact ⟨a, ha, Or.inl ((containsSubstr_iff a pat1).mp h)⟩
    · exact ⟨a, ha, Or.inr ((containsSubstr_iff a pat2).mp h)⟩
  · rintro ⟨a, ha, h | h⟩
    · exact ⟨a, ha, Bool.or_eq_true_iff.mpr (Or.inl ((containsSubstr_iff a pat1).mpr h))⟩
    · exact ⟨a, ha, Bool.or_eq_true_iff.mpr (Or.inr ((containsSubstr_iff a pat2).mpr h))⟩

/-- C6: if no raw argument textually contains `$\x7binputs\x7d` or
`$\x7binput[`, the argument `$\x7binputs\x7d` is prepended; if none contains
`$\x7boutputs\x7d` or `$\x7boutput[`, `$\x7boutputs\x7d` is appended; an
absent or empty args array becomes exactly the two macros. -/
theorem ensureDefaultInputOutputArgs_option_b (rawArgs : List Str) :
    (¬(∃ a ∈ rawArgs, IsSubstrOf (chars ("$\x7binputs\x7d")) a ∨
        IsSubstrOf (chars ("$\x7binput[")) a) →
     ¬(∃ a ∈ rawArgs, IsSubstrOf (chars ("$\x7boutputs\x7d")) a ∨
        IsSubstrOf (chars ("$\x7boutput[")) a) →
      ensureDefaultInputOutputArgs rawArgs =
        chars ("$\x7binputs\x7d") :: rawArgs ++ [chars ("$\x7boutputs\x7d")]) ∧
    (¬(∃ a ∈ rawArgs, IsSubstrOf (chars ("$\x7binputs\x7d")) a ∨
        IsSubstrOf (chars ("$\x7binput[")) a) →
     (∃ a ∈ rawArgs, IsSubstrOf (chars ("$\x7boutputs\x7d")) a ∨
        IsSubstrOf (chars ("$\x7boutput[")) a) →
      ensureDefaultInputOutputArgs rawArgs = chars ("$\x7binputs\x7d") :: rawArgs) ∧
    ((∃ a ∈ rawArgs, IsSubstrOf (chars ("$\x7binputs\x7d")) a ∨
        IsSubstrOf (chars ("$\x7binput[")) a) →
     ¬(∃ a ∈ rawArgs, IsSubstrOf (chars ("$\x7boutputs\x7d")) a ∨
        IsSubstrOf (chars ("$\x7boutput[")) a) →
      ensureDefaultInputOutputArgs rawArgs = rawArgs ++ [chars ("$\x7boutputs\x7d")]) ∧
    ((∃ a ∈ rawArgs, IsSubstrOf (chars ("$\x7binputs\x7d")) a ∨
        IsSubstrOf (chars ("$\x7binput[")) a) →
     (∃ a ∈ rawArgs, IsSubstrOf (chars ("$\x7boutputs\x7d")) a ∨
        IsSubstrOf (chars ("$\x7boutput[")) a) →
      ensureDefaultInputOutputArgs rawArgs = rawArgs) ∧
    ensureDefaultInputOutputArgs ([] : List Str) =
      [chars ("$\x7binputs\x7d"), chars ("$\x7boutputs\x7d")] := by
  refine ⟨?_, ?_, ?_, ?_, by rfl⟩ <;> intro h1 h2 <;>
    unfold ensureDefaultInputOutputArgs
  · rw [← anyMacro_iff rawArgs] at h1 h2
    rw [Bool.not_eq_true] at h1 h2
    rw [h1, h2]
    simp
  · rw [← anyMacro_iff rawArgs] at h1 h2
    rw [Bool.not_eq_true] at h1
    rw [h1, h2]
    simp
  · rw [← anyMacro_iff rawArgs] at h1 h2
    rw [Bool.not_eq_true] at h2
    rw [h1, h2]
    simp
  · rw [← anyMacro_iff rawArgs] at h1 h2
    rw [h1, h2]
    simp

-- ---------------------------------------------------------------------
-- C10: empty expanded arguments are dropped from the command line
-- ---------------------------------------------------------------------

theorem expandShellArgs_forall2 (td : TaskDef) (st : TaskInstanceState) :
    ∀ (args vs : List Str),
      List.Forall₂ (fun raw v =>
        expandTemplatesStrict raw td st = some v ∧ isSafeArgument v = true) args vs →
      expandShellArgs td st args = some (vs.filter (fun v => !(v.isEmpty))) := by
  intro args vs h
  induction h with
  | nil => rfl
  | @cons raw v args' vs' hp htail ih =>
    simp only [expandShellArgs, hp.1, ih]
    rw [if_neg (by rw [hp.2]; intro hh; cases hh)]
    simp only [List.filter_cons]
    by_cases hb : v = []
    · subst hb
      simp
    · have hne : (!(List.isEmpty v)) = true := by
        cases v with
        | nil => exact absurd rfl hb
        | cons x xs => rfl
      rw [if_neg hb, hne, if_pos rfl]

/-- C10: whenever every defaulted raw argument expands successfully and
safely, the command string handed to the system shell is the space-join of
the command path followed by only the non-empty expanded arguments, in
their original order. -/
theorem buildShellCommandLine_omits_empty_args (td : TaskDef) (st : TaskInstanceState)
    (commandPath : Str) (rawArgs vs : List Str)
    (h : List.Forall₂ (fun raw v =>
      expandTemplatesStrict raw td st = some v ∧ isSafeArgument v = true)
      (ensureDefaultInputOutputArgs rawArgs) vs) :
    buildShellCommandLine td st commandPath rawArgs =
      some (joinArgumentsForSystem
        (commandPath :: vs.filter (fun v => !(v.isEmpty)))) := by
  unfold buildShellCommandLine
  rw [expandShellArgs_forall2 td st _ vs h]

end Jarvis
namespace Jarvis

-- ---------------------------------------------------------------------
-- C3: LoadDirectory aborts at the first failing file
-- ---------------------------------------------------------------------

/-- C3 (counterexample): with three well-formed directory entries of which
the second fails to parse, `LoadDirectory` returns false having registered
only the first workflow; the third file, although loadable by itself, is
never registered. -/
theorem loadDirectory_claimC3_counterexample :
    (loadDirectory fcC3 pwC3 true entriesC3 []).1 = false ∧
    (alookup (loadDirectory fcC3 pwC3 true entriesC3 []).2 (chars ("f1"))).isSome = true ∧
    alookup (loadDirectory fcC3 pwC3 true entriesC3 []).2 (chars ("f3")) = none ∧
    (loadFile fcC3 pwC3 [] (chars ("f3"))).isSome = true ∧
    loadFile fcC3 pwC3 [] (chars ("f2")) = none := by
  decide

/-- C3 (amended): a failing `.jcwf` file aborts the directory walk: the
workflows loaded from earlier entries remain registered, `LoadDirectory`
returns false, and no later entry is loaded. -/
theorem loadDirectory_aborts_at_first_failure (fc : FileContentsFn)
    (pw : ParseWorkflowFn) (reg r : Registry) (pre : List DirEntry) (bad : DirEntry)
    (post : List DirEntry)
    (hpre : loadDirectoryFrom fc pw reg pre = (true, r))
    (hregfile : bad.isRegularFile = true)
    (hext : bad.extension = chars (".jcwf"))
    (hfail : loadFile fc pw r bad.path = none) :
    loadDirectory fc pw true (pre ++ bad :: post) reg = (false, r) := by
  unfold loadDirectory
  rw [if_neg (by intro h; cases h)]
  induction pre generalizing reg with
  | nil =>
    simp only [loadDirectoryFrom] at hpre
    cases hpre
    simp only [List.nil_append, loadDirectoryFrom, hregfile, hext]
    rw [if_pos (by simp), hfail]
  | cons e rest ih =>
    simp only [loadDirectoryFrom] at hpre
    simp only [List.cons_append, loadDirectoryFrom]
    by_cases hcond : (e.isRegularFile && e.extension = chars (".jcwf")) = true
    · rw [if_pos hcond]
      rw [if_pos hcond] at hpre
      cases hlf : loadFile fc pw reg e.path with
      | none =>
        rw [hlf] at hpre
        cases hpre
      | some reg' =>
        rw [hlf] at hpre
        exact ih reg' hpre
    · rw [if_neg hcond]
      rw [if_neg hcond] at hpre
      exact ih reg hpre

/-- C3 (amended) witness at the concrete counterexample directory. -/
theorem loadDirectory_aborts_witness :
    loadDirectory fcC3 pwC3 true
        ([⟨chars ("f1"), true, chars (".jcwf")⟩] ++
          ⟨chars ("f2"), true, chars (".jcwf")⟩ ::
          [⟨chars ("f3"), true, chars (".jcwf")⟩]) [] =
      (false, [(chars ("f1"), ⟨chars ("1.0"), chars ("f1"), [], [], []⟩)]) :=
  loadDirectory_aborts_at_first_failure fcC3 pwC3 []
    [(chars ("f1"), ⟨chars ("1.0"), chars ("f1"), [], [], []⟩)]
    [⟨chars ("f1"), true, chars (".jcwf")⟩]
    ⟨chars ("f2"), true, chars (".jcwf")⟩
    [⟨chars ("f3"), true, chars (".jcwf")⟩]
    (by decide) (by decide) (by decide) (by decide)

-- ---------------------------------------------------------------------
-- C4 witness
-- ---------------------------------------------------------------------

/-- C4 witness: the skip population at a concrete task with two output
slots and one resolved output path. -/
theorem populateSkipped_matches_rule_witness :
    resolveFreshnessPathsForTask wfC1 runC2 tdC5 (chars ("t5")) =
      some ([], [chars ("p")]) ∧
    (populateSkippedTaskOutputsIfPossible wfC1 runC2 tdC5 (chars ("t5"))
        initialTaskState).outputValues =
      skipPopulationRuleSpec (tdC5.outputs.map Prod.fst) [chars ("p")] :=
  ⟨by decide,
    populateSkipped_matches_rule wfC1 runC2 tdC5 (chars ("t5")) initialTaskState
      [] [chars ("p")] (by decide) (by decide) (by decide) (by decide)⟩

-- ---------------------------------------------------------------------
-- C5 counterexample
-- ---------------------------------------------------------------------

/-- C5 (counterexample): for a task with two declared output slots and a
single (template-free) file output, the skip-population rule broadcasts the
path to both slots, but the shell executor's `BuildOutputSlotMap` produces
an empty map: the two populations differ on a successful execution. -/
theorem buildOutputSlotMap_claimC5_counterexample :
    resolveTemplatePathList [] [] tdC5.fileOutputs = some [chars ("p")] ∧
    skipPopulationRuleSpec (tdC5.outputs.map Prod.fst) [chars ("p")] =
      [(chars ("a"), chars ("p")), (chars ("b"), chars ("p"))] ∧
    buildOutputSlotMap tdC5 initialTaskState = [] ∧
    alookup (buildOutputSlotMap tdC5 initialTaskState) (chars ("a")) ≠
      alookup (skipPopulationRuleSpec (tdC5.outputs.map Prod.fst) [chars ("p")])
        (chars ("a")) := by
  decide

-- ---------------------------------------------------------------------
-- C6 witness
-- ---------------------------------------------------------------------

/-- C6 witness: a single `-v` argument, containing no input or output
macro, is wrapped between the two synthesized macros. -/
theorem ensureDefaultInputOutputArgs_option_b_witness :
    ensureDefaultInputOutputArgs [chars ("-v")] =
      chars ("$\x7binputs\x7d") :: [chars ("-v")] ++ [chars ("$\x7boutputs\x7d")] :=
  (ensureDefaultInputOutputArgs_option_b [chars ("-v")]).1
    (by
      rintro ⟨a, ha, h | h⟩ <;>
        rw [List.mem_singleton] at ha <;> subst ha <;>
        exact absurd ((containsSubstr_iff _ _).mpr h) (by decide))
    (by
      rintro ⟨a, ha, h | h⟩ <;>
        rw [List.mem_singleton] at ha <;> subst ha <;>
        exact absurd ((containsSubstr_iff _ _).mpr h) (by decide))

-- ---------------------------------------------------------------------
-- C10 witness
-- ---------------------------------------------------------------------

/-- C10 witness: with no `args`, no `file_inputs` and one file output, the
synthesized `$\x7binputs\x7d` expands to the empty string and disappears:
the command line is exactly `scripts/x out.txt`. -/
theorem buildShellCommandLine_omits_empty_args_witness :
    buildShellCommandLine
        ⟨chars ("t"), [], [], [chars ("out.txt")], emptyEnv, [], []⟩
        initialTaskState (chars ("scripts/x")) [] =
      some (joinArgumentsForSystem
        (chars ("scripts/x") ::
          ([[], chars ("out.txt")] : List Str).filter (fun v => !(v.isEmpty)))) :=
  buildShellCommandLine_omits_empty_args
    ⟨chars ("t"), [], [], [chars ("out.txt")], emptyEnv, [], []⟩
    initialTaskState (chars ("scripts/x")) [] [[], chars ("out.txt")]
    (List.Forall₂.cons ⟨by decide, by decide⟩
      (List.Forall₂.cons ⟨by decide, by decide⟩ List.Forall₂.nil))

end Jarvis

namespace Jarvis

theorem startsWithStr_self_append (p r : Str) : startsWithStr p (p ++ r) = true :=
  (startsWithStr_iff p (p ++ r)).mpr ⟨r, rfl⟩

theorem inputsTag_cons :
    chars ("$\x7binputs.") = '$' :: chars ("\x7binputs.") := rfl

theorem inputsTag_length : (chars ("$\x7binputs.")).length = 9 := rfl

theorem drop9_tag_append (x : Str) :
    (chars ("$\x7binputs.") ++ x).drop 9 = x := by
  rw [show (9 : Nat) = (chars ("$\x7binputs.")).length from rfl]
  exact List.drop_left _ _

theorem core_some_to_rewrites (m : List (Str × Str)) :
    ∀ (n : Nat) (raw out : Str), raw.length < n →
      expandTemplatesCore m n raw = some out → TemplRewrites m raw out := by
  intro n
  induction n with
  | zero => intro raw out h; omega
  | succ n ih =>
    intro raw out hlen hcore
    cases raw with
    | nil =>
      simp only [expandTemplatesCore] at hcore
      cases hcore
      exact TemplRewrites.nil
    | cons c rest =>
      simp only [expandTemplatesCore] at hcore
      by_cases hst : startsWithStr (chars ("$\x7binputs.")) (c :: rest) = true
      · rw [if_pos hst] at hcore
        obtain ⟨r, hr⟩ := (startsWithStr_iff _ _).mp hst
        have hdrop : (c :: rest).drop 9 = r := by
          rw [hr]
          exact drop9_tag_append r
        rw [hdrop] at hcore
        cases hsp : splitAtBrace r with
        | none => rw [hsp] at hcore; cases hcore
        | some kr =>
          obtain ⟨key, rest'⟩ := kr
          rw [hsp] at hcore
          dsimp only at hcore
          obtain ⟨hreq, hknb⟩ := splitAtBrace_some_imp r key rest' hsp
          cases hlk : alookup m key with
          | none => rw [hlk] at hcore; cases hcore
          | some v =>
            rw [hlk] at hcore
            cases hrec : expandTemplatesCore m n rest' with
            | none => rw [hrec] at hcore; cases hcore
            | some t =>
              rw [hrec] at hcore
              cases hcore
              have hlen2 : rest'.length < n := by
                have h1 : (c :: rest).length = 9 + r.length := by
                  rw [hr, List.length_append, inputsTag_length]
                have h2 : r.length = key.length + 1 + rest'.length := by
                  rw [hreq, List.length_append, List.length_cons]
                  omega
                simp only [List.length_cons] at hlen h1
                omega
              have hrw := ih rest' t hlen2 hrec
              rw [hr, hreq, ← List.append_assoc]
              exact TemplRewrites.subst hknb hlk hrw
      · rw [if_neg hst] at hcore
        cases hrec : expandTemplatesCore m n rest with
        | none => rw [hrec] at hcore; cases hcore
        | some t =>
          rw [hrec] at hcore
          cases hcore
          have hlen2 : rest.length < n := by
            simp only [List.length_cons] at hlen
            omega
          exact TemplRewrites.lit (Bool.not_eq_true _ |>.mp hst)
            (ih rest t hlen2 hrec)

theorem rewrites_to_core_some (m : List (Str × Str)) (raw out : Str)
    (h : TemplRewrites m raw out) :
    ∀ n : Nat, raw.length < n → expandTemplatesCore m n raw = some out := by
  induction h with
  | nil =>
    intro n hn
    cases n with
    | zero => omega
    | succ n' => rfl
  | lit hst _ ih =>
    intro n hn
    cases n with
    | zero => omega
    | succ n' =>
      simp only [expandTemplatesCore]
      rw [if_neg (by simp [hst])]
      rw [ih n' (by simp only [List.length_cons] at hn; omega)]
  | @subst key rest v t hknb hlk _ ih =>
    intro n hn
    cases n with
    | zero => omega
    | succ n' =>
      rw [List.append_assoc, inputsTag_cons, List.cons_append]
      simp only [expandTemplatesCore]
      rw [if_pos (by
        rw [← List.cons_append, ← inputsTag_cons]
        exact startsWithStr_self_append _ _)]
      rw [show ('$' :: (chars ("\x7binputs.") ++ (key ++ '}' :: rest))).drop 9 =
          key ++ '}' :: rest by
        rw [← List.cons_append, ← inputsTag_cons]
        exact drop9_tag_append _]
      rw [splitAtBrace_append key rest hknb]
      dsimp only
      rw [hlk]
      rw [ih n' (by
        simp only [List.length_append, List.length_cons, inputsTag_length] at hn
        omega)]

theorem core_none_to_fails (m : List (Str × Str)) :
    ∀ (n : Nat) (raw : Str), raw.length < n →
      expandTemplatesCore m n raw = none → TemplFails m raw := by
  intro n
  induction n with
  | zero => intro raw h; omega
  | succ n ih =>
    intro raw hlen hcore
    cases raw with
    | nil =>
      simp only [expandTemplatesCore] at hcore
      cases hcore
    | cons c rest =>
      simp only [expandTemplatesCore] at hcore
      by_cases hst : startsWithStr (chars ("$\x7binputs.")) (c :: rest) = true
      · rw [if_pos hst] at hcore
        obtain ⟨r, hr⟩ := (startsWithStr_iff _ _).mp hst
        have hdrop : (c :: rest).drop 9 = r := by
          rw [hr]
          exact drop9_tag_append r
        rw [hdrop] at hcore
        cases hsp : splitAtBrace r with
        | none =>
          rw [hr]
          exact TemplFails.noClose ((splitAtBrace_eq_none r).mp hsp)
        | some kr =>
          obtain ⟨key, rest'⟩ := kr
          rw [hsp] at hcore
          dsimp only at hcore
          obtain ⟨hreq, hknb⟩ := splitAtBrace_some_imp r key rest' hsp
          cases hlk : alookup m key with
          | none =>
            rw [hr, hreq, ← List.append_assoc]
            exact TemplFails.badKey hknb hlk
          | some v =>
            rw [hlk] at hcore
            cases hrec : expandTemplatesCore m n rest' with
            | none =>
              have hlen2 : rest'.length < n := by
                have h1 : (c :: rest).length = 9 + r.length := by
                  rw [hr, List.length_append, inputsTag_length]
                have h2 : r.length = key.length + 1 + rest'.length := by
                  rw [hreq, List.length_append, List.length_cons]
                  omega
                simp only [List.length_cons] at hlen h1
                omega
              rw [hr, hreq, ← List.append_assoc]
              exact TemplFails.subst hknb hlk (ih rest' hlen2 hrec)
            | some t => rw [hrec] at hcore; cases hcore
      · rw [if_neg hst] at hcore
        cases hrec : expandTemplatesCore m n rest with
        | none =>
          have hlen2 : rest.length < n := by
            simp only [List.length_cons] at hlen
            omega
          exact TemplFails.lit (Bool.not_eq_true _ |>.mp hst) (ih rest hlen2 hrec)
        | some t => rw [hrec] at hcore; cases hcore

theorem fails_to_core_none (m : List (Str × Str)) (raw : Str)
    (h : TemplFails m raw) :
    ∀ n : Nat, raw.length < n → expandTemplatesCore m n raw = none := by
  induction h with
  | @noClose rest hnb =>
    intro n hn
    cases n with
    | zero => omega
    | succ n' =>
      rw [inputsTag_cons, List.cons_append]
      simp only [expandTemplatesCore]
      rw [if_pos (by
        rw [← List.cons_append, ← inputsTag_cons]
        exact startsWithStr_self_append _ _)]
      rw [show ('$' :: (chars ("\x7binputs.") ++ rest)).drop 9 = rest by
        rw [← List.cons_append, ← inputsTag_cons]
        exact drop9_tag_append _]
      rw [(splitAtBrace_eq_none rest).mpr hnb]
  | @badKey key rest hknb hlk =>
    intro n hn
    cases n with
    | zero => omega
    | succ n' =>
      rw [List.append_assoc, inputsTag_cons, List.cons_append]
      simp only [expandTemplatesCore]
      rw [if_pos (by
        rw [← List.cons_append, ← inputsTag_cons]
        exact startsWithStr_self_append _ _)]
      rw [show ('$' :: (chars ("\x7binputs.") ++ (key ++ '}' :: rest))).drop 9 =
          key ++ '}' :: rest by
        rw [← List.cons_append, ← inputsTag_cons]
        exact drop9_tag_append _]
      rw [splitAtBrace_append key rest hknb]
      dsimp only
      rw [hlk]
  | @lit c s hst _ ih =>
    intro n hn
    cases n with
    | zero => omega
    | succ n' =>
      simp only [expandTemplatesCore]
      rw [if_neg (by simp [hst])]
      rw [ih n' (by simp only [List.length_cons] at hn; omega)]
  | @subst key rest v hknb hlk _ ih =>
    intro n hn
    cases n with
    | zero => omega
    | succ n' =>
      rw [List.append_assoc, inputsTag_cons, List.cons_append]
      simp only [expandTemplatesCore]
      rw [if_pos (by
        rw [← List.cons_append, ← inputsTag_cons]
        exact startsWithStr_self_append _ _)]
      rw [show ('$' :: (chars ("\x7binputs.") ++ (key ++ '}' :: rest))).drop 9 =
          key ++ '}' :: rest by
        rw [← List.cons_append, ← inputsTag_cons]
        exact drop9_tag_append _]
      rw [splitAtBrace_append key rest hknb]
      dsimp only
      rw [hlk]
      rw [ih n' (by
        simp only [List.length_append, List.length_cons, inputsTag_length] at hn
        omega)]

theorem expandTemplates_some_iff (raw : Str) (m : List (Str × Str)) (out : Str) :
    expandTemplates raw m = some out ↔ TemplRewrites m raw out := by
  constructor
  · exact core_some_to_rewrites m (raw.length + 1) raw out (Nat.lt_succ_self _)
  · intro h
    exact rewrites_to_core_some m raw out h (raw.length + 1) (Nat.lt_succ_self _)

theorem expandTemplates_none_iff (raw : Str) (m : List (Str × Str)) :
    expandTemplates raw m = none ↔ TemplFails m raw := by
  constructor
  · exact core_none_to_fails m (raw.length + 1) raw (Nat.lt_succ_self _)
  · intro h
    exact fails_to_core_none m raw h (raw.length + 1) (Nat.lt_succ_self _)

end Jarvis
namespace Jarvis

theorem expandPassGo_some_iff :
    ∀ (todo done final : List (Str × Str)),
      expandPassGo done todo = some final ↔ PassRewrites done todo final := by
  intro todo
  induction todo with
  | nil =>
    intro done final
    simp only [expandPassGo]
    constructor
    · intro h
      cases h
      exact PassRewrites.nil done
    · intro h
      cases h
      rfl
  | cons p rest ih =>
    intro done final
    obtain ⟨k, v⟩ := p
    simp only [expandPassGo]
    cases hexp : expandTemplates v (done ++ (k, v) :: rest) with
    | none =>
      constructor
      · intro h
        cases h
      · intro h
        cases h with
        | cons hrw htail =>
          rw [(expandTemplates_some_iff _ _ _).mpr hrw] at hexp
          cases hexp
    | some v' =>
      rw [ih]
      constructor
      · intro h
        exact PassRewrites.cons ((expandTemplates_some_iff _ _ _).mp hexp) h
      · intro h
        cases h with
        | cons hrw htail =>
          have := (expandTemplates_some_iff _ _ _).mpr hrw
          rw [hexp] at this
          cases this
          exact htail

theorem expandPassGo_none_iff :
    ∀ (todo done : List (Str × Str)),
      expandPassGo done todo = none ↔ PassFails done todo := by
  intro todo
  induction todo with
  | nil =>
    intro done
    simp only [expandPassGo]
    constructor
    · intro h
      cases h
    · intro h
      cases h
  | cons p rest ih =>
    intro done
    obtain ⟨k, v⟩ := p
    simp only [expandPassGo]
    cases hexp : expandTemplates v (done ++ (k, v) :: rest) with
    | none =>
      constructor
      · intro _
        exact PassFails.here ((expandTemplates_none_iff _ _).mp hexp)
      · intro _
        rfl
    | some v' =>
      rw [ih]
      constructor
      · intro h
        exact PassFails.there ((expandTemplates_some_iff _ _ _).mp hexp) h
      · intro h
        cases h with
        | here hf =>
          rw [(expandTemplates_none_iff _ _).mpr hf] at hexp
          cases hexp
        | there hrw htail =>
          have := (expandTemplates_some_iff _ _ _).mpr hrw
          rw [hexp] at this
          cases this
          exact htail

/-- C7: the dataflow resolver's template pass.  A value expands successfully
exactly when every literal `$\x7binputs.KEY\x7d` substring is replaced by the
already-resolved value of KEY from the same map (`TemplRewrites`); it yields
`none` exactly on a malformed template or an unknown key (`TemplFails`); and
after every declared input slot has been resolved from edges, the whole
resolution produces the rewritten map and fails whenever some value's
expansion fails. -/
theorem dataflow_template_expansion_characterization :
    (∀ (raw : Str) (m : List (Str × Str)) (out : Str),
      expandTemplates raw m = some out ↔ TemplRewrites m raw out) ∧
    (∀ (raw : Str) (m : List (Str × Str)),
      expandTemplates raw m = none ↔ TemplFails m raw) ∧
    (∀ (wf : WorkflowDefinition) (run : WorkflowRun) (td : TaskDef) (tid : Str)
       (m0 : List (Str × Str)),
      resolveStep1 wf run tid td.inputs = some m0 →
      ((∀ mfin, resolveInputsForTask wf run td tid = some mfin →
          PassRewrites [] m0 mfin) ∧
       (PassFails [] m0 → resolveInputsForTask wf run td tid = none))) := by
  refine ⟨expandTemplates_some_iff, expandTemplates_none_iff, ?_⟩
  intro wf run td tid m0 h
  unfold resolveInputsForTask
  rw [h]
  exact ⟨fun mfin hm => (expandPassGo_some_iff m0 [] mfin).mp hm,
    fun hf => (expandPassGo_none_iff m0 []).mpr hf⟩

/-- C7 witness: slot `x` resolves from the edge to `foo` and the pass
rewrites the (template-free) map to itself. -/
theorem dataflow_template_expansion_witness :
    PassRewrites [] [(chars ("x"), chars ("foo"))] [(chars ("x"), chars ("foo"))] :=
  (dataflow_template_expansion_characterization.2.2 wfC7 runC7 tdC7
      (chars ("sum")) [(chars ("x"), chars ("foo"))] (by decide)).1
    [(chars ("x"), chars ("foo"))] (by decide)

end Jarvis

namespace Jarvis

theorem alookup_map_over {α : Type} (m : List (Str × α)) (k : Str) (v : α) (k' : Str) :
    alookup (m.map (fun p => if p.1 = k then (p.1, v) else p)) k' =
      (alookup m k').map (fun old => if k = k' then v else old) := by
  induction m with
  | nil => simp [alookup]
  | cons p rest ih =>
    obtain ⟨k0, v0⟩ := p
    by_cases h0 : k0 = k
    · simp only [List.map_cons, if_pos h0]
      by_cases h0' : k0 = k'
      · have hkk : k = k' := h0 ▸ h0'
        simp only [alookup, if_pos h0', if_pos hkk]
        rfl
      · have hkk : True := trivial
        simp only [alookup, if_neg h0']
        exact ih
    · simp only [List.map_cons, if_neg h0]
      by_cases h0' : k0 = k'
      · have hkk : ¬ k = k' := fun h => h0 (h ▸ h0')
        simp only [alookup, if_pos h0', if_neg hkk]
        rfl
      · simp only [alookup, if_neg h0']
        exact ih

theorem minsert_alookup {α : Type} (m : List (Str × α)) (k k' : Str) (v : α) :
    alookup (minsert m k v) k' = if k = k' then some v else alookup m k' := by
  unfold minsert
  by_cases hs : (alookup m k).isSome = true
  · rw [if_pos hs, alookup_map_over]
    by_cases hkk : k = k'
    · subst hkk
      obtain ⟨w, hw⟩ := Option.isSome_iff_exists.mp hs
      rw [hw, if_pos rfl]
      simp
    · rw [if_neg hkk]
      cases alookup m k' with
      | none => rfl
      | some w => simp [if_neg hkk]
  · rw [if_neg hs, alookup_append]
    by_cases hkk : k = k'
    · subst hkk
      cases h : alookup m k with
      | some w => rw [h] at hs; simp at hs
      | none =>
        dsimp only
        rw [if_pos rfl]
        simp [alookup]
    · rw [if_neg hkk]
      cases h : alookup m k' with
      | some w => rfl
      | none => simp [alookup, hkk]

theorem indexOk_empty : IndexOk ⟨[], []⟩ := by
  intro path
  constructor
  · simp [alookup]
  · intro i
    simp [alookup, List.get?]

end Jarvis
namespace Jarvis

theorem indexOk_add (st : TriggerEngineState) (w t p : Str)
    (evs : List FileEventType) (d : Nat) (e : Bool) (hok : IndexOk st) :
    IndexOk (addFileWatchTrigger st w t p evs d e) := by
  intro path
  unfold addFileWatchTrigger
  simp only
  set N := st.fileWatchTriggers.length with hN
  set inst : FileWatchTriggerInstance := ⟨w, t, p, evs, d, e, false, 0⟩ with hinst
  set bucket := (alookup st.fileWatchIndex p).getD [] with hbucket
  have hb' : (alookup (minsert st.fileWatchIndex p (bucket ++ [N])) path).getD [] =
      if p = path then bucket ++ [N] else (alookup st.fileWatchIndex path).getD [] := by
    rw [minsert_alookup]
    by_cases hpp : p = path
    · rw [if_pos hpp, if_pos hpp]
      rfl
    · rw [if_neg hpp, if_neg hpp]
  rw [hb']
  have hmemN : N ∉ bucket := by
    intro hmem
    obtain ⟨inst0, hget, _⟩ := ((hok p).2 N).mp hmem
    obtain ⟨hlt, _⟩ := List.get?_eq_some.mp hget
    omega
  have hgetlt : ∀ i : Nat, i < N →
      (st.fileWatchTriggers ++ [inst]).get? i = st.fileWatchTriggers.get? i := by
    intro i hi
    exact List.get?_append hi
  have hgetN : (st.fileWatchTriggers ++ [inst]).get? N = some inst :=
    List.get?_concat_length _ _
  have hgetgt : ∀ i : Nat, N < i → (st.fileWatchTriggers ++ [inst]).get? i = none := by
    intro i hi
    apply List.get?_eq_none.mpr
    rw [List.length_append, List.length_singleton]
    omega
  by_cases hpp : p = path
  · rw [if_pos hpp]
    constructor
    · exact ((hok p).1).append (List.nodup_singleton N)
        (fun x hx hx' => by
          rw [List.mem_singleton] at hx'
          exact hmemN (hx' ▸ hx))
    · intro i
      rw [List.mem_append, List.mem_singleton]
      constructor
      · rintro (hmem | rfl)
        · obtain ⟨inst0, hget, hwp⟩ := ((hok p).2 i).mp hmem
          obtain ⟨hlt, _⟩ := List.get?_eq_some.mp hget
          exact ⟨inst0, by rw [hgetlt i hlt]; exact hget, hpp ▸ hwp⟩
        · exact ⟨inst, hgetN, hpp ▸ rfl⟩
      · rintro ⟨inst', hget', hwp'⟩
        rcases Nat.lt_trichotomy i N with hlt | rfl | hgt
        · rw [hgetlt i hlt] at hget'
          exact Or.inl (((hok p).2 i).mpr ⟨inst', hget', hpp ▸ hwp'⟩)
        · exact Or.inr rfl
        · rw [hgetgt i hgt] at hget'
          cases hget'
  · rw [if_neg hpp]
    constructor
    · exact (hok path).1
    · intro i
      constructor
      · intro hmem
        obtain ⟨inst0, hget, hwp⟩ := ((hok path).2 i).mp hmem
        obtain ⟨hlt, _⟩ := List.get?_eq_some.mp hget
        exact ⟨inst0, by rw [hgetlt i hlt]; exact hget, hwp⟩
      · rintro ⟨inst', hget', hwp'⟩
        rcases Nat.lt_trichotomy i N with hlt | rfl | hgt
        · rw [hgetlt i hlt] at hget'
          exact ((hok path).2 i).mpr ⟨inst', hget', hwp'⟩
        · rw [hgetN] at hget'
          cases hget'
          rw [hinst] at hwp'
          exact absurd hwp' hpp
        · rw [hgetgt i hgt] at hget'
          cases hget'

end Jarvis
namespace Jarvis

theorem notifySpec_skip (kind : FileEventType) (now : Int) (j : Nat) (rest : List Nat)
    (st : TriggerEngineState) (hnf : ¬ FireCond st j kind now)
    (h : NotifySpec kind now rest st (notifyGo kind now rest st)) :
    NotifySpec kind now (j :: rest) st (notifyGo kind now rest st) := by
  obtain ⟨s1, s2, s3, s4, s5⟩ := h
  refine ⟨s1.cons j, ?_, ?_, ?_, s5⟩
  · intro i
    rw [s2 i, List.mem_cons]
    constructor
    · rintro ⟨hir, hfc⟩
      exact ⟨Or.inr hir, hfc⟩
    · rintro ⟨hij | hir, hfc⟩
      · exact absurd (hij ▸ hfc) hnf
      · exact ⟨hir, hfc⟩
  · intro i hi hfc
    rcases List.mem_cons.mp hi with rfl | hir
    · exact absurd hfc hnf
    · exact s3 i hir hfc
  · intro i h
    exact s4 i (fun hir => h (List.mem_cons_of_mem j hir))

theorem notifyGo_spec (kind : FileEventType) (now : Int) :
    ∀ (indices : List Nat) (st : TriggerEngineState), indices.Nodup →
      NotifySpec kind now indices st (notifyGo kind now indices st) := by
  intro indices
  induction indices with
  | nil =>
    intro st _
    refine ⟨List.Sublist.refl [], ?_, ?_, fun i _ => rfl, rfl⟩
    · intro i
      constructor
      · intro hi
        exact absurd hi (List.not_mem_nil i)
      · rintro ⟨hi, -⟩
        exact absurd hi (List.not_mem_nil i)
    · intro i hi
      exact absurd hi (List.not_mem_nil i)
  | cons j rest ih =>
    intro st hnd
    rw [List.nodup_cons] at hnd
    obtain ⟨hni, hnd'⟩ := hnd
    cases hget : st.fileWatchTriggers.get? j with
    | none =>
      have heq : notifyGo kind now (j :: rest) st = notifyGo kind now rest st := by
        conv_lhs => rw [notifyGo]
        rw [hget]
      rw [heq]
      refine notifySpec_skip kind now j rest st ?_ (ih st hnd')
      rintro ⟨inst, hg, -⟩
      rw [hget] at hg
      cases hg
    | some inst =>
      by_cases hen : inst.isEnabled = false
      · have heq : notifyGo kind now (j :: rest) st = notifyGo kind now rest st := by
          conv_lhs => rw [notifyGo]
          rw [hget]
          dsimp only
          rw [if_pos hen]
        rw [heq]
        refine notifySpec_skip kind now j rest st ?_ (ih st hnd')
        rintro ⟨inst2, hg, hen2, -⟩
        rw [hget] at hg
        cases hg
        rw [hen] at hen2
        cases hen2
      · by_cases hev : inst.events.contains kind = false
        · have heq : notifyGo kind now (j :: rest) st = notifyGo kind now rest st := by
            conv_lhs => rw [notifyGo]
            rw [hget]
            dsimp only
            rw [if_neg hen, if_pos hev]
          rw [heq]
          refine notifySpec_skip kind now j rest st ?_ (ih st hnd')
          rintro ⟨inst2, hg, -, hev2, -⟩
          rw [hget] at hg
          cases hg
          have hev3 : inst.events.contains kind = true := List.elem_iff.mpr hev2
          rw [hev] at hev3
          cases hev3
        · by_cases hcf : (if inst.hasFiredOnce = false then true
              else decide (now - inst.lastFireTime ≥ (inst.debounceMs : Int))) = true
          · -- fire branch
            have hF : FireCond st j kind now := by
              refine ⟨inst, hget, ?_, ?_, ?_⟩
              · revert hen
                cases inst.isEnabled <;> simp
              · have hev3 : inst.events.contains kind = true := by
                  revert hev
                  cases inst.events.contains kind <;> simp
                exact List.elem_iff.mp hev3
              · cases hfo : inst.hasFiredOnce with
                | false => exact Or.inl rfl
                | true =>
                  rw [hfo] at hcf
                  simp at hcf
                  exact Or.inr hcf
            rcases hrec : (notifyGo kind now rest
                { st with
                  fileWatchTriggers :=
                    st.fileWatchTriggers.set j
                      { inst with hasFiredOnce := true, lastFireTime := now } }) with
              ⟨st2, fires⟩
            have heq : notifyGo kind now (j :: rest) st = (st2, j :: fires) := by
              conv_lhs => rw [notifyGo]
              rw [hget]
              dsimp only
              rw [if_neg hen, if_neg hev, if_pos hcf, hrec]
            rw [heq]
            have hspec := ih
              { st with
                fileWatchTriggers :=
                  st.fileWatchTriggers.set j
                    { inst with hasFiredOnce := true, lastFireTime := now } } hnd'
            rw [hrec] at hspec
            obtain ⟨s1, s2, s3, s4, s5⟩ := hspec
            have hget_ne : ∀ i : Nat, i ≠ j →
                (st.fileWatchTriggers.set j
                    { inst with hasFiredOnce := true, lastFireTime := now }).get? i =
                  st.fileWatchTriggers.get? i := by
              intro i hne
              exact List.get?_set_ne _ _ (fun h => hne h.symm)
            have hFC_ne : ∀ i : Nat, i ≠ j →
                (FireCond
                    { st with
                      fileWatchTriggers :=
                        st.fileWatchTriggers.set j
                          { inst with hasFiredOnce := true, lastFireTime := now } }
                    i kind now ↔
                  FireCond st i kind now) := by
              intro i hne
              unfold FireCond
              dsimp only
              rw [hget_ne i hne]
            refine ⟨s1.cons₂ j, ?_, ?_, ?_, s5⟩
            · intro i
              rw [List.mem_cons, List.mem_cons]
              constructor
              · rintro (rfl | hmem)
                · exact ⟨Or.inl rfl, hF⟩
                · obtain ⟨hir, hfc⟩ := (s2 i).mp hmem
                  have hne : i ≠ j := fun h => hni (h ▸ hir)
                  exact ⟨Or.inr hir, (hFC_ne i hne).mp hfc⟩
              · rintro ⟨rfl | hir, hfc⟩
                · exact Or.inl rfl
                · have hne : i ≠ j := fun h => hni (h ▸ hir)
                  exact Or.inr ((s2 i).mpr ⟨hir, (hFC_ne i hne).mpr hfc⟩)
            · intro i hi hfc
              by_cases hne : i = j
              · subst hne
                rw [s4 i (fun hir => absurd hir hni)]
                dsimp only
                rw [List.get?_set_eq, hget]
                rfl
              · rcases List.mem_cons.mp hi with h0 | hir
                · exact absurd h0 hne
                · rw [s3 i hir ((hFC_ne i hne).mpr hfc)]
                  dsimp only
                  rw [hget_ne i hne]
            · intro i h
              have hne : i ≠ j := by
                rintro rfl
                exact h (List.mem_cons_self i rest) hF
              rw [s4 i (fun hir hfc2 =>
                h (List.mem_cons_of_mem j hir) ((hFC_ne i hne).mp hfc2))]
              dsimp only
              rw [hget_ne i hne]
          · -- debounce blocks the fire
            have heq : notifyGo kind now (j :: rest) st = notifyGo kind now rest st := by
              conv_lhs => rw [notifyGo]
              rw [hget]
              dsimp only
              rw [if_neg hen, if_neg hev, if_neg hcf]
            rw [heq]
            refine notifySpec_skip kind now j rest st ?_ (ih st hnd')
            rintro ⟨inst2, hg, -, -, hdb⟩
            rw [hget] at hg
            cases hg
            cases hfo : inst.hasFiredOnce with
            | false =>
              rw [hfo] at hcf
              simp at hcf
            | true =>
              rw [hfo] at hcf
              simp at hcf
              rcases hdb with h1 | h2
              · rw [hfo] at h1
                cases h1
              · exact absurd h2 (by
                  intro hge
                  exact absurd hge (not_le.mpr hcf))
end Jarvis
namespace Jarvis

theorem notifyFileEventCore_spec (st : TriggerEngineState) (path : Str)
    (kind : FileEventType) (now : Int) (hok : IndexOk st) :
    NotifySpec kind now ((alookup st.fileWatchIndex path).getD []) st
      (notifyFileEventCore st path kind now) := by
  unfold notifyFileEventCore
  cases h : alookup st.fileWatchIndex path with
  | none =>
    simp only [Option.getD]
    exact notifyGo_spec kind now [] st List.nodup_nil
  | some indices =>
    simp only [Option.getD]
    refine notifyGo_spec kind now indices st ?_
    have hnd := (hok path).1
    rw [h] at hnd
    exact hnd

theorem indexOk_notifyCore (st : TriggerEngineState) (path : Str)
    (kind : FileEventType) (now : Int) (hok : IndexOk st) :
    IndexOk (notifyFileEventCore st path kind now).1 := by
  obtain ⟨-, s2, s3, s4, s5⟩ := notifyFileEventCore_spec st path kind now hok
  have hget : ∀ i : Nat,
      (notifyFileEventCore st path kind now).1.fileWatchTriggers.get? i =
        st.fileWatchTriggers.get? i ∨
      (notifyFileEventCore st path kind now).1.fileWatchTriggers.get? i =
        (st.fileWatchTriggers.get? i).map
          (fun inst => { inst with hasFiredOnce := true, lastFireTime := now }) := by
    intro i
    by_cases h : i ∈ (alookup st.fileWatchIndex path).getD [] ∧ FireCond st i kind now
    · exact Or.inr (s3 i h.1 h.2)
    · exact Or.inl (s4 i (fun hi hfc => h ⟨hi, hfc⟩))
  intro p
  rw [s5]
  refine ⟨(hok p).1, ?_⟩
  intro i
  rw [(hok p).2 i]
  rcases hget i with h | h
  · rw [h]
  · rw [h]
    cases ho : st.fileWatchTriggers.get? i with
    | none =>
      simp only [Option.map_none']
    | some inst0 =>
      simp only [Option.map_some']
      constructor
      · rintro ⟨inst1, he, hwp⟩
        cases he
        exact ⟨_, rfl, hwp⟩
      · rintro ⟨inst1, he, hwp⟩
        cases he
        exact ⟨_, rfl, hwp⟩

theorem firesOfTrace_map (i : Nat) (n : Int) :
    ∀ fires : List Nat,
      firesOfTrace i (fires.map (fun j => (j, n))) =
        if i ∈ fires then (List.replicate (fires.count i) n) else [] := by
  intro fires
  induction fires with
  | nil =>
    rfl
  | cons j rest ih =>
    unfold firesOfTrace at ih ⊢
    rw [List.map_cons, List.filter_cons]
    by_cases hji : j = i
    · subst hji
      rw [if_pos (by simp), List.map_cons, ih]
      rw [if_pos (List.mem_cons_self j rest), List.count_cons_self]
      by_cases hm : j ∈ rest
      · rw [if_pos hm, List.replicate_succ]
      · rw [if_neg hm, List.count_eq_zero.mpr hm, List.replicate_succ, List.replicate_zero]
    · rw [if_neg (by simp [hji]), ih]
      by_cases hm : i ∈ rest
      · rw [if_pos hm, if_pos (List.mem_cons_of_mem j hm)]
        rw [List.count_cons_of_ne (fun h => hji h.symm)]
      · rw [if_neg hm, if_neg (by
          intro hc
          rcases List.mem_cons.mp hc with h0 | h1
          · exact hji h0.symm
          · exact hm h1)]

theorem pair_sublist_of_get {α : Type} :
    ∀ (l : List α) (j k : Nat) (a b : α), j < k →
      l.get? j = some a → l.get? k = some b → List.Sublist [a, b] l := by
  intro l
  induction l with
  | nil =>
    intro j k a b _ hj _
    cases hj
  | cons x xs ih =>
    intro j k a b hjk hj hk
    cases j with
    | zero =>
      cases k with
      | zero => cases hjk
      | succ k1 =>
        have ha : x = a := by
          have : some x = some a := hj
          cases this
          rfl
        have hb : b ∈ xs := by
          have : xs.get? k1 = some b := hk
          exact List.get?_mem this
        rw [← ha]
        exact (List.singleton_sublist.mpr hb).cons₂ x
    | succ j1 =>
      cases k with
      | zero => cases hjk
      | succ k1 =>
        have hjk' : j1 < k1 := Nat.succ_lt_succ_iff.mp hjk
        exact (ih j1 k1 a b hjk' hj hk).cons x

end Jarvis
namespace Jarvis

theorem firesOfTrace_append (i : Nat) (l1 l2 : List (Nat × Int)) :
    firesOfTrace i (l1 ++ l2) = firesOfTrace i l1 ++ firesOfTrace i l2 := by
  unfold firesOfTrace
  rw [List.filter_append, List.map_append]

theorem firesOfTrace_map_nodup (i : Nat) (fires : List Nat) (n : Int)
    (hnd : fires.Nodup) :
    firesOfTrace i (fires.map (fun j => (j, n))) = if i ∈ fires then [n] else [] := by
  rw [firesOfTrace_map]
  by_cases hm : i ∈ fires
  · rw [if_pos hm, if_pos hm, List.count_eq_one_of_mem hnd hm, List.replicate_one]
  · rw [if_neg hm, if_neg hm]

theorem notifyTrace_inv :
    ∀ (events : List (Str × FileEventType × Int)) (st : TriggerEngineState),
      IndexOk st →
      ∀ (i : Nat) (inst : FileWatchTriggerInstance),
        st.fileWatchTriggers.get? i = some inst →
        List.Pairwise (fun a b => b - a ≥ (inst.debounceMs : Int))
          (firesOfTrace i (notifyTrace st events).2) ∧
        (inst.hasFiredOnce = true →
          ∀ t ∈ firesOfTrace i (notifyTrace st events).2,
            t - inst.lastFireTime ≥ (inst.debounceMs : Int)) := by
  intro events
  induction events with
  | nil =>
    intro st _ i inst _
    constructor
    · exact List.Pairwise.nil
    · intro _ t htm
      exact absurd htm (List.not_mem_nil t)
  | cons ev rest ih =>
    obtain ⟨p, kind, n⟩ := ev
    intro st hok i inst hget
    rcases hc : (notifyFileEventCore st p kind n) with ⟨st1, fires⟩
    rcases ht : (notifyTrace st1 rest) with ⟨st2, trace⟩
    have heq : notifyTrace st ((p, kind, n) :: rest) =
        (st2, fires.map (fun i2 => (i2, n)) ++ trace) := by
      conv_lhs => rw [notifyTrace]
      rw [hc]
      dsimp only
      rw [ht]
    rw [heq]
    dsimp only
    have hspec := notifyFileEventCore_spec st p kind n hok
    rw [hc] at hspec
    obtain ⟨s1, s2, s3, s4, s5⟩ := hspec
    have hok1 : IndexOk st1 := by
      have h5 := indexOk_notifyCore st p kind n hok
      rw [hc] at h5
      exact h5
    have hndf : fires.Nodup := List.Nodup.sublist s1 (hok p).1
    rw [firesOfTrace_append]
    by_cases hmem : i ∈ fires
    · obtain ⟨hib, hfc⟩ := (s2 i).mp hmem
      obtain ⟨inst0, hget0, hen0, hev0, hdb0⟩ := hfc
      rw [hget] at hget0
      injection hget0 with hinst0
      subst hinst0
      have hget1 : st1.fileWatchTriggers.get? i =
          some { inst with hasFiredOnce := true, lastFireTime := n } := by
        have h3 := s3 i hib ⟨inst, hget, hen0, hev0, hdb0⟩
        rw [hget] at h3
        exact h3
      have hrec := ih st1 hok1 i { inst with hasFiredOnce := true, lastFireTime := n } hget1
      rw [ht] at hrec
      dsimp only at hrec
      obtain ⟨hP, hall⟩ := hrec
      have hall' := hall rfl
      rw [firesOfTrace_map_nodup i fires n hndf, if_pos hmem]
      constructor
      · rw [List.singleton_append]
        refine List.pairwise_cons.mpr ⟨?_, hP⟩
        intro t htm
        exact hall' t htm
      · intro hfo t htm
        rw [List.singleton_append, List.mem_cons] at htm
        rcases htm with rfl | htm
        · rcases hdb0 with h1 | h2
          · rw [hfo] at h1
            cases h1
          · exact h2
        · have h1 : t - n ≥ (inst.debounceMs : Int) := hall' t htm
          have h2 : n - inst.lastFireTime ≥ (inst.debounceMs : Int) := by
            rcases hdb0 with hx | hx
            · rw [hfo] at hx
              cases hx
            · exact hx
          have h3 : (0 : Int) ≤ (inst.debounceMs : Int) := Int.natCast_nonneg _
          omega
    · have hget1 : st1.fileWatchTriggers.get? i = st.fileWatchTriggers.get? i :=
        s4 i (fun hib hfc => hmem ((s2 i).mpr ⟨hib, hfc⟩))
      have hrec := ih st1 hok1 i inst (by rw [hget1]; exact hget)
      rw [ht] at hrec
      dsimp only at hrec
      rw [firesOfTrace_map_nodup i fires n hndf, if_neg hmem, List.nil_append]
      exact hrec

end Jarvis
namespace Jarvis

/-- C8: for every registered file-watch trigger (watching the notified path,
index-consistent state): on `NotifyFileEvent(path, kind, now)` the trigger
fires exactly when it is enabled, its events list contains `kind`, and it has
never fired or `now - last_fire >= debounce`; `last_fire` is set to `now`
exactly on firing; and any two fires of the same trigger recorded in an event
trace are separated by at least `debounce` milliseconds. -/
theorem trigger_debounce_claimC8 (st : TriggerEngineState) (hok : IndexOk st) :
    (∀ (path : Str) (kind : FileEventType) (now : Int) (i : Nat)
        (inst : FileWatchTriggerInstance),
      st.fileWatchTriggers.get? i = some inst →
      inst.watchedPath = path →
      ((i ∈ (notifyFileEventCore st path kind now).2 ↔
          (inst.isEnabled = true ∧ kind ∈ inst.events ∧
            (inst.hasFiredOnce = false ∨
              now - inst.lastFireTime ≥ (inst.debounceMs : Int)))) ∧
        (notifyFileEventCore st path kind now).1.fileWatchTriggers.get? i =
          (if i ∈ (notifyFileEventCore st path kind now).2 then
            some { inst with hasFiredOnce := true, lastFireTime := now }
          else some inst))) ∧
    (∀ (events : List (Str × FileEventType × Int)) (i : Nat)
        (inst : FileWatchTriggerInstance) (j k : Nat) (t1 t2 : Int),
      st.fileWatchTriggers.get? i = some inst →
      j < k →
      (notifyTrace st events).2.get? j = some (i, t1) →
      (notifyTrace st events).2.get? k = some (i, t2) →
      t2 - t1 ≥ (inst.debounceMs : Int)) := by
  constructor
  · intro path kind now i inst hget hwp
    obtain ⟨s1, s2, s3, s4, s5⟩ := notifyFileEventCore_spec st path kind now hok
    have hib : i ∈ (alookup st.fileWatchIndex path).getD [] :=
      ((hok path).2 i).mpr ⟨inst, hget, hwp⟩
    constructor
    · rw [s2 i]
      constructor
      · rintro ⟨-, inst0, hget0, hrest⟩
        rw [hget] at hget0
        injection hget0 with h0
        subst h0
        exact hrest
      · rintro ⟨hen, hev, hdb⟩
        exact ⟨hib, inst, hget, hen, hev, hdb⟩
    · by_cases hmem : i ∈ (notifyFileEventCore st path kind now).2
      · rw [if_pos hmem]
        have hfc := ((s2 i).mp hmem).2
        rw [s3 i hib hfc, hget]
        rfl
      · rw [if_neg hmem]
        rw [s4 i (fun hib2 hfc => hmem ((s2 i).mpr ⟨hib2, hfc⟩)), hget]
  · intro events i inst j k t1 t2 hget hjk hj hk
    have hP := (notifyTrace_inv events st hok i inst hget).1
    have hsub : List.Sublist [(i, t1), (i, t2)] (notifyTrace st events).2 :=
      pair_sublist_of_get _ j k _ _ hjk hj hk
    have hsubf := hsub.filter (fun x => decide (x.1 = i))
    have hpairf : ([(i, t1), (i, t2)].filter (fun x => decide (x.1 = i))) =
        [(i, t1), (i, t2)] := by
      simp
    rw [hpairf] at hsubf
    have hsubm := hsubf.map Prod.snd
    have hPf : List.Pairwise (fun a b => b - a ≥ (inst.debounceMs : Int))
        ([(i, t1), (i, t2)].map Prod.snd) :=
      List.Pairwise.sublist hsubm hP
    simp only [List.map_cons, List.map_nil] at hPf
    have hcons := List.pairwise_cons.mp hPf
    exact hcons.1 t2 (by simp)

/-- C8 witness: the engine `stC8` (one enabled trigger on `/x`, 500 ms
debounce) pushed through events at t=0, 300, 600 fires at 0 and 600 only,
and the claim theorem yields the 600 - 0 >= 500 separation. -/
theorem trigger_debounce_claimC8_witness :
    (notifyTrace stC8 [(chars ("/x"), FileEventType.Modified, 0),
        (chars ("/x"), FileEventType.Modified, 300),
        (chars ("/x"), FileEventType.Modified, 600)]).2.get? 0 = some (0, 0) ∧
    (notifyTrace stC8 [(chars ("/x"), FileEventType.Modified, 0),
        (chars ("/x"), FileEventType.Modified, 300),
        (chars ("/x"), FileEventType.Modified, 600)]).2.get? 1 = some (0, 600) ∧
    (600 : Int) - (0 : Int) ≥ ((500 : Nat) : Int) := by
  refine ⟨by decide, by decide, ?_⟩
  exact (trigger_debounce_claimC8 stC8
      (indexOk_add ⟨[], []⟩ (chars ("w")) (chars ("t")) (chars ("/x"))
        [FileEventType.Modified] 500 true indexOk_empty)).2
    [(chars ("/x"), FileEventType.Modified, 0),
      (chars ("/x"), FileEventType.Modified, 300),
      (chars ("/x"), FileEventType.Modified, 600)]
    0 ⟨chars ("w"), chars ("t"), chars ("/x"), [FileEventType.Modified], 500, true,
      false, 0⟩
    0 1 0 600 (by decide) (by decide) (by decide) (by decide)

end Jarvis

namespace Jarvis

theorem sublist_sum_le (l1 l2 : List Nat) (h : l1.Sublist l2) : l1.sum ≤ l2.sum := by
  induction h with
  | slnil => exact Nat.le_refl 0
  | cons a _ ih =>
    rw [List.sum_cons]
    exact Nat.le_trans ih (Nat.le_add_left _ _)
  | cons₂ a _ ih =>
    rw [List.sum_cons, List.sum_cons]
    exact Nat.add_le_add_left ih a

theorem wrem_antitone (wf : WorkflowDefinition) (v v2 : List Str)
    (h : ∀ x ∈ v, x ∈ v2) : wrem wf v2 ≤ wrem wf v := by
  unfold wrem
  refine sublist_sum_le _ _ (List.Sublist.map _ ?_)
  refine List.monotone_filter_right _ ?_
  intro a ha
  simp only [decide_eq_true_eq] at ha ⊢
  exact fun hav => ha (h a hav)

theorem filter_sum_drop (w : Str → Nat) (t : Str) (v : List Str) (hv : t ∉ v) :
    ∀ ks : List Str, t ∈ ks →
      w t + ((ks.filter (fun k => decide (k ∉ t :: v))).map w).sum ≤
        ((ks.filter (fun k => decide (k ∉ v))).map w).sum := by
  intro ks
  induction ks with
  | nil =>
    intro h
    exact absurd h (List.not_mem_nil t)
  | cons k ks ih =>
    intro hmem
    rw [List.filter_cons, List.filter_cons]
    by_cases hkt : k = t
    · subst hkt
      rw [if_neg (by simp), if_pos (by simp [hv])]
      rw [List.map_cons, List.sum_cons]
      have hs : ((ks.filter (fun k2 => decide (k2 ∉ k :: v))).map w).sum ≤
          ((ks.filter (fun k2 => decide (k2 ∉ v))).map w).sum := by
        refine sublist_sum_le _ _ (List.Sublist.map _ ?_)
        refine List.monotone_filter_right _ ?_
        intro a ha
        simp only [decide_eq_true_eq, List.mem_cons] at ha ⊢
        exact fun hav => ha (Or.inr hav)
      omega
    · have hmem' : t ∈ ks := by
        rcases List.mem_cons.mp hmem with h1 | h2
        · exact absurd h1.symm hkt
        · exact h2
      by_cases hkv : k ∈ v
      · rw [if_neg (by simp [hkv]), if_neg (by simp [hkv])]
        exact ih hmem'
      · rw [if_pos (by simp [hkv, hkt]), if_pos (by simp [hkv])]
        rw [List.map_cons, List.sum_cons, List.map_cons, List.sum_cons]
        have := ih hmem'
        omega

theorem wrem_drop (wf : WorkflowDefinition) (t : Str) (v : List Str)
    (hv : t ∉ v) (hk : t ∈ wf.tasks.map Prod.fst) :
    2 + depsLen wf t + wrem wf (t :: v) ≤ wrem wf v := by
  unfold wrem
  have h2 := filter_sum_drop (fun k => 2 + depsLen wf k) t v hv (wf.tasks.map Prod.fst) hk
  dsimp only at h2
  omega

theorem reachesAvoiding_antimono (wf : WorkflowDefinition) (v v2 : List Str)
    (hsub : ∀ x ∈ v, x ∈ v2) {a b : Str} (h : ReachesAvoiding wf v2 a b) :
    ReachesAvoiding wf v a b := by
  induction h with
  | refl ht => exact ReachesAvoiding.refl _ (fun hc => ht (hsub _ hc))
  | step _ hlk hd hnv ih =>
    exact ReachesAvoiding.step ih hlk hd (fun hc => hnv (hsub _ hc))

theorem reachesAvoiding_prepend (wf : WorkflowDefinition) (v : List Str)
    {t d u : Str} {td : TaskDef} (hlk : alookup wf.tasks t = some td)
    (hd : d ∈ td.dependsOn) (ht : t ∉ v) (h : ReachesAvoiding wf v d u) :
    ReachesAvoiding wf v t u := by
  induction h with
  | refl hs => exact ReachesAvoiding.step (ReachesAvoiding.refl t ht) hlk hd hs
  | step _ hlk2 hd2 hnv ih => exact ReachesAvoiding.step ih hlk2 hd2 hnv

theorem reachesAvoiding_to_reaches (wf : WorkflowDefinition) (v : List Str)
    {a b : Str} (h : ReachesAvoiding wf v a b) : Reaches wf a b := by
  induction h with
  | refl _ => exact Reaches.refl _
  | step _ hlk hd _ ih => exact Reaches.step ih hlk hd

theorem collectGo_visited_mono (wf : WorkflowDefinition)
    (resolve : ResolveOutputPathsFn) (fs : Fs) :
    ∀ (fuel : Nat) (job : Sum Str (List Str)) (v : List Str) (ts : List Nat)
      (b : Bool) (v2 : List Str) (ts2 : List Nat),
      collectGo wf resolve fs fuel job v ts = some (b, v2, ts2) →
      ∀ x ∈ v, x ∈ v2 := by
  intro fuel
  induction fuel with
  | zero =>
    intro job v ts b v2 ts2 h
    cases h
  | succ fuel ih =>
    intro job v ts b v2 ts2 h
    match job with
    | Sum.inl t =>
      rw [collectGo] at h
      by_cases htv : t ∈ v
      · rw [if_pos htv] at h
        injection h with h1
        injection h1 with _ h2
        injection h2 with h3
        subst h3
        exact fun x hx => hx
      · rw [if_neg htv] at h
        dsimp only at h
        cases hlk : alookup wf.tasks t with
        | none =>
          rw [hlk] at h
          dsimp only at h
          injection h with h1
          injection h1 with _ h2
          injection h2 with h3
          subst h3
          exact fun x hx => List.mem_cons_of_mem t hx
        | some td =>
          rw [hlk] at h
          dsimp only at h
          cases hin : collectGo wf resolve fs fuel (Sum.inr td.dependsOn) (t :: v) ts with
          | none =>
            rw [hin] at h
            cases h
          | some r =>
            obtain ⟨b1, v1, ts1⟩ := r
            rw [hin] at h
            have hmono := ih (Sum.inr td.dependsOn) (t :: v) ts b1 v1 ts1 hin
            cases b1 with
            | false =>
              dsimp only at h
              injection h with h1
              injection h1 with _ h2
              injection h2 with h3
              subst h3
              exact fun x hx => hmono x (List.mem_cons_of_mem t hx)
            | true =>
              dsimp only at h
              cases hres : resolve t with
              | none =>
                rw [hres] at h
                dsimp only at h
                injection h with h1
                injection h1 with _ h2
                injection h2 with h3
                subst h3
                exact fun x hx => hmono x (List.mem_cons_of_mem t hx)
              | some ps =>
                rw [hres] at h
                dsimp only at h
                cases hpt : pathTimes fs ps with
                | none =>
                  rw [hpt] at h
                  dsimp only at h
                  injection h with h1
                  injection h1 with _ h2
                  injection h2 with h3
                  subst h3
                  exact fun x hx => hmono x (List.mem_cons_of_mem t hx)
                | some mts =>
                  rw [hpt] at h
                  dsimp only at h
                  injection h with h1
                  injection h1 with _ h2
                  injection h2 with h3
                  subst h3
                  exact fun x hx => hmono x (List.mem_cons_of_mem t hx)
    | Sum.inr [] =>
      rw [collectGo] at h
      injection h with h1
      injection h1 with _ h2
      injection h2 with h3
      subst h3
      exact fun x hx => hx
    | Sum.inr (d :: deps) =>
      rw [collectGo] at h
      cases hfst : collectGo wf resolve fs fuel (Sum.inl d) v ts with
      | none =>
        rw [hfst] at h
        cases h
      | some r =>
        obtain ⟨b1, v1, ts1⟩ := r
        rw [hfst] at h
        have hm1 := ih (Sum.inl d) v ts b1 v1 ts1 hfst
        cases b1 with
        | false =>
          dsimp only at h
          injection h with h1
          injection h1 with _ h2
          injection h2 with h3
          subst h3
          exact hm1
        | true =>
          dsimp only at h
          have hm2 := ih (Sum.inr deps) v1 ts1 b v2 ts2 h
          exact fun x hx => hm2 x (hm1 x hx)

theorem collectGo_total (wf : WorkflowDefinition) (resolve : ResolveOutputPathsFn)
    (fs : Fs) :
    ∀ (fuel : Nat) (job : Sum Str (List Str)) (v : List Str) (ts : List Nat),
      collectBound wf v job ≤ fuel →
      collectGo wf resolve fs fuel job v ts ≠ none := by
  intro fuel
  induction fuel with
  | zero =>
    intro job v ts hb
    exfalso
    match job with
    | Sum.inl t =>
      simp only [collectBound] at hb
      omega
    | Sum.inr deps =>
      simp only [collectBound] at hb
      omega
  | succ fuel ih =>
    intro job v ts hb
    intro h
    match job with
    | Sum.inl t =>
      rw [collectGo] at h
      by_cases htv : t ∈ v
      · rw [if_pos htv] at h
        cases h
      · rw [if_neg htv] at h
        dsimp only at h
        cases hlk : alookup wf.tasks t with
        | none =>
          rw [hlk] at h
          dsimp only at h
          cases h
        | some td =>
          rw [hlk] at h
          dsimp only at h
          have htk : t ∈ wf.tasks.map Prod.fst := by
            rw [← alookup_isSome_iff, hlk]
            rfl
          have hdl : depsLen wf t = td.dependsOn.length := by
            unfold depsLen
            rw [hlk]
          have hdrop := wrem_drop wf t v htv htk
          have hb2 : collectBound wf (t :: v) (Sum.inr td.dependsOn) ≤ fuel := by
            simp only [collectBound] at hb ⊢
            omega
          cases hin : collectGo wf resolve fs fuel (Sum.inr td.dependsOn) (t :: v) ts with
          | none => exact (ih _ _ _ hb2) hin
          | some r =>
            obtain ⟨b1, v1, ts1⟩ := r
            rw [hin] at h
            cases b1 with
            | false =>
              dsimp only at h
              cases h
            | true =>
              dsimp only at h
              cases hres : resolve t with
              | none =>
                rw [hres] at h
                dsimp only at h
                cases h
              | some ps =>
                rw [hres] at h
                dsimp only at h
                cases hpt : pathTimes fs ps with
                | none =>
                  rw [hpt] at h
                  dsimp only at h
                  cases h
                | some mts =>
                  rw [hpt] at h
                  dsimp only at h
                  cases h
    | Sum.inr [] =>
      rw [collectGo] at h
      cases h
    | Sum.inr (d :: deps) =>
      rw [collectGo] at h
      have hb1 : collectBound wf v (Sum.inl d) ≤ fuel := by
        simp only [collectBound, List.length_cons] at hb ⊢
        omega
      cases hfst : collectGo wf resolve fs fuel (Sum.inl d) v ts with
      | none => exact (ih _ _ _ hb1) hfst
      | some r =>
        obtain ⟨b1, v1, ts1⟩ := r
        rw [hfst] at h
        cases b1 with
        | false =>
          dsimp only at h
          cases h
        | true =>
          dsimp only at h
          have hmono := collectGo_visited_mono wf resolve fs fuel (Sum.inl d) v ts
            true v1 ts1 hfst
          have hwa := wrem_antitone wf v v1 hmono
          have hb2 : collectBound wf v1 (Sum.inr deps) ≤ fuel := by
            simp only [collectBound, List.length_cons] at hb ⊢
            omega
          exact (ih _ _ _ hb2) h

theorem collectGo_succ (wf : WorkflowDefinition) (resolve : ResolveOutputPathsFn)
    (fs : Fs) :
    ∀ (fuel : Nat) (job : Sum Str (List Str)) (v : List Str) (ts : List Nat)
      (v2 : List Str) (ts2 : List Nat),
      collectGo wf resolve fs fuel job v ts = some (true, v2, ts2) →
      (∀ t, t ∈ v2 → t ∉ v → TaskOk wf resolve fs t) ∧
      (match job with
        | Sum.inl t => t ∈ v2
        | Sum.inr deps => ∀ d ∈ deps, d ∈ v2) ∧
      (∀ t, t ∈ v2 → t ∉ v → ∀ td, alookup wf.tasks t = some td →
        ∀ d ∈ td.dependsOn, d ∈ v2) ∧
      (∀ t, t ∈ v2 → t ∈ v ∨ RAj wf v job t) ∧
      (∀ m, m ∈ ts2 ↔ m ∈ ts ∨ ∃ t, t ∈ v2 ∧ t ∉ v ∧ m ∈ mtimesOf resolve fs t) := by
  intro fuel
  induction fuel with
  | zero =>
    intro job v ts v2 ts2 h
    cases h
  | succ fuel ih =>
    intro job v ts v2 ts2 h
    match job with
    | Sum.inl t =>
      rw [collectGo] at h
      by_cases htv : t ∈ v
      · rw [if_pos htv] at h
        simp only [Option.some.injEq, Prod.mk.injEq] at h
        obtain ⟨-, hv2, hts2⟩ := h
        subst hv2
        subst hts2
        refine ⟨fun u hu hnu => absurd hu hnu, htv, ?_, fun u hu => Or.inl hu, ?_⟩
        · intro u hu hnu
          exact absurd hu hnu
        · intro m
          constructor
          · exact Or.inl
          · rintro (hm | ⟨u, hu, hnu, -⟩)
            · exact hm
            · exact absurd hu hnu
      · rw [if_neg htv] at h
        dsimp only at h
        cases hlk : alookup wf.tasks t with
        | none =>
          rw [hlk] at h
          dsimp only at h
          simp only [Option.some.injEq, Prod.mk.injEq] at h
          cases h.1
        | some td =>
          rw [hlk] at h
          dsimp only at h
          cases hin : collectGo wf resolve fs fuel (Sum.inr td.dependsOn) (t :: v) ts with
          | none =>
            rw [hin] at h
            cases h
          | some r =>
            obtain ⟨b1, v1, ts1⟩ := r
            rw [hin] at h
            cases b1 with
            | false =>
              dsimp only at h
              simp only [Option.some.injEq, Prod.mk.injEq] at h
              cases h.1
            | true =>
              dsimp only at h
              cases hres : resolve t with
              | none =>
                rw [hres] at h
                dsimp only at h
                simp only [Option.some.injEq, Prod.mk.injEq] at h
                cases h.1
              | some ps =>
                rw [hres] at h
                dsimp only at h
                cases hpt : pathTimes fs ps with
                | none =>
                  rw [hpt] at h
                  dsimp only at h
                  simp only [Option.some.injEq, Prod.mk.injEq] at h
                  cases h.1
                | some mts =>
                  rw [hpt] at h
                  dsimp only at h
                  simp only [Option.some.injEq, Prod.mk.injEq] at h
                  obtain ⟨-, hv2, hts2⟩ := h
                  subst hv2
                  subst hts2
                  obtain ⟨S2, S3, S4, S5, S6⟩ := ih (Sum.inr td.dependsOn) (t :: v) ts _ _ hin
                  have hmono := collectGo_visited_mono wf resolve fs fuel
                    (Sum.inr td.dependsOn) (t :: v) ts true _ _ hin
                  have htmem : t ∈ v1 := hmono t (List.mem_cons_self t v)
                  have hptc := (pathTimes_eq_some fs ps mts).mp hpt
                  have hTaskOk_t : TaskOk wf resolve fs t := by
                    refine ⟨by rw [hlk]; rfl, ps, hres, hptc.1⟩
                  have hmtimes_t : mtimesOf resolve fs t = mts := by
                    unfold mtimesOf
                    rw [hres, hptc.2]
                  refine ⟨?_, htmem, ?_, ?_, ?_⟩
                  · intro u hu hnu
                    by_cases hut : u = t
                    · subst hut
                      exact hTaskOk_t
                    · refine S2 u hu ?_
                      intro hc
                      rcases List.mem_cons.mp hc with h1 | h2
                      · exact hut h1
                      · exact hnu h2
                  · intro u hu hnu td' hlk' d hd
                    by_cases hut : u = t
                    · subst hut
                      rw [hlk] at hlk'
                      injection hlk' with htd
                      subst htd
                      exact S3 d hd
                    · refine S4 u hu ?_ td' hlk' d hd
                      intro hc
                      rcases List.mem_cons.mp hc with h1 | h2
                      · exact hut h1
                      · exact hnu h2
                  · intro u hu
                    rcases S5 u hu with hc | hra
                    · rcases List.mem_cons.mp hc with h1 | h2
                      · subst h1
                        exact Or.inr (ReachesAvoiding.refl u htv)
                      · exact Or.inl h2
                    · obtain ⟨d, hd, hra⟩ := hra
                      have hra2 : ReachesAvoiding wf v d u :=
                        reachesAvoiding_antimono wf v (t :: v)
                          (fun x hx => List.mem_cons_of_mem t hx) hra
                      exact Or.inr (reachesAvoiding_prepend wf v hlk hd htv hra2)
                  · intro m
                    rw [List.mem_append, S6 m]
                    constructor
                    · rintro ((hm | ⟨u, hu, hnu, hmm⟩) | hmts2)
                      · exact Or.inl hm
                      · exact Or.inr ⟨u, hu,
                          fun hv' => hnu (List.mem_cons_of_mem t hv'), hmm⟩
                      · exact Or.inr ⟨t, htmem, htv, by rw [hmtimes_t]; exact hmts2⟩
                    · rintro (hm | ⟨u, hu, hnu, hmm⟩)
                      · exact Or.inl (Or.inl hm)
                      · by_cases hut : u = t
                        · subst hut
                          rw [hmtimes_t] at hmm
                          exact Or.inr hmm
                        · refine Or.inl (Or.inr ⟨u, hu, ?_, hmm⟩)
                          intro hc
                          rcases List.mem_cons.mp hc with h1 | h2
                          · exact hut h1
                          · exact hnu h2
    | Sum.inr [] =>
      rw [collectGo] at h
      simp only [Option.some.injEq, Prod.mk.injEq] at h
      obtain ⟨-, hv2, hts2⟩ := h
      subst hv2
      subst hts2
      refine ⟨fun u hu hnu => absurd hu hnu, ?_, ?_, fun u hu => Or.inl hu, ?_⟩
      · intro d hd
        exact absurd hd (List.not_mem_nil d)
      · intro u hu hnu
        exact absurd hu hnu
      · intro m
        constructor
        · exact Or.inl
        · rintro (hm | ⟨u, hu, hnu, -⟩)
          · exact hm
          · exact absurd hu hnu
    | Sum.inr (d :: deps) =>
      rw [collectGo] at h
      cases hfst : collectGo wf resolve fs fuel (Sum.inl d) v ts with
      | none =>
        rw [hfst] at h
        cases h
      | some r =>
        obtain ⟨b1, v1, ts1⟩ := r
        rw [hfst] at h
        cases b1 with
        | false =>
          dsimp only at h
          simp only [Option.some.injEq, Prod.mk.injEq] at h
          cases h.1
        | true =>
          dsimp only at h
          obtain ⟨A2, A3, A4, A5, A6⟩ := ih (Sum.inl d) v ts v1 ts1 hfst
          obtain ⟨B2, B3, B4, B5, B6⟩ := ih (Sum.inr deps) v1 ts1 v2 ts2 h
          have hm1 := collectGo_visited_mono wf resolve fs fuel (Sum.inl d) v ts
            true v1 ts1 hfst
          have hm2 := collectGo_visited_mono wf resolve fs fuel (Sum.inr deps) v1 ts1
            true v2 ts2 h
          refine ⟨?_, ?_, ?_, ?_, ?_⟩
          · intro u hu hnu
            by_cases hu1 : u ∈ v1
            · exact A2 u hu1 hnu
            · exact B2 u hu hu1
          · intro d2 hd2
            rcases List.mem_cons.mp hd2 with h1 | h2
            · subst h1
              exact hm2 d2 A3
            · exact B3 d2 h2
          · intro u hu hnu td' hlk' d2 hd2
            by_cases hu1 : u ∈ v1
            · exact hm2 d2 (A4 u hu1 hnu td' hlk' d2 hd2)
            · exact B4 u hu hu1 td' hlk' d2 hd2
          · intro u hu
            rcases B5 u hu with hu1 | hra
            · rcases A5 u hu1 with hc | hra1
              · exact Or.inl hc
              · exact Or.inr ⟨d, List.mem_cons_self d deps, hra1⟩
            · obtain ⟨d2, hd2, hra2⟩ := hra
              exact Or.inr ⟨d2, List.mem_cons_of_mem d hd2,
                reachesAvoiding_antimono wf v v1 hm1 hra2⟩
          · intro m
            rw [B6 m, A6 m]
            constructor
            · rintro ((hm | ⟨u, hu, hnu, hmm⟩) | ⟨u, hu, hnu, hmm⟩)
              · exact Or.inl hm
              · exact Or.inr ⟨u, hm2 u hu, hnu, hmm⟩
              · exact Or.inr ⟨u, hu, fun hc => hnu (hm1 u hc), hmm⟩
            · rintro (hm | ⟨u, hu, hnu, hmm⟩)
              · exact Or.inl (Or.inl hm)
              · by_cases hu1 : u ∈ v1
                · exact Or.inl (Or.inr ⟨u, hu1, hnu, hmm⟩)
                · exact Or.inr ⟨u, hu, hu1, hmm⟩

theorem collectGo_false (wf : WorkflowDefinition) (resolve : ResolveOutputPathsFn)
    (fs : Fs) :
    ∀ (fuel : Nat) (job : Sum Str (List Str)) (v : List Str) (ts : List Nat)
      (v2 : List Str) (ts2 : List Nat),
      collectGo wf resolve fs fuel job v ts = some (false, v2, ts2) →
      ∃ t, RAj wf v job t ∧ ¬ TaskOk wf resolve fs t := by
  intro fuel
  induction fuel with
  | zero =>
    intro job v ts v2 ts2 h
    cases h
  | succ fuel ih =>
    intro job v ts v2 ts2 h
    match job with
    | Sum.inl t =>
      rw [collectGo] at h
      by_cases htv : t ∈ v
      · rw [if_pos htv] at h
        simp only [Option.some.injEq, Prod.mk.injEq] at h
        cases h.1
      · rw [if_neg htv] at h
        dsimp only at h
        cases hlk : alookup wf.tasks t with
        | none =>
          refine ⟨t, ReachesAvoiding.refl t htv, ?_⟩
          rintro ⟨hsome, -⟩
          rw [hlk] at hsome
          cases hsome
        | some td =>
          rw [hlk] at h
          dsimp only at h
          cases hin : collectGo wf resolve fs fuel (Sum.inr td.dependsOn) (t :: v) ts with
          | none =>
            rw [hin] at h
            cases h
          | some r =>
            obtain ⟨b1, v1, ts1⟩ := r
            rw [hin] at h
            cases b1 with
            | false =>
              obtain ⟨u, hra, hnok⟩ := ih (Sum.inr td.dependsOn) (t :: v) ts v1 ts1 hin
              obtain ⟨d, hd, hra2⟩ := hra
              have hra3 : ReachesAvoiding wf v d u :=
                reachesAvoiding_antimono wf v (t :: v)
                  (fun x hx => List.mem_cons_of_mem t hx) hra2
              exact ⟨u, reachesAvoiding_prepend wf v hlk hd htv hra3, hnok⟩
            | true =>
              dsimp only at h
              cases hres : resolve t with
              | none =>
                refine ⟨t, ReachesAvoiding.refl t htv, ?_⟩
                rintro ⟨-, ps, hps, -⟩
                rw [hres] at hps
                cases hps
              | some ps =>
                rw [hres] at h
                dsimp only at h
                cases hpt : pathTimes fs ps with
                | none =>
                  refine ⟨t, ReachesAvoiding.refl t htv, ?_⟩
                  rintro ⟨-, ps2, hps2, hall⟩
                  rw [hres] at hps2
                  injection hps2 with hps3
                  subst hps3
                  have h9 := (pathTimes_eq_some fs ps (ps.filterMap fs)).mpr ⟨hall, rfl⟩
                  rw [hpt] at h9
                  cases h9
                | some mts =>
                  rw [hpt] at h
                  dsimp only at h
                  simp only [Option.some.injEq, Prod.mk.injEq] at h
                  cases h.1
    | Sum.inr [] =>
      rw [collectGo] at h
      simp only [Option.some.injEq, Prod.mk.injEq] at h
      cases h.1
    | Sum.inr (d :: deps) =>
      rw [collectGo] at h
      cases hfst : collectGo wf resolve fs fuel (Sum.inl d) v ts with
      | none =>
        rw [hfst] at h
        cases h
      | some r =>
        obtain ⟨b1, v1, ts1⟩ := r
        rw [hfst] at h
        cases b1 with
        | false =>
          obtain ⟨u, hra, hnok⟩ := ih (Sum.inl d) v ts v1 ts1 hfst
          exact ⟨u, ⟨d, List.mem_cons_self d deps, hra⟩, hnok⟩
        | true =>
          dsimp only at h
          obtain ⟨u, hra, hnok⟩ := ih (Sum.inr deps) v1 ts1 v2 ts2 h
          obtain ⟨d2, hd2, hra2⟩ := hra
          have hm1 := collectGo_visited_mono wf resolve fs fuel (Sum.inl d) v ts
            true v1 ts1 hfst
          exact ⟨u, ⟨d2, List.mem_cons_of_mem d hd2,
            reachesAvoiding_antimono wf v v1 hm1 hra2⟩, hnok⟩

theorem collectBound_le_fuel (wf : WorkflowDefinition) (t : Str) :
    collectBound wf [] (Sum.inl t) ≤ collectFuel wf := by
  have hfe : collectFuel wf =
      2 + ((wf.tasks.map Prod.fst).map (fun k => 2 + depsLen wf k)).sum := rfl
  have hle : wrem wf [] ≤
      ((wf.tasks.map Prod.fst).map (fun k => 2 + depsLen wf k)).sum := by
    unfold wrem
    exact sublist_sum_le _ _ (List.Sublist.map _ (List.filter_sublist _))
  simp only [collectBound]
  omega

theorem collect_top (wf : WorkflowDefinition) (resolve : ResolveOutputPathsFn)
    (fs : Fs) (taskId : Str) (v2 : List Str) (ts2 : List Nat)
    (h : collectGo wf resolve fs (collectFuel wf) (Sum.inl taskId) [] [] =
      some (true, v2, ts2)) :
    (∀ u, Reaches wf taskId u → u ∈ v2) ∧
    (∀ u ∈ v2, Reaches wf taskId u) ∧
    (∀ u ∈ v2, TaskOk wf resolve fs u) ∧
    (∀ m, m ∈ ts2 ↔ ∃ u, u ∈ v2 ∧ m ∈ mtimesOf resolve fs u) := by
  obtain ⟨S2, S3, S4, S5, S6⟩ := collectGo_succ wf resolve fs _ _ _ _ _ _ h
  refine ⟨?_, ?_, fun u hu => S2 u hu (List.not_mem_nil u), ?_⟩
  · intro u hr
    induction hr with
    | refl => exact S3
    | step h1 hlk hd ih2 => exact S4 _ ih2 (List.not_mem_nil _) _ hlk _ hd
  · intro u hu
    rcases S5 u hu with hc | hra
    · exact absurd hc (List.not_mem_nil u)
    · exact reachesAvoiding_to_reaches wf [] hra
  · intro m
    rw [S6 m]
    constructor
    · rintro (hm | ⟨u, hu, -, hmm⟩)
      · exact absurd hm (List.not_mem_nil m)
      · exact ⟨u, hu, hmm⟩
    · rintro ⟨u, hu, hmm⟩
      exact Or.inr ⟨u, hu, List.not_mem_nil u, hmm⟩

theorem filterMap_ne_nil_of_all_some (fs : Fs) (ps : List Str) (hne : ps ≠ [])
    (hall : ∀ p ∈ ps, (fs p).isSome) : ps.filterMap fs ≠ [] := by
  cases ps with
  | nil => exact absurd rfl hne
  | cons p ps2 =>
    have h1 := hall p (List.mem_cons_self p ps2)
    obtain ⟨n, hn⟩ := Option.isSome_iff_exists.mp h1
    exact List.ne_nil_of_mem (List.mem_filterMap.mpr ⟨p, List.mem_cons_self p ps2, hn⟩)

/-- C1 (amended): with a non-empty resolved output list, `IsTaskUpToDate`
returns true iff every declared input exists, every output exists, every
task reachable through `depends_on` edges (including the task itself) has
resolvable, existing outputs, the newest-side time set (inputs plus the
reachable tasks' output times, the task's own outputs included) is
non-empty, and each of its members is at most the oldest own-output
mtime. -/
theorem freshness_claimC1_amended (wf : WorkflowDefinition) (taskId : Str)
    (rp : ResolvedPaths) (resolve : ResolveOutputPathsFn) (fs : Fs)
    (hout : rp.outputPaths ≠ []) :
    isTaskUpToDate wf taskId rp resolve fs = true ↔
      ((∀ p ∈ rp.inputPaths, (fs p).isSome) ∧
       (∀ p ∈ rp.outputPaths, (fs p).isSome) ∧
       (∀ t, Reaches wf taskId t → TaskOk wf resolve fs t) ∧
       (rp.inputPaths ≠ [] ∨
         ∃ t, Reaches wf taskId t ∧ mtimesOf resolve fs t ≠ []) ∧
       (∀ m, (m ∈ rp.inputPaths.filterMap fs ∨
           (∃ t, Reaches wf taskId t ∧ m ∈ mtimesOf resolve fs t)) →
         m ≤ listMin (rp.outputPaths.filterMap fs))) := by
  constructor
  · intro h
    unfold isTaskUpToDate at h
    rw [if_neg hout] at h
    cases hits : pathTimes fs rp.inputPaths with
    | none =>
      rw [hits] at h
      cases h
    | some its =>
      rw [hits] at h
      dsimp only at h
      cases hcol : collectGo wf resolve fs (collectFuel wf) (Sum.inl taskId) [] [] with
      | none =>
        rw [hcol] at h
        cases h
      | some r =>
        obtain ⟨b, v2, ts2⟩ := r
        rw [hcol] at h
        cases b with
        | false =>
          dsimp only at h
          cases h
        | true =>
          dsimp only at h
          obtain ⟨hcomp, hsound, hok, htimes⟩ := collect_top wf resolve fs taskId v2 ts2 hcol
          obtain ⟨hin_all, hits_eq⟩ := (pathTimes_eq_some fs rp.inputPaths its).mp hits
          by_cases happ : its ++ ts2 = []
          · rw [if_pos happ] at h
            cases h
          · rw [if_neg happ] at h
            cases hots : pathTimes fs rp.outputPaths with
            | none =>
              rw [hots] at h
              cases h
            | some ots =>
              rw [hots] at h
              dsimp only at h
              obtain ⟨hout_all, hots_eq⟩ := (pathTimes_eq_some fs rp.outputPaths ots).mp hots
              by_cases hoe : ots = []
              · rw [if_pos hoe] at h
                cases h
              · rw [if_neg hoe] at h
                have hmax := of_decide_eq_true h
                refine ⟨hin_all, hout_all, fun t hr => hok t (hcomp t hr), ?_, ?_⟩
                · by_cases hie : rp.inputPaths = []
                  · right
                    have hits_nil : its = [] := by
                      rw [hits_eq, hie]
                      rfl
                    have hts2_ne : ts2 ≠ [] := by
                      intro hc
                      rw [hits_nil, hc] at happ
                      exact happ rfl
                    obtain ⟨m, hm⟩ := List.exists_mem_of_ne_nil ts2 hts2_ne
                    obtain ⟨u, hu, hmm⟩ := (htimes m).mp hm
                    exact ⟨u, hsound u hu, List.ne_nil_of_mem hmm⟩
                  · exact Or.inl hie
                · intro m hm
                  have hm2 : m ∈ its ++ ts2 := by
                    rcases hm with hmi | ⟨u, hr, hmm⟩
                    · rw [List.mem_append]
                      left
                      rw [hits_eq]
                      exact hmi
                    · rw [List.mem_append]
                      right
                      exact (htimes m).mpr ⟨u, hcomp u hr, hmm⟩
                  have hle := le_trans (le_listMax _ m hm2) hmax
                  rw [← hots_eq]
                  exact hle
  · rintro ⟨hin_all, hout_all, hok_r, hne, hmax⟩
    have hits : pathTimes fs rp.inputPaths = some (rp.inputPaths.filterMap fs) :=
      (pathTimes_eq_some _ _ _).mpr ⟨hin_all, rfl⟩
    have hots : pathTimes fs rp.outputPaths = some (rp.outputPaths.filterMap fs) :=
      (pathTimes_eq_some _ _ _).mpr ⟨hout_all, rfl⟩
    have htot := collectGo_total wf resolve fs (collectFuel wf) (Sum.inl taskId) [] []
      (collectBound_le_fuel wf taskId)
    cases hcol : collectGo wf resolve fs (collectFuel wf) (Sum.inl taskId) [] [] with
    | none => exact absurd hcol htot
    | some r =>
      obtain ⟨b, v2, ts2⟩ := r
      cases b with
      | false =>
        obtain ⟨u, hra, hnok⟩ := collectGo_false wf resolve fs _ _ _ _ _ _ hcol
        exact absurd (hok_r u (reachesAvoiding_to_reaches wf [] hra)) hnok
      | true =>
        obtain ⟨hcomp, hsound, hok, htimes⟩ := collect_top wf resolve fs taskId v2 ts2 hcol
        unfold isTaskUpToDate
        rw [if_neg hout, hits]
        dsimp only
        rw [hcol]
        dsimp only
        have happ : rp.inputPaths.filterMap fs ++ ts2 ≠ [] := by
          rcases hne with hie | ⟨u, hr, hmne⟩
          · intro hc
            have h1 := filterMap_ne_nil_of_all_some fs rp.inputPaths hie hin_all
            exact h1 (List.append_eq_nil.mp hc).1
          · obtain ⟨m, hm⟩ := List.exists_mem_of_ne_nil _ hmne
            have hm2 : m ∈ ts2 := (htimes m).mpr ⟨u, hcomp u hr, hm⟩
            exact List.ne_nil_of_mem (List.mem_append_right _ hm2)
        rw [if_neg happ, hots]
        dsimp only
        have hoe : rp.outputPaths.filterMap fs ≠ [] :=
          filterMap_ne_nil_of_all_some fs rp.outputPaths hout hout_all
        rw [if_neg hoe]
        refine decide_eq_true ?_
        rw [listMax_le_iff]
        intro m hm
        rcases List.mem_append.mp hm with h1 | h2
        · exact hmax m (Or.inl h1)
        · obtain ⟨u, hu, hmm⟩ := (htimes m).mp h2
          exact hmax m (Or.inr ⟨u, hsound u hu, hmm⟩)

/-- C1 counterexample: task `t` of `wfC1` has one input (mtime 0), two
existing outputs (mtimes 5 and 10) and no dependencies, so under the claim
(newest side = inputs plus transitive upstream outputs only) it would be up
to date (0 <= 5); the code reports it not up to date, because
`CollectUpstreamOutputTimes` is started at the task's own id and its own
output mtimes (max 10 > 5) land on the newest side. -/
theorem freshness_claimC1_counterexample :
    isTaskUpToDate wfC1 (chars ("t"))
        ⟨[chars ("i")], [chars ("o1"), chars ("o2")]⟩ resC1 fsC1 = false ∧
    (∀ p ∈ [chars ("i"), chars ("o1"), chars ("o2")], (fsC1 p).isSome) ∧
    tdC1.dependsOn = [] ∧
    alookup wfC1.tasks (chars ("t")) = some tdC1 ∧
    resC1 (chars ("t")) = some [chars ("o1"), chars ("o2")] ∧
    listMax ([chars ("i")].filterMap fsC1) ≤
      listMin ([chars ("o1"), chars ("o2")].filterMap fsC1) := by
  decide

/-- C1 amended-theorem witness: with resolver `resW` (no upstream output
paths) the task is up to date and the theorem yields the existence of the
input file. -/
theorem freshness_claimC1_amended_witness :
    ((⟨[chars ("i")], [chars ("o1"), chars ("o2")]⟩ : ResolvedPaths).outputPaths ≠ []) ∧
    (fsC1 (chars ("i"))).isSome = true :=
  ⟨by decide,
    ((freshness_claimC1_amended wfC1 (chars ("t"))
        ⟨[chars ("i")], [chars ("o1"), chars ("o2")]⟩ resW fsC1 (by decide)).mp
      (by decide)).1 (chars ("i")) (by decide)⟩

end Jarvis

namespace Jarvis

theorem updState_isCompleted (run : WorkflowRun) (k : Str)
    (f : TaskInstanceState → TaskInstanceState) :
    (updState run k f).isCompleted = run.isCompleted := rfl

theorem scanGo_isCompleted (wf : WorkflowDefinition) (fs : Fs) :
    ∀ (keys : List Str) (run : WorkflowRun) (progress : Bool) (ready : List Str),
      (scanGo wf fs keys run progress ready).1.isCompleted = run.isCompleted := by
  intro keys
  induction keys with
  | nil =>
    intro run progress ready
    rfl
  | cons k rest ih =>
    intro run progress ready
    rw [scanGo]
    cases lookupState run k with
    | none => exact ih run progress ready
    | some st =>
      dsimp only
      by_cases hp : pendingOrReady st.state = false
      · rw [if_pos hp]
        exact ih run progress ready
      · rw [if_neg hp]
        cases alookup wf.tasks k with
        | none =>
          dsimp only
          exact ih _ true ready
        | some td =>
          dsimp only
          by_cases hr : isTaskReady run td = false
          · rw [if_pos hr]
            exact ih run progress ready
          · rw [if_neg hr]
            cases resolveFreshnessPathsForTask wf run td k with
            | none =>
              dsimp only
              exact ih run progress (ready ++ [k])
            | some pr =>
              obtain ⟨ips, ops⟩ := pr
              dsimp only
              by_cases hu : isTaskUpToDate wf k ⟨ips, ops⟩ (resolveUpstreamOutputs wf run) fs
                = true
              · rw [if_pos hu]
                exact ih _ true ready
              · rw [if_neg hu]
                exact ih run progress (ready ++ [k])

theorem markRunningGo_isCompleted :
    ∀ (ids : List Str) (run : WorkflowRun),
      (markRunningGo ids run).isCompleted = run.isCompleted := by
  intro ids
  induction ids with
  | nil =>
    intro run
    rfl
  | cons k rest ih =>
    intro run
    rw [markRunningGo]
    exact ih _


theorem executeTaskInstance_isCompleted (wf : WorkflowDefinition) (fs : Fs)
    (exec : Exec) (run : WorkflowRun) (td : TaskDef) (k : Str) :
    (executeTaskInstance wf fs exec run td k).2.isCompleted = run.isCompleted := by
  rw [executeTaskInstance]
  cases resolveInputsForTask wf (updState run k _) td k with
  | none => rfl
  | some ri =>
    dsimp only
    cases lookupState (updState (updState run k _) k _) k with
    | none => rfl
    | some stB =>
      dsimp only
      by_cases hok : (exec k stB).1 = false
      · rw [if_pos hok]
        dsimp only
        by_cases hf : (exec k stB).2.state ≠ TaskInstanceStateKind.Failed
        · rw [if_pos hf]
          rfl
        · rw [if_neg hf]
          rfl
      · rw [if_neg hok]
        cases lookupState (updState (updState (updState (updState (updState run k _) k _)
            k _) k _) k _) k with
        | none => rfl
        | some st5 => rfl

theorem dispatchGo_isCompleted (wf : WorkflowDefinition) (fs : Fs) (exec : Exec) :
    ∀ (ids : List Str) (run : WorkflowRun),
      (dispatchGo wf fs exec ids run).isCompleted = run.isCompleted := by
  intro ids
  induction ids with
  | nil =>
    intro run
    rfl
  | cons k rest ih =>
    intro run
    rw [dispatchGo]
    cases alookup wf.tasks k with
    | none => exact ih run
    | some td =>
      dsimp only
      by_cases hs : (executeTaskInstance wf fs exec run td k).1 = true
      · rw [if_pos hs, ih]
        rw [updState_isCompleted]
        exact executeTaskInstance_isCompleted wf fs exec run td k
      · rw [if_neg hs, ih]
        exact executeTaskInstance_isCompleted wf fs exec run td k

theorem executeOneReadyWave_isCompleted (wf : WorkflowDefinition) (fs : Fs)
    (exec : Exec) (run : WorkflowRun) :
    (executeOneReadyWave wf fs exec run).1.isCompleted = run.isCompleted := by
  rw [executeOneReadyWave]
  rcases hscan : (scanGo wf fs (run.taskStates.map Prod.fst) run false []) with
    ⟨run1, progress, readyIds⟩
  dsimp only
  have h1 : run1.isCompleted = run.isCompleted := by
    have := scanGo_isCompleted wf fs (run.taskStates.map Prod.fst) run false []
    rw [hscan] at this
    exact this
  by_cases hre : readyIds = []
  · rw [if_pos hre]
    exact h1
  · rw [if_neg hre]
    dsimp only
    rw [dispatchGo_isCompleted, markRunningGo_isCompleted]
    exact h1

theorem not_active_iff_terminal (k : TaskInstanceStateKind) :
    activeState k = false ↔ terminalState k = true := by
  cases k <;> simp [activeState, terminalState]

theorem executeWorkflowLoop_inv (wf : WorkflowDefinition) (fs : Fs) (exec : Exec) :
    ∀ (fuel : Nat) (run : WorkflowRun) (os : Bool),
      (run.isCompleted = true →
        run.taskStates.all (fun p => terminalState p.2.state) = true ∨
          run.hasFailed = true) →
      ((executeWorkflowLoop wf fs exec fuel run os).1.isCompleted = true →
        (executeWorkflowLoop wf fs exec fuel run os).1.taskStates.all
            (fun p => terminalState p.2.state) = true ∨
          (executeWorkflowLoop wf fs exec fuel run os).1.hasFailed = true) := by
  intro fuel
  induction fuel with
  | zero =>
    intro run os hP
    rw [executeWorkflowLoop]
    by_cases hc : run.isCompleted = true
    · rw [if_pos hc]
      exact hP
    · rw [if_neg hc]
      exact hP
  | succ fuel ih =>
    intro run os hP
    rw [executeWorkflowLoop]
    by_cases hc : run.isCompleted = true
    · rw [if_pos hc]
      exact hP
    · rw [if_neg hc]
      dsimp only
      rcases hw : executeOneReadyWave wf fs exec run with ⟨run1, madeProgress⟩
      have h1c : run1.isCompleted = false := by
        have h2 := executeOneReadyWave_isCompleted wf fs exec run
        rw [hw] at h2
        dsimp only at h2
        rw [h2]
        exact Bool.not_eq_true run.isCompleted ▸ hc
      by_cases hmp : madeProgress = false
      · rw [if_pos hmp]
        dsimp only
        by_cases hat : run1.taskStates.any (fun p => activeState p.2.state) = true
        · rw [if_pos hat]
          refine ih _ _ ?_
          intro _
          exact Or.inr rfl
        · rw [if_neg hat]
          refine ih _ _ ?_
          intro _
          left
          rw [List.all_eq_true]
          have h4 : run1.taskStates.any (fun p => activeState p.2.state) = false := by
            revert hat
            cases run1.taskStates.any (fun p => activeState p.2.state) <;> simp
          rw [List.any_eq_false] at h4
          intro p hp
          have h3 := h4 p hp
          have h5 : activeState p.2.state = false := by
            revert h3
            cases activeState p.2.state <;> simp
          exact (not_active_iff_terminal p.2.state).mp h5
      · rw [if_neg hmp]
        dsimp only
        by_cases hterm : run1.taskStates.all (fun p => terminalState p.2.state) = true
        · rw [if_pos hterm]
          refine ih _ _ ?_
          intro _
          exact Or.inl hterm
        · rw [if_neg hterm]
          refine ih _ _ ?_
          intro h5
          rw [h1c] at h5
          cases h5

/-- C2 (amended): a run started not-yet-completed and driven by
`ExecuteWorkflow` ends, when marked completed, either with every task in a
terminal state (Succeeded, Skipped, Failed) or with the run flagged failed;
the deadlock path completes the run while dependents of a failed task stay
Pending, so the failure flag is the disjunct that saves completion. -/
theorem run_completion_claimC2_amended (wf : WorkflowDefinition) (fs : Fs)
    (exec : Exec) (run : WorkflowRun) (h0 : run.isCompleted = false)
    (hc : (executeWorkflow wf fs exec run).1.isCompleted = true) :
    (executeWorkflow wf fs exec run).1.taskStates.all
        (fun p => terminalState p.2.state) = true ∨
      (executeWorkflow wf fs exec run).1.hasFailed = true := by
  have hloop := executeWorkflowLoop_inv wf fs exec (run.taskStates.length + 1) run true
    (by
      intro hcc
      rw [h0] at hcc
      cases hcc)
  rw [executeWorkflow] at hc ⊢
  rcases hl : executeWorkflowLoop wf fs exec (run.taskStates.length + 1) run true with
    ⟨runF, osF⟩
  rw [hl] at hloop hc
  dsimp only at hloop hc ⊢
  exact hloop hc

/-- C2 counterexample: in `wfC2` task A fails and task B depends on A; the
run is marked completed (and failed) while B is still Pending, refuting the
unconditional claim that no task is left Pending at completion. -/
theorem run_completion_claimC2_counterexample :
    (executeWorkflow wfC2 fsEmpty execAlwaysFail runC2).1.isCompleted = true ∧
    ((lookupState (executeWorkflow wfC2 fsEmpty execAlwaysFail runC2).1
        (chars ("B"))).map (fun s => s.state)) = some TaskInstanceStateKind.Pending ∧
    (executeWorkflow wfC2 fsEmpty execAlwaysFail runC2).1.hasFailed = true := by
  decide

/-- C2 amended-theorem witness at the failing two-task workflow: the run
starts not completed, ends completed, and the theorem yields the
all-terminal-or-failed disjunction. -/
theorem run_completion_claimC2_amended_witness :
    runC2.isCompleted = false ∧
    (executeWorkflow wfC2 fsEmpty execAlwaysFail runC2).1.isCompleted = true ∧
    ((executeWorkflow wfC2 fsEmpty execAlwaysFail runC2).1.taskStates.all
        (fun p => terminalState p.2.state) = true ∨
      (executeWorkflow wfC2 fsEmpty execAlwaysFail runC2).1.hasFailed = true) :=
  ⟨by decide, by decide,
    run_completion_claimC2_amended wfC2 fsEmpty execAlwaysFail runC2
      (by decide) (by decide)⟩

theorem dfsGo_union_mono (wf : WorkflowDefinition) :
    ∀ (fuel : Nat) (job : Sum Str (List Str)) (vg vd : List Str)
      (b : Bool) (vg2 vd2 : List Str),
      dfsGo wf fuel job vg vd = some (b, vg2, vd2) →
      ∀ x, (x ∈ vg ∨ x ∈ vd) → (x ∈ vg2 ∨ x ∈ vd2) := by
  intro fuel
  induction fuel with
  | zero =>
    intro job vg vd b vg2 vd2 h
    cases h
  | succ fuel ih =>
    intro job vg vd b vg2 vd2 h
    match job with
    | Sum.inl t =>
      rw [dfsGo] at h
      by_cases htg : t ∈ vg
      · rw [if_pos htg] at h
        simp only [Option.some.injEq, Prod.mk.injEq] at h
        obtain ⟨-, h1, h2⟩ := h
        subst h1
        subst h2
        exact fun x hx => hx
      · rw [if_neg htg] at h
        by_cases htd : t ∈ vd
        · rw [if_pos htd] at h
          simp only [Option.some.injEq, Prod.mk.injEq] at h
          obtain ⟨-, h1, h2⟩ := h
          subst h1
          subst h2
          exact fun x hx => hx
        · rw [if_neg htd] at h
          dsimp only at h
          cases hlk : alookup wf.tasks t with
          | none =>
            rw [hlk] at h
            dsimp only at h
            simp only [Option.some.injEq, Prod.mk.injEq] at h
            obtain ⟨-, h1, h2⟩ := h
            subst h1
            subst h2
            rintro x (hx | hx)
            · exact Or.inl (List.mem_cons_of_mem t hx)
            · exact Or.inr hx
          | some td =>
            rw [hlk] at h
            dsimp only at h
            cases hin : dfsGo wf fuel (Sum.inr td.dependsOn) (t :: vg) vd with
            | none =>
              rw [hin] at h
              cases h
            | some r =>
              obtain ⟨b1, vg1, vd1⟩ := r
              rw [hin] at h
              have hm := ih (Sum.inr td.dependsOn) (t :: vg) vd b1 vg1 vd1 hin
              cases b1 with
              | true =>
                dsimp only at h
                simp only [Option.some.injEq, Prod.mk.injEq] at h
                obtain ⟨-, h1, h2⟩ := h
                subst h1
                subst h2
                rintro x hx
                refine hm x ?_
                rcases hx with hx | hx
                · exact Or.inl (List.mem_cons_of_mem t hx)
                · exact Or.inr hx
              | false =>
                dsimp only at h
                simp only [Option.some.injEq, Prod.mk.injEq] at h
                obtain ⟨-, h1, h2⟩ := h
                subst h1
                subst h2
                rintro x hx
                have h3 : x ∈ vg1 ∨ x ∈ vd1 := by
                  refine hm x ?_
                  rcases hx with hx | hx
                  · exact Or.inl (List.mem_cons_of_mem t hx)
                  · exact Or.inr hx
                by_cases hxt : x = t
                · exact Or.inr (hxt ▸ List.mem_cons_self t vd1)
                · rcases h3 with h3 | h3
                  · exact Or.inl ((List.mem_erase_of_ne hxt).mpr h3)
                  · exact Or.inr (List.mem_cons_of_mem t h3)
    | Sum.inr [] =>
      rw [dfsGo] at h
      simp only [Option.some.injEq, Prod.mk.injEq] at h
      obtain ⟨-, h1, h2⟩ := h
      subst h1
      subst h2
      exact fun x hx => hx
    | Sum.inr (d :: deps) =>
      rw [dfsGo] at h
      cases hfst : dfsGo wf fuel (Sum.inl d) vg vd with
      | none =>
        rw [hfst] at h
        cases h
      | some r =>
        obtain ⟨b1, vg1, vd1⟩ := r
        rw [hfst] at h
        have hm1 := ih (Sum.inl d) vg vd b1 vg1 vd1 hfst
        cases b1 with
        | true =>
          dsimp only at h
          simp only [Option.some.injEq, Prod.mk.injEq] at h
          obtain ⟨-, h1, h2⟩ := h
          subst h1
          subst h2
          exact hm1
        | false =>
          dsimp only at h
          have hm2 := ih (Sum.inr deps) vg1 vd1 b vg2 vd2 h
          exact fun x hx => hm2 x (hm1 x hx)

theorem dfsGo_total (wf : WorkflowDefinition) :
    ∀ (fuel : Nat) (job : Sum Str (List Str)) (vg vd : List Str),
      collectBound wf (vg ++ vd) job ≤ fuel →
      dfsGo wf fuel job vg vd ≠ none := by
  intro fuel
  induction fuel with
  | zero =>
    intro job vg vd hb
    exfalso
    match job with
    | Sum.inl t =>
      simp only [collectBound] at hb
      omega
    | Sum.inr deps =>
      simp only [collectBound] at hb
      omega
  | succ fuel ih =>
    intro job vg vd hb
    intro h
    match job with
    | Sum.inl t =>
      rw [dfsGo] at h
      by_cases htg : t ∈ vg
      · rw [if_pos htg] at h
        cases h
      · rw [if_neg htg] at h
        by_cases htd : t ∈ vd
        · rw [if_pos htd] at h
          cases h
        · rw [if_neg htd] at h
          dsimp only at h
          cases hlk : alookup wf.tasks t with
          | none =>
            rw [hlk] at h
            dsimp only at h
            cases h
          | some td =>
            rw [hlk] at h
            dsimp only at h
            have htk : t ∈ wf.tasks.map Prod.fst := by
              rw [← alookup_isSome_iff, hlk]
              rfl
            have hdl : depsLen wf t = td.dependsOn.length := by
              unfold depsLen
              rw [hlk]
            have htvv : t ∉ vg ++ vd := by
              intro hc
              rcases List.mem_append.mp hc with h1 | h2
              · exact htg h1
              · exact htd h2
            have hdrop := wrem_drop wf t (vg ++ vd) htvv htk
            have hb2 : collectBound wf ((t :: vg) ++ vd) (Sum.inr td.dependsOn) ≤ fuel := by
              simp only [collectBound, List.cons_append] at hb ⊢
              omega
            cases hin : dfsGo wf fuel (Sum.inr td.dependsOn) (t :: vg) vd with
            | none => exact (ih _ _ _ hb2) hin
            | some r =>
              obtain ⟨b1, vg1, vd1⟩ := r
              rw [hin] at h
              cases b1 with
              | true =>
                dsimp only at h
                cases h
              | false =>
                dsimp only at h
                cases h
    | Sum.inr [] =>
      rw [dfsGo] at h
      cases h
    | Sum.inr (d :: deps) =>
      rw [dfsGo] at h
      have hb1 : collectBound wf (vg ++ vd) (Sum.inl d) ≤ fuel := by
        simp only [collectBound, List.length_cons] at hb ⊢
        omega
      cases hfst : dfsGo wf fuel (Sum.inl d) vg vd with
      | none => exact (ih _ _ _ hb1) hfst
      | some r =>
        obtain ⟨b1, vg1, vd1⟩ := r
        rw [hfst] at h
        cases b1 with
        | true =>
          dsimp only at h
          cases h
        | false =>
          dsimp only at h
          have hmono := dfsGo_union_mono wf fuel (Sum.inl d) vg vd false vg1 vd1 hfst
          have hsub : ∀ x ∈ vg ++ vd, x ∈ vg1 ++ vd1 := by
            intro x hx
            rw [List.mem_append]
            exact hmono x (List.mem_append.mp hx)
          have hwa := wrem_antitone wf (vg ++ vd) (vg1 ++ vd1) hsub
          have hb2 : collectBound wf (vg1 ++ vd1) (Sum.inr deps) ≤ fuel := by
            simp only [collectBound, List.length_cons] at hb ⊢
            omega
          exact (ih _ _ _ hb2) h

theorem dfsGo_cycle (wf : WorkflowDefinition) (a b : Str) (tda tdb : TaskDef)
    (hab : alookup wf.tasks a = some tda) (hba : alookup wf.tasks b = some tdb)
    (hadep : b ∈ tda.dependsOn) (hbdep : a ∈ tdb.dependsOn) :
    ∀ (fuel : Nat) (job : Sum Str (List Str)) (vg vd : List Str)
      (rb : Bool) (rvg rvd : List Str),
      dfsGo wf fuel job vg vd = some (rb, rvg, rvd) →
      a ∉ vd → b ∉ vd →
      ((rb = false → a ∉ rvd ∧ b ∉ rvd) ∧
       (job = Sum.inl a → rb = true) ∧
       (job = Sum.inl b → rb = true) ∧
       (∀ deps, job = Sum.inr deps → a ∈ deps → rb = true) ∧
       (∀ deps, job = Sum.inr deps → b ∈ deps → rb = true)) := by
  intro fuel
  induction fuel with
  | zero =>
    intro job vg vd rb rvg rvd h
    cases h
  | succ fuel ih =>
    intro job vg vd rb rvg rvd h ha hb
    match job with
    | Sum.inl t =>
      rw [dfsGo] at h
      by_cases htg : t ∈ vg
      · rw [if_pos htg] at h
        simp only [Option.some.injEq, Prod.mk.injEq] at h
        obtain ⟨h1, h2, h3⟩ := h
        subst h1
        refine ⟨?_, ?_, ?_, ?_, ?_⟩
        · intro hf
          cases hf
        · intro _
          rfl
        · intro _
          rfl
        · intro deps heq
          cases heq
        · intro deps heq
          cases heq
      · rw [if_neg htg] at h
        by_cases htd : t ∈ vd
        · rw [if_pos htd] at h
          simp only [Option.some.injEq, Prod.mk.injEq] at h
          obtain ⟨h1, h2, h3⟩ := h
          subst h1
          subst h2
          subst h3
          refine ⟨fun _ => ⟨ha, hb⟩, ?_, ?_, ?_, ?_⟩
          · intro heq
            injection heq with hta
            exact absurd (hta ▸ htd) ha
          · intro heq
            injection heq with htb
            exact absurd (htb ▸ htd) hb
          · intro deps heq
            cases heq
          · intro deps heq
            cases heq
        · rw [if_neg htd] at h
          dsimp only at h
          cases hlk : alookup wf.tasks t with
          | none =>
            rw [hlk] at h
            dsimp only at h
            simp only [Option.some.injEq, Prod.mk.injEq] at h
            obtain ⟨h1, h2, h3⟩ := h
            subst h1
            subst h2
            subst h3
            refine ⟨fun _ => ⟨ha, hb⟩, ?_, ?_, ?_, ?_⟩
            · intro heq
              injection heq with hta
              rw [hta, hab] at hlk
              cases hlk
            · intro heq
              injection heq with htb
              rw [htb, hba] at hlk
              cases hlk
            · intro deps heq
              cases heq
            · intro deps heq
              cases heq
          | some td =>
            rw [hlk] at h
            dsimp only at h
            cases hin : dfsGo wf fuel (Sum.inr td.dependsOn) (t :: vg) vd with
            | none =>
              rw [hin] at h
              cases h
            | some r1 =>
              obtain ⟨b1, vg1, vd1⟩ := r1
              rw [hin] at h
              have IH1 := ih (Sum.inr td.dependsOn) (t :: vg) vd b1 vg1 vd1 hin ha hb
              cases b1 with
              | true =>
                dsimp only at h
                simp only [Option.some.injEq, Prod.mk.injEq] at h
                obtain ⟨h1, h2, h3⟩ := h
                subst h1
                refine ⟨?_, ?_, ?_, ?_, ?_⟩
                · intro hf
                  cases hf
                · intro _
                  rfl
                · intro _
                  rfl
                · intro deps heq
                  cases heq
                · intro deps heq
                  cases heq
              | false =>
                dsimp only at h
                simp only [Option.some.injEq, Prod.mk.injEq] at h
                obtain ⟨h1, h2, h3⟩ := h
                subst h1
                subst h2
                subst h3
                obtain ⟨ha1, hb1⟩ := IH1.1 rfl
                have hta : t ≠ a := by
                  intro hc
                  subst hc
                  rw [hab] at hlk
                  injection hlk with h4
                  subst h4
                  have h5 := IH1.2.2.2.2 tda.dependsOn rfl hadep
                  cases h5
                have htb : t ≠ b := by
                  intro hc
                  subst hc
                  rw [hba] at hlk
                  injection hlk with h4
                  subst h4
                  have h5 := IH1.2.2.2.1 tdb.dependsOn rfl hbdep
                  cases h5
                refine ⟨?_, ?_, ?_, ?_, ?_⟩
                · intro _
                  constructor
                  · intro hc
                    rcases List.mem_cons.mp hc with h4 | h4
                    · exact hta h4.symm
                    · exact ha1 h4
                  · intro hc
                    rcases List.mem_cons.mp hc with h4 | h4
                    · exact htb h4.symm
                    · exact hb1 h4
                · intro heq
                  injection heq with h4
                  exact absurd h4 hta
                · intro heq
                  injection heq with h4
                  exact absurd h4 htb
                · intro deps heq
                  cases heq
                · intro deps heq
                  cases heq
    | Sum.inr [] =>
      rw [dfsGo] at h
      simp only [Option.some.injEq, Prod.mk.injEq] at h
      obtain ⟨h1, h2, h3⟩ := h
      subst h1
      subst h2
      subst h3
      refine ⟨fun _ => ⟨ha, hb⟩, ?_, ?_, ?_, ?_⟩
      · intro heq
        cases heq
      · intro heq
        cases heq
      · intro deps heq hmem
        injection heq with h4
        rw [← h4] at hmem
        exact absurd hmem (List.not_mem_nil a)
      · intro deps heq hmem
        injection heq with h4
        rw [← h4] at hmem
        exact absurd hmem (List.not_mem_nil b)
    | Sum.inr (d :: deps2) =>
      rw [dfsGo] at h
      cases hfst : dfsGo wf fuel (Sum.inl d) vg vd with
      | none =>
        rw [hfst] at h
        cases h
      | some r1 =>
        obtain ⟨b1, vg1, vd1⟩ := r1
        rw [hfst] at h
        have IH1 := ih (Sum.inl d) vg vd b1 vg1 vd1 hfst ha hb
        cases b1 with
        | true =>
          dsimp only at h
          simp only [Option.some.injEq, Prod.mk.injEq] at h
          obtain ⟨h1, h2, h3⟩ := h
          subst h1
          refine ⟨?_, ?_, ?_, ?_, ?_⟩
          · intro hf
            cases hf
          · intro heq
            cases heq
          · intro heq
            cases heq
          · intro deps heq hmem
            rfl
          · intro deps heq hmem
            rfl
        | false =>
          dsimp only at h
          obtain ⟨ha1, hb1⟩ := IH1.1 rfl
          have IH2 := ih (Sum.inr deps2) vg1 vd1 rb rvg rvd h ha1 hb1
          refine ⟨IH2.1, ?_, ?_, ?_, ?_⟩
          · intro heq
            cases heq
          · intro heq
            cases heq
          · intro deps heq hmem
            injection heq with h4
            rw [← h4] at hmem
            rcases List.mem_cons.mp hmem with h5 | h5
            · subst h5
              have h6 := IH1.2.1 rfl
              cases h6
            · exact IH2.2.2.2.1 deps2 rfl h5
          · intro deps heq hmem
            injection heq with h4
            rw [← h4] at hmem
            rcases List.mem_cons.mp hmem with h5 | h5
            · subst h5
              have h6 := IH1.2.2.1 rfl
              cases h6
            · exact IH2.2.2.2.2 deps2 rfl h5

theorem collectBound_inl_le_dfsFuel (wf : WorkflowDefinition) (t : Str) (v : List Str) :
    collectBound wf v (Sum.inl t) ≤ dfsFuel wf := by
  have h1 : collectBound wf [] (Sum.inl t) ≤ collectFuel wf := collectBound_le_fuel wf t
  have h2 : wrem wf v ≤ wrem wf [] :=
    wrem_antitone wf [] v (fun x hx => absurd hx (List.not_mem_nil x))
  have h3 : dfsFuel wf = collectFuel wf := rfl
  simp only [collectBound] at h1 ⊢
  omega

theorem alookup_mem {α : Type} (m : List (Str × α)) (k : Str) (v : α)
    (h : alookup m k = some v) : (k, v) ∈ m := by
  induction m with
  | nil => cases h
  | cons p rest ih =>
    obtain ⟨k2, v2⟩ := p
    rw [alookup] at h
    by_cases hk : k2 = k
    · rw [if_pos hk] at h
      injection h with hv
      subst hk
      subst hv
      exact List.mem_cons_self _ _
    · rw [if_neg hk] at h
      exact List.mem_cons_of_mem _ (ih h)

theorem validateNoCycles_foldl_false (wf : WorkflowDefinition) :
    ∀ (l : List (Str × TaskDef)) (acc : Bool × List Str × List Str),
      acc.1 = false →
      (l.foldl (fun acc p =>
        match dfsGo wf (dfsFuel wf) (Sum.inl p.1) acc.2.1 acc.2.2 with
        | none => acc
        | some (true, vg, vd) => (false, vg, vd)
        | some (false, vg, vd) => (acc.1, vg, vd)) acc).1 = false := by
  intro l
  induction l with
  | nil =>
    intro acc hacc
    exact hacc
  | cons p rest ih =>
    intro acc hacc
    rw [List.foldl_cons]
    cases hd : dfsGo wf (dfsFuel wf) (Sum.inl p.1) acc.2.1 acc.2.2 with
    | none =>
      exact ih acc hacc
    | some r =>
      obtain ⟨rb, rvg, rvd⟩ := r
      cases rb with
      | true =>
        dsimp only
        exact ih _ rfl
      | false =>
        dsimp only
        exact ih _ hacc

theorem validateNoCycles_foldl_cycle (wf : WorkflowDefinition) (a b : Str)
    (tda tdb : TaskDef)
    (hab : alookup wf.tasks a = some tda) (hba : alookup wf.tasks b = some tdb)
    (hadep : b ∈ tda.dependsOn) (hbdep : a ∈ tdb.dependsOn) :
    ∀ (l : List (Str × TaskDef)) (acc : Bool × List Str × List Str),
      (a, tda) ∈ l →
      (acc.1 = false ∨ (a ∉ acc.2.2 ∧ b ∉ acc.2.2)) →
      (l.foldl (fun acc p =>
        match dfsGo wf (dfsFuel wf) (Sum.inl p.1) acc.2.1 acc.2.2 with
        | none => acc
        | some (true, vg, vd) => (false, vg, vd)
        | some (false, vg, vd) => (acc.1, vg, vd)) acc).1 = false := by
  intro l
  induction l with
  | nil =>
    intro acc hmem
    exact absurd hmem (List.not_mem_nil _)
  | cons p rest ih =>
    intro acc hmem hinv
    rcases hinv with hf | ⟨ha2, hb2⟩
    · exact validateNoCycles_foldl_false wf (p :: rest) acc hf
    · rw [List.foldl_cons]
      rcases List.mem_cons.mp hmem with hp | hp
      · subst hp
        dsimp only
        cases hd : dfsGo wf (dfsFuel wf) (Sum.inl a) acc.2.1 acc.2.2 with
        | none =>
          exfalso
          exact dfsGo_total wf (dfsFuel wf) (Sum.inl a) acc.2.1 acc.2.2
            (collectBound_inl_le_dfsFuel wf a _) hd
        | some r =>
          obtain ⟨rb, rvg, rvd⟩ := r
          have hcyc := dfsGo_cycle wf a b tda tdb hab hba hadep hbdep
            (dfsFuel wf) (Sum.inl a) acc.2.1 acc.2.2 rb rvg rvd hd ha2 hb2
          have hrb : rb = true := hcyc.2.1 rfl
          subst hrb
          dsimp only
          exact validateNoCycles_foldl_false wf rest _ rfl
      · cases hd : dfsGo wf (dfsFuel wf) (Sum.inl p.1) acc.2.1 acc.2.2 with
        | none =>
          exact ih acc hp (Or.inr ⟨ha2, hb2⟩)
        | some r =>
          obtain ⟨rb, rvg, rvd⟩ := r
          cases rb with
          | true =>
            dsimp only
            exact validateNoCycles_foldl_false wf rest _ rfl
          | false =>
            dsimp only
            have hcyc := dfsGo_cycle wf a b tda tdb hab hba hadep hbdep
              (dfsFuel wf) (Sum.inl p.1) acc.2.1 acc.2.2 false rvg rvd hd ha2 hb2
            obtain ⟨ha3, hb3⟩ := hcyc.1 rfl
            exact ih _ hp (Or.inr ⟨ha3, hb3⟩)

theorem validateNoCycles_false (wf : WorkflowDefinition) (a b : Str)
    (tda tdb : TaskDef)
    (hab : alookup wf.tasks a = some tda) (hba : alookup wf.tasks b = some tdb)
    (hadep : b ∈ tda.dependsOn) (hbdep : a ∈ tdb.dependsOn) :
    validateNoCycles wf = false := by
  unfold validateNoCycles
  exact validateNoCycles_foldl_cycle wf a b tda tdb hab hba hadep hbdep
    wf.tasks (true, [], []) (alookup_mem wf.tasks a tda hab)
    (Or.inr ⟨List.not_mem_nil a, List.not_mem_nil b⟩)

theorem validateWorkflow_false_of_cycle (wf : WorkflowDefinition) (a b : Str)
    (tda tdb : TaskDef)
    (hab : alookup wf.tasks a = some tda) (hba : alookup wf.tasks b = some tdb)
    (hadep : b ∈ tda.dependsOn) (hbdep : a ∈ tdb.dependsOn) :
    validateWorkflow wf = false := by
  unfold validateWorkflow
  rw [validateNoCycles_false wf a b tda tdb hab hba hadep hbdep]
  rw [Bool.and_false]

theorem validateAll_foldl_false (reg : Registry) :
    ∀ (acc : Bool), acc = false →
      (reg.foldl (fun allOk p => if validateWorkflow p.2 then allOk else false) acc) =
        false := by
  induction reg with
  | nil =>
    intro acc hacc
    exact hacc
  | cons p rest ih =>
    intro acc hacc
    rw [List.foldl_cons]
    by_cases hv : validateWorkflow p.2 = true
    · rw [if_pos hv]
      exact ih acc hacc
    · rw [if_neg hv]
      exact ih false rfl

theorem validateAll_false_of_mem (reg : Registry) (k : Str) (wf : WorkflowDefinition)
    (hmem : (k, wf) ∈ reg) (hwf : validateWorkflow wf = false) :
    validateAll reg = false := by
  unfold validateAll
  induction reg with
  | nil => exact absurd hmem (List.not_mem_nil _)
  | cons p rest ih =>
    rw [List.foldl_cons]
    rcases List.mem_cons.mp hmem with hp | hp
    · subst hp
      dsimp only
      rw [hwf]
      rw [if_neg (by simp)]
      exact validateAll_foldl_false rest false rfl
    · by_cases hv : validateWorkflow p.2 = true
      · rw [if_pos hv]
        exact ih hp
      · rw [if_neg hv]
        exact validateAll_foldl_false rest false rfl

theorem alookup_updmap {α : Type} (f : α → α) (k a : Str) (hka : k ≠ a) :
    ∀ m : List (Str × α),
      alookup (m.map (fun p => if p.1 = k then (p.1, f p.2) else p)) a = alookup m a := by
  intro m
  induction m with
  | nil => rfl
  | cons p rest ih =>
    obtain ⟨k2, v⟩ := p
    rw [List.map_cons]
    by_cases hk2 : k2 = k
    · rw [if_pos (by simpa using hk2)]
      rw [alookup, alookup]
      dsimp only
      rw [if_neg (by
        intro hc
        exact hka (hk2 ▸ hc)), if_neg (fun hc => hka (hk2 ▸ hc))]
      exact ih
    · rw [if_neg (by simpa using hk2)]
      rw [alookup, alookup]
      by_cases hk2a : k2 = a
      · rw [if_pos hk2a, if_pos hk2a]
      · rw [if_neg hk2a, if_neg hk2a]
        exact ih

theorem lookupState_updState_ne (run : WorkflowRun) (k a : Str) (hka : k ≠ a)
    (f : TaskInstanceState → TaskInstanceState) :
    lookupState (updState run k f) a = lookupState run a := by
  unfold lookupState updState
  exact alookup_updmap f k a hka run.taskStates

theorem executeTaskInstance_lookup_ne (wf : WorkflowDefinition) (fs : Fs)
    (exec : Exec) (run : WorkflowRun) (td : TaskDef) (k a : Str) (hka : k ≠ a) :
    lookupState (executeTaskInstance wf fs exec run td k).2 a = lookupState run a := by
  rw [executeTaskInstance]
  split
  · rw [lookupState_updState_ne _ _ _ hka, lookupState_updState_ne _ _ _ hka]
  · rename_i ri hri
    dsimp only
    cases hlu : lookupState
        (updState
          (updState run k fun s =>
            { s with state := TaskInstanceStateKind.Running, attemptCount := s.attemptCount + 1 })
          k fun s =>
          { s with inputValues := ri, inputsJson := summaryOf ri }) k with
    | none =>
      rw [lookupState_updState_ne _ _ _ hka, lookupState_updState_ne _ _ _ hka]
    | some stB =>
      dsimp only
      split
      · dsimp only
        split
        · rw [lookupState_updState_ne _ _ _ hka, lookupState_updState_ne _ _ _ hka,
            lookupState_updState_ne _ _ _ hka, lookupState_updState_ne _ _ _ hka]
        · rw [lookupState_updState_ne _ _ _ hka, lookupState_updState_ne _ _ _ hka,
            lookupState_updState_ne _ _ _ hka]
      · split
        · rw [lookupState_updState_ne _ _ _ hka, lookupState_updState_ne _ _ _ hka,
            lookupState_updState_ne _ _ _ hka, lookupState_updState_ne _ _ _ hka,
            lookupState_updState_ne _ _ _ hka]
        · rw [lookupState_updState_ne _ _ _ hka, lookupState_updState_ne _ _ _ hka,
            lookupState_updState_ne _ _ _ hka, lookupState_updState_ne _ _ _ hka,
            lookupState_updState_ne _ _ _ hka]

theorem markRunningGo_lookup_ne (a : Str) :
    ∀ (ids : List Str) (run : WorkflowRun), a ∉ ids →
      lookupState (markRunningGo ids run) a = lookupState run a := by
  intro ids
  induction ids with
  | nil =>
    intro run _
    rfl
  | cons k rest ih =>
    intro run hna
    rw [markRunningGo]
    have hka : k ≠ a := fun hc => hna (hc ▸ List.mem_cons_self k rest)
    rw [ih _ (fun hc => hna (List.mem_cons_of_mem k hc))]
    exact lookupState_updState_ne run k a hka _

theorem dispatchGo_lookup_ne (wf : WorkflowDefinition) (fs : Fs) (exec : Exec)
    (a : Str) :
    ∀ (ids : List Str) (run : WorkflowRun), a ∉ ids →
      lookupState (dispatchGo wf fs exec ids run) a = lookupState run a := by
  intro ids
  induction ids with
  | nil =>
    intro run _
    rfl
  | cons k rest ih =>
    intro run hna
    rw [dispatchGo]
    have hka : k ≠ a := fun hc => hna (hc ▸ List.mem_cons_self k rest)
    have hrest : a ∉ rest := fun hc => hna (List.mem_cons_of_mem k hc)
    cases alookup wf.tasks k with
    | none => exact ih run hrest
    | some td =>
      dsimp only
      by_cases hs : (executeTaskInstance wf fs exec run td k).1 = true
      · rw [if_pos hs, ih _ hrest, lookupState_updState_ne _ _ _ hka]
        exact executeTaskInstance_lookup_ne wf fs exec run td k a hka
      · rw [if_neg hs, ih _ hrest]
        have h2 : lookupState { updState (executeTaskInstance wf fs exec run td k).2 k
            (fun s => { s with state := TaskInstanceStateKind.Failed }) with
            hasFailed := true } a =
            lookupState (updState (executeTaskInstance wf fs exec run td k).2 k
              (fun s => { s with state := TaskInstanceStateKind.Failed })) a := rfl
        rw [h2, lookupState_updState_ne _ _ _ hka]
        exact executeTaskInstance_lookup_ne wf fs exec run td k a hka

end Jarvis
namespace Jarvis

theorem scanGo_preserves (wf : WorkflowDefinition) (fs : Fs) (a b : Str)
    (tda tdb : TaskDef)
    (hab : alookup wf.tasks a = some tda) (hba : alookup wf.tasks b = some tdb)
    (hadep : b ∈ tda.dependsOn) (hbdep : a ∈ tdb.dependsOn) :
    ∀ (keys : List Str) (run : WorkflowRun) (progress : Bool) (ready : List Str),
      lookupState run a = some initialTaskState →
      lookupState run b = some initialTaskState →
      a ∉ ready → b ∉ ready →
      (lookupState (scanGo wf fs keys run progress ready).1 a = some initialTaskState ∧
       lookupState (scanGo wf fs keys run progress ready).1 b = some initialTaskState ∧
       a ∉ (scanGo wf fs keys run progress ready).2.2 ∧
       b ∉ (scanGo wf fs keys run progress ready).2.2) := by
  intro keys
  induction keys with
  | nil =>
    intro run progress ready hA hB hra hrb
    exact ⟨hA, hB, hra, hrb⟩
  | cons k rest ih =>
    intro run progress ready hA hB hra hrb
    rw [scanGo]
    cases hlu : lookupState run k with
    | none => exact ih run progress ready hA hB hra hrb
    | some st =>
      dsimp only
      by_cases hp : pendingOrReady st.state = false
      · rw [if_pos hp]
        exact ih run progress ready hA hB hra hrb
      · rw [if_neg hp]
        cases hlkk : alookup wf.tasks k with
        | none =>
          dsimp only
          have hka : k ≠ a := by
            rintro rfl
            rw [hab] at hlkk
            cases hlkk
          have hkb : k ≠ b := by
            rintro rfl
            rw [hba] at hlkk
            cases hlkk
          have eA : lookupState { updState run k
              (fun s => { s with state := TaskInstanceStateKind.Failed }) with
              hasFailed := true } a = lookupState (updState run k
              (fun s => { s with state := TaskInstanceStateKind.Failed })) a := rfl
          have eB : lookupState { updState run k
              (fun s => { s with state := TaskInstanceStateKind.Failed }) with
              hasFailed := true } b = lookupState (updState run k
              (fun s => { s with state := TaskInstanceStateKind.Failed })) b := rfl
          refine ih _ true ready ?_ ?_ hra hrb
          · rw [eA, lookupState_updState_ne run k a hka]
            exact hA
          · rw [eB, lookupState_updState_ne run k b hkb]
            exact hB
        | some td =>
          dsimp only
          by_cases hr : isTaskReady run td = false
          · rw [if_pos hr]
            exact ih run progress ready hA hB hra hrb
          · rw [if_neg hr]
            have hka : k ≠ a := by
              rintro rfl
              rw [hab] at hlkk
              injection hlkk with h4
              subst h4
              apply hr
              unfold isTaskReady
              refine List.all_eq_false.mpr ⟨b, hadep, ?_⟩
              rw [lookupState] at hB
              unfold lookupState
              rw [hB]
              decide
            have hkb : k ≠ b := by
              rintro rfl
              rw [hba] at hlkk
              injection hlkk with h4
              subst h4
              apply hr
              unfold isTaskReady
              refine List.all_eq_false.mpr ⟨a, hbdep, ?_⟩
              rw [lookupState] at hA
              unfold lookupState
              rw [hA]
              decide
            cases resolveFreshnessPathsForTask wf run td k with
            | none =>
              dsimp only
              refine ih run progress (ready ++ [k]) hA hB ?_ ?_
              · intro hc
                rcases List.mem_append.mp hc with h1 | h1
                · exact hra h1
                · exact hka (List.mem_singleton.mp h1).symm
              · intro hc
                rcases List.mem_append.mp hc with h1 | h1
                · exact hrb h1
                · exact hkb (List.mem_singleton.mp h1).symm
            | some pr =>
              obtain ⟨ips, ops⟩ := pr
              dsimp only
              by_cases hu : isTaskUpToDate wf k ⟨ips, ops⟩
                  (resolveUpstreamOutputs wf run) fs = true
              · rw [if_pos hu]
                refine ih _ true ready ?_ ?_ hra hrb
                · rw [lookupState_updState_ne _ k a hka,
                    lookupState_updState_ne _ k a hka]
                  exact hA
                · rw [lookupState_updState_ne _ k b hkb,
                    lookupState_updState_ne _ k b hkb]
                  exact hB
              · rw [if_neg hu]
                refine ih run progress (ready ++ [k]) hA hB ?_ ?_
                · intro hc
                  rcases List.mem_append.mp hc with h1 | h1
                  · exact hra h1
                  · exact hka (List.mem_singleton.mp h1).symm
                · intro hc
                  rcases List.mem_append.mp hc with h1 | h1
                  · exact hrb h1
                  · exact hkb (List.mem_singleton.mp h1).symm

end Jarvis
namespace Jarvis

theorem executeOneReadyWave_preserves (wf : WorkflowDefinition) (fs : Fs) (exec : Exec)
    (a b : Str) (tda tdb : TaskDef)
    (hab : alookup wf.tasks a = some tda) (hba : alookup wf.tasks b = some tdb)
    (hadep : b ∈ tda.dependsOn) (hbdep : a ∈ tdb.dependsOn)
    (run : WorkflowRun)
    (hA : lookupState run a = some initialTaskState)
    (hB : lookupState run b = some initialTaskState) :
    lookupState (executeOneReadyWave wf fs exec run).1 a = some initialTaskState ∧
    lookupState (executeOneReadyWave wf fs exec run).1 b = some initialTaskState := by
  rw [executeOneReadyWave]
  rcases hscan : scanGo wf fs (run.taskStates.map Prod.fst) run false [] with
    ⟨run1, progress, readyIds⟩
  dsimp only
  have hpres := scanGo_preserves wf fs a b tda tdb hab hba hadep hbdep
    (run.taskStates.map Prod.fst) run false [] hA hB
    (List.not_mem_nil a) (List.not_mem_nil b)
  rw [hscan] at hpres
  obtain ⟨h1, h2, h3, h4⟩ := hpres
  by_cases hre : readyIds = []
  · rw [if_pos hre]
    exact ⟨h1, h2⟩
  · rw [if_neg hre]
    dsimp only
    rw [dispatchGo_lookup_ne wf fs exec a readyIds _ h3,
      markRunningGo_lookup_ne a readyIds _ h3,
      dispatchGo_lookup_ne wf fs exec b readyIds _ h4,
      markRunningGo_lookup_ne b readyIds _ h4]
    exact ⟨h1, h2⟩

theorem executeWorkflowLoop_C9 (wf : WorkflowDefinition) (fs : Fs) (exec : Exec)
    (a b : Str) (tda tdb : TaskDef)
    (hab : alookup wf.tasks a = some tda) (hba : alookup wf.tasks b = some tdb)
    (hadep : b ∈ tda.dependsOn) (hbdep : a ∈ tdb.dependsOn) :
    ∀ (fuel : Nat) (run : WorkflowRun) (os : Bool),
      lookupState run a = some initialTaskState →
      lookupState run b = some initialTaskState →
      (run.isCompleted = true → os = false ∨ run.hasFailed = true) →
      (lookupState (executeWorkflowLoop wf fs exec fuel run os).1 a =
          some initialTaskState ∧
       lookupState (executeWorkflowLoop wf fs exec fuel run os).1 b =
          some initialTaskState ∧
       ((executeWorkflowLoop wf fs exec fuel run os).2 = false ∨
        (executeWorkflowLoop wf fs exec fuel run os).1.hasFailed = true)) := by
  intro fuel
  induction fuel with
  | zero =>
    intro run os hA hB hJ
    rw [executeWorkflowLoop]
    by_cases hc : run.isCompleted = true
    · rw [if_pos hc]
      exact ⟨hA, hB, hJ hc⟩
    · rw [if_neg hc]
      exact ⟨hA, hB, Or.inl rfl⟩
  | succ fuel ih =>
    intro run os hA hB hJ
    rw [executeWorkflowLoop]
    by_cases hc : run.isCompleted = true
    · rw [if_pos hc]
      exact ⟨hA, hB, hJ hc⟩
    · rw [if_neg hc]
      dsimp only
      rcases hw : executeOneReadyWave wf fs exec run with ⟨run1, mp⟩
      have hpres := executeOneReadyWave_preserves wf fs exec a b tda tdb hab hba
        hadep hbdep run hA hB
      rw [hw] at hpres
      obtain ⟨hA1, hB1⟩ := hpres
      have h1c : run1.isCompleted = false := by
        have h2 := executeOneReadyWave_isCompleted wf fs exec run
        rw [hw] at h2
        dsimp only at h2
        rw [h2]
        revert hc
        cases run.isCompleted <;> simp
      by_cases hmp : mp = false
      · rw [if_pos hmp]
        dsimp only
        have hact : run1.taskStates.any (fun p => activeState p.2.state) = true := by
          refine List.any_eq_true.mpr ⟨(a, initialTaskState), ?_, ?_⟩
          · exact alookup_mem run1.taskStates a initialTaskState hA1
          · rfl
        rw [hact, if_pos rfl]
        refine ih _ _ hA1 hB1 ?_
        intro _
        exact Or.inr rfl
      · rw [if_neg hmp]
        dsimp only
        have hterm : run1.taskStates.all (fun p => terminalState p.2.state) = false := by
          refine List.all_eq_false.mpr ⟨(a, initialTaskState),
            alookup_mem run1.taskStates a initialTaskState hA1, ?_⟩
          intro hc
          cases hc
        rw [hterm, if_neg (by simp)]
        refine ih run1 os hA1 hB1 ?_
        intro hcc
        rw [h1c] at hcc
        cases hcc

theorem executeWorkflow_C9 (wf : WorkflowDefinition) (fs : Fs) (exec : Exec)
    (a b : Str) (tda tdb : TaskDef)
    (hab : alookup wf.tasks a = some tda) (hba : alookup wf.tasks b = some tdb)
    (hadep : b ∈ tda.dependsOn) (hbdep : a ∈ tdb.dependsOn)
    (run : WorkflowRun) (h0 : run.isCompleted = false)
    (hA : lookupState run a = some initialTaskState)
    (hB : lookupState run b = some initialTaskState) :
    (executeWorkflow wf fs exec run).2 = false ∧
    lookupState (executeWorkflow wf fs exec run).1 a = some initialTaskState ∧
    lookupState (executeWorkflow wf fs exec run).1 b = some initialTaskState := by
  have hl := executeWorkflowLoop_C9 wf fs exec a b tda tdb hab hba hadep hbdep
    (run.taskStates.length + 1) run true hA hB
    (by
      intro hcc
      rw [h0] at hcc
      cases hcc)
  rw [executeWorkflow]
  rcases hlp : executeWorkflowLoop wf fs exec (run.taskStates.length + 1) run true with
    ⟨runF, osF⟩
  rw [hlp] at hl
  dsimp only at hl ⊢
  obtain ⟨hA2, hB2, hOr⟩ := hl
  refine ⟨?_, hA2, hB2⟩
  rcases hOr with h | h
  · rw [h, Bool.false_and]
  · rw [h]
    simp

theorem alookup_map_const {α β : Type} (c : β) :
    ∀ (m : List (Str × α)) (k : Str),
      alookup (m.map (fun p => (p.1, c))) k = (alookup m k).map (fun _ => c) := by
  intro m
  induction m with
  | nil =>
    intro k
    rfl
  | cons p rest ih =>
    intro k
    obtain ⟨k2, v⟩ := p
    rw [List.map_cons, alookup, alookup]
    by_cases hk : k2 = k
    · rw [if_pos hk, if_pos hk]
      rfl
    · rw [if_neg hk, if_neg hk]
      exact ih k

end Jarvis
namespace Jarvis

/-- C9 (amended): for a workflow whose tasks `a` and `b` name each other in
depends_on, `ValidateNoCycles` reports the cycle, so `ValidateWorkflow` and
`validate_all` fail; `RunWorkflowOnce` does NOT refuse to execute the
invalid workflow — it builds a fresh run and attempts it — but the cyclic
tasks never become ready, stay Pending in their initial state, and the run
returns false. -/
theorem cycle_rejection_claimC9_amended (reg : Registry) (fs : Fs) (exec : Exec)
    (workflowId runId genId : Str) (wf : WorkflowDefinition) (a b : Str)
    (tda tdb : TaskDef)
    (hreg : alookup reg workflowId = some wf)
    (hab : alookup wf.tasks a = some tda) (hba : alookup wf.tasks b = some tdb)
    (hadep : b ∈ tda.dependsOn) (hbdep : a ∈ tdb.dependsOn) :
    validateNoCycles wf = false ∧
    validateWorkflow wf = false ∧
    validateAll reg = false ∧
    (runWorkflowOnce reg fs exec workflowId runId genId).1 = false ∧
    ((runWorkflowOnce reg fs exec workflowId runId genId).2.map
        (fun r => (lookupState r a, lookupState r b))) =
      some (some initialTaskState, some initialTaskState) := by
  have hvw := validateWorkflow_false_of_cycle wf a b tda tdb hab hba hadep hbdep
  refine ⟨validateNoCycles_false wf a b tda tdb hab hba hadep hbdep, hvw,
    validateAll_false_of_mem reg workflowId wf (alookup_mem reg workflowId wf hreg) hvw,
    ?_, ?_⟩
  all_goals {
    rw [runWorkflowOnce, hreg]
    dsimp only
    have hA0 : lookupState
        { runId := if runId = [] then genId else runId
          workflowId := wf.id
          taskStates := wf.tasks.map (fun p => (p.1, initialTaskState))
          isCompleted := false
          hasFailed := false } a = some initialTaskState := by
      unfold lookupState
      dsimp only
      rw [alookup_map_const initialTaskState wf.tasks a, hab]
      rfl
    have hB0 : lookupState
        { runId := if runId = [] then genId else runId
          workflowId := wf.id
          taskStates := wf.tasks.map (fun p => (p.1, initialTaskState))
          isCompleted := false
          hasFailed := false } b = some initialTaskState := by
      unfold lookupState
      dsimp only
      rw [alookup_map_const initialTaskState wf.tasks b, hba]
      rfl
    have hrun := executeWorkflow_C9 wf fs exec a b tda tdb hab hba hadep hbdep
      { runId := if runId = [] then genId else runId
        workflowId := wf.id
        taskStates := wf.tasks.map (fun p => (p.1, initialTaskState))
        isCompleted := false
        hasFailed := false } rfl hA0 hB0
    rcases hew : executeWorkflow wf fs exec
        { runId := if runId = [] then genId else runId
          workflowId := wf.id
          taskStates := wf.tasks.map (fun p => (p.1, initialTaskState))
          isCompleted := false
          hasFailed := false } with ⟨runF, success⟩
    rw [hew] at hrun
    dsimp only at hrun ⊢
    obtain ⟨hs, hA2, hB2⟩ := hrun
    first
    | exact hs
    | (rw [Option.map_some']
       rw [hA2, hB2])
  }

/-- C9 counterexample: in `wfC9` tasks `a` and `b` name each other and task
`c` is independent; validation fails, yet `run_once` does not refuse — it
executes the workflow, task `c` runs to Succeeded with one attempt, `a`
stays Pending, and the overall result is false. -/
theorem cycle_rejection_claimC9_counterexample :
    validateWorkflow wfC9 = false ∧
    validateAll regC9 = false ∧
    (runWorkflowOnce regC9 fsEmpty execAlwaysOk (chars ("w9")) (chars ("r"))
      (chars ("g"))).1 = false ∧
    ((runWorkflowOnce regC9 fsEmpty execAlwaysOk (chars ("w9")) (chars ("r"))
        (chars ("g"))).2.map
      (fun r => ((lookupState r (chars ("c"))).map (fun s => (s.state, s.attemptCount)),
        lookupState r (chars ("a"))))) =
      some (some (TaskInstanceStateKind.Succeeded, 1), some initialTaskState) := by
  decide

/-- C9 amended-theorem witness at the concrete mutually-dependent workflow. -/
theorem cycle_rejection_claimC9_amended_witness :
    alookup regC9 (chars ("w9")) = some wfC9 ∧
    (runWorkflowOnce regC9 fsEmpty execAlwaysOk (chars ("w9")) (chars ("r"))
      (chars ("g"))).1 = false :=
  ⟨by decide,
    (cycle_rejection_claimC9_amended regC9 fsEmpty execAlwaysOk (chars ("w9"))
      (chars ("r")) (chars ("g")) wfC9 (chars ("a")) (chars ("b")) tdC9a tdC9b
      (by decide) (by decide) (by decide) (by decide) (by decide)).2.2.2.1⟩

end Jarvis
